import Mathlib

/-!
# regex-go: tokenizer, Thompson compiler and backtracking matcher

A shallow embedding of `tokenizer.go`, `parser.go` and `matching.go`.

* A Go `string` is a sequence of bytes: `List Nat`, every element below 256.
* A Go runtime panic (index out of range, failed `strconv.Atoi`, explicit `panic`)
  is `Except.error Err.panic`.
* The recursive descent of the tokenizer and the recursive search of the matcher are
  driven by a fuel counter; `Except.error Err.fuel` means that the counter ran out, which
  is an artefact of the embedding and not a behaviour of the program.
* The pointer graph of `*state` values is an arena (`List State`); a pointer is the index
  of the state in the arena, allocation appends to the arena.
* Byte constants are written as numbers: `(` 40, `)` 41, `*` 42, `+` 43, `,` 44, `-` 45,
  `?` 63, `[` 91, `]` 93, the braces 123 and 125, `|` 124, and `a` 97, `b` 98, `c` 99,
  `d` 100, `x` 120.
-/

namespace RegexGo

/-- The two ways an embedded computation can stop without a value. -/
inductive Err where
  | panic
  | fuel
  deriving DecidableEq, Repr

/-- The bytes of an ASCII string literal. -/
def ascii (s : String) : List Nat := s.toList.map Char.toNat

/-! ## tokenizer.go -/

/-- The Go `token`: the tag `tokenType` together with the payload `value` of that tag. -/
inductive Token where
  | group (tokens : List Token)
  | bracket (literalsSet : List Nat)
  | or (values : List Token)
  | repeatT (min max : Int) (token : Token)
  | literal (ch : Nat)
  | groupUncaptured (tokens : List Token)
  deriving Repr

/-- The Go `parseContext`. -/
structure ParseContext where
  pos : Nat
  tokens : List Token
  deriving Repr

/-- The constant `repeatInfinity`. -/
def repeatInfinity : Int := -1

/-- The statement `ctx.pos++`. -/
def ParseContext.incr (ctx : ParseContext) : ParseContext :=
  { ctx with pos := ctx.pos + 1 }

/-- The statement `ctx.tokens = append(ctx.tokens, t)`. -/
def ParseContext.push (ctx : ParseContext) (t : Token) : ParseContext :=
  { ctx with tokens := ctx.tokens ++ [t] }

/-- The statements `lastToken := ctx.tokens[len(ctx.tokens)-1]` and
`ctx.tokens[len(ctx.tokens)-1] = token{repeat, {min, max, lastToken}}`; indexing an empty
slice panics. -/
def replaceLast (ctx : ParseContext) (min max : Int) : Except Err ParseContext :=
  match ctx.tokens.getLast? with
  | none => .error .panic
  | some lastToken =>
    .ok { ctx with tokens := ctx.tokens.dropLast ++ [Token.repeatT min max lastToken] }

/-- The function `parseRepeat`, `ch` being `regex[ctx.pos]`. -/
def parseRepeat (ch : Nat) (ctx : ParseContext) : Except Err ParseContext :=
  if ch = 42 then replaceLast ctx 0 repeatInfinity
  else if ch = 63 then replaceLast ctx 0 1
  else replaceLast ctx 1 repeatInfinity

/-- The value of the decimal digits `ds` read after the digits worth `acc`; `none` when a
byte is not a digit. -/
def digitsVal : List Nat → Nat → Option Nat
  | [], acc => some acc
  | d :: ds, acc => if 48 ≤ d ∧ d ≤ 57 then digitsVal ds (acc * 10 + (d - 48)) else none

/-- The library function `strconv.Atoi` on a 64-bit platform: an optional sign, then one or
more decimal digits, the value within the range of `int`; `none` stands for a non-nil
error. -/
def atoi (s : List Nat) : Option Int :=
  let body : List Nat := match s with
    | 43 :: r => r
    | 45 :: r => r
    | r => r
  let neg : Bool := s.head? == some 45
  match body with
  | [] => none
  | _ :: _ =>
    match digitsVal body 0 with
    | none => none
    | some n =>
      if neg then (if n ≤ 2 ^ 63 then some (-(n : Int)) else none)
      else (if n < 2 ^ 63 then some (n : Int) else none)

/-- The library function `strings.Split(s, ",")`: the fields between the commas, `cur`
being the field read so far. -/
def splitComma : List Nat → List Nat → List (List Nat)
  | [], cur => [cur]
  | c :: cs, cur => if c = 44 then cur :: splitComma cs [] else splitComma cs (cur ++ [c])

/-- The loop `for regex[ctx.pos] != '}' { ctx.pos++ }` of `parseRepeatSpecified` over the
bytes from `ctx.pos` on: the bytes passed over before the first `}`; reading past the end of
the pattern panics. -/
def scanBrace : List Nat → Except Err (List Nat)
  | [] => .error .panic
  | c :: cs => if c = 125 then .ok [] else (scanBrace cs).map (fun r => c :: r)

/-- The function `parseRepeatSpecified`. -/
def parseRepeatSpecified (regex : List Nat) (ctx : ParseContext) : Except Err ParseContext :=
  match scanBrace (regex.drop ctx.pos) with
  | .error e => .error e
  | .ok scanned =>
    -- `start := ctx.pos + 1`, and `ctx.pos` now is the index of the closing brace
    let boundariesStr := scanned.drop 1
    let ctx1 : ParseContext := { ctx with pos := ctx.pos + scanned.length }
    match splitComma boundariesStr [] with
    | [p0] =>
      match atoi p0 with
      | none => .error .panic
      | some value => replaceLast ctx1 value value
    | [p0, p1] =>
      match atoi p0 with
      | none => .error .panic
      | some min =>
        if p1 = [] then replaceLast ctx1 min repeatInfinity
        else match atoi p1 with
          | none => .error .panic
          | some max => replaceLast ctx1 min max
    | _ => .error .panic

/-- The library call `fmt.Sprintf("%c", ch)` on a byte: the UTF-8 encoding of the code point
`ch`, one byte below 128 and two bytes from 128 to 255. -/
def sprintfC (ch : Nat) : List Nat :=
  if ch < 128 then [ch] else [192 + ch / 64, 128 + ch % 64]

/-- The first loop of `parseBracket` over the bytes from `ctx.pos + 1` on: the collected
`literals` and the number of bytes passed over before the closing bracket. Reading past
the last byte of the pattern panics, and so does a `-` with no literal collected before
it. -/
def bracketScan : List Nat → List (List Nat) → Nat → Except Err (List (List Nat) × Nat)
  | [], _, _ => .error .panic
  | ch :: rest, literals, n =>
    if ch = 93 then .ok (literals, n)
    else if ch = 45 then
      match rest with
      | [] => .error .panic
      | next :: rest1 =>
        match literals.getLast? with
        | none => .error .panic
        | some l =>
          match l.head? with
          | none => .error .panic
          | some prev =>
            bracketScan rest1 (literals.dropLast ++ [sprintfC prev ++ sprintfC next]) (n + 2)
    else bracketScan rest (literals ++ [sprintfC ch]) (n + 1)

/-- The statement `literalsSet[i] = true` on the set kept as a duplicate-free list. -/
def setInsert (set : List Nat) (i : Nat) : List Nat :=
  if i ∈ set then set else set ++ [i]

/-- The loop `for i := l[0]; i <= l[1]; i++ { literalsSet[i] = true }` for one collected
literal `l`; `l[1]` panics on a literal of a single byte. The bound `l[1]` is a byte of a
UTF-8 encoding of a code point below 256, hence at most 195, and `i` does not wrap. -/
def expandLiteral (set : List Nat) (l : List Nat) : Except Err (List Nat) :=
  match l with
  | lo :: hi :: _ => .ok (((List.range (hi + 1 - lo)).map (fun k => lo + k)).foldl setInsert set)
  | _ => .error .panic

/-- The second loop of `parseBracket`: `for _, l := range literals`. -/
def expandLiterals : List (List Nat) → List Nat → Except Err (List Nat)
  | [], set => .ok set
  | l :: ls, set =>
    match expandLiteral set l with
    | .error e => .error e
    | .ok set1 => expandLiterals ls set1

/-- The function `parseBracket`. -/
def parseBracket (regex : List Nat) (ctx : ParseContext) : Except Err ParseContext :=
  match bracketScan (regex.drop (ctx.pos + 1)) [] 0 with
  | .error e => .error e
  | .ok (literals, n) =>
    match expandLiterals literals [] with
    | .error e => .error e
    | .ok literalsSet =>
      .ok { pos := ctx.pos + 1 + n, tokens := ctx.tokens ++ [Token.bracket literalsSet] }

/-- The loop of `parseGroup`: `for regex[ctx.pos] != ')' { process(regex, ctx); ctx.pos++ }`,
the recursive call of `process` being the argument `proc`. -/
def groupLoop (proc : ParseContext → Except Err ParseContext) (regex : List Nat) :
    Nat → ParseContext → Except Err ParseContext
  | 0, _ => .error .fuel
  | fuel + 1, ctx =>
    match regex.get? ctx.pos with
    | none => .error .panic
    | some ch =>
      if ch = 41 then .ok ctx
      else match proc ctx with
        | .error e => .error e
        | .ok ctx1 => groupLoop proc regex fuel ctx1.incr

/-- The function `parseGroup`. -/
def parseGroup (proc : ParseContext → Except Err ParseContext) (regex : List Nat)
    (fuel : Nat) (ctx : ParseContext) : Except Err ParseContext :=
  groupLoop proc regex fuel ctx.incr

/-- The loop of `parseOr`:
`for rhsContext.pos < len(regex) && regex[rhsContext.pos] != ')' { process; pos++ }`. -/
def orLoop (proc : ParseContext → Except Err ParseContext) (regex : List Nat) :
    Nat → ParseContext → Except Err ParseContext
  | 0, _ => .error .fuel
  | fuel + 1, ctx =>
    match regex.get? ctx.pos with
    | none => .ok ctx
    | some ch =>
      if ch = 41 then .ok ctx
      else match proc ctx with
        | .error e => .error e
        | .ok ctx1 => orLoop proc regex fuel ctx1.incr

/-- The function `parseOr`. -/
def parseOr (proc : ParseContext → Except Err ParseContext) (regex : List Nat)
    (fuel : Nat) (ctx : ParseContext) : Except Err ParseContext :=
  match orLoop proc regex fuel { pos := ctx.pos + 1, tokens := [] } with
  | .error e => .error e
  | .ok rhsContext =>
    let left := Token.groupUncaptured ctx.tokens
    let right := Token.groupUncaptured rhsContext.tokens
    .ok { pos := rhsContext.pos, tokens := [Token.or [left, right]] }

/-- The function `process`. The cursor of the enclosing context is left where it was by the
group branch: only `groupCtx.pos` advances inside `parseGroup`. -/
def process (regex : List Nat) : Nat → ParseContext → Except Err ParseContext
  | 0, _ => .error .fuel
  | fuel + 1, ctx =>
    match regex.get? ctx.pos with
    | none => .error .panic
    | some ch =>
      if ch = 40 then
        match parseGroup (process regex fuel) regex fuel { pos := ctx.pos, tokens := [] } with
        | .error e => .error e
        | .ok groupCtx => .ok (ctx.push (Token.group groupCtx.tokens))
      else if ch = 91 then parseBracket regex ctx
      else if ch = 42 ∨ ch = 43 ∨ ch = 63 then parseRepeat ch ctx
      else if ch = 124 then parseOr (process regex fuel) regex fuel ctx
      else if ch = 123 then parseRepeatSpecified regex ctx
      else .ok (ctx.push (Token.literal ch))

/-- The loop of `parse`: `for ctx.pos < len(regex) { process(regex, ctx); ctx.pos++ }`. -/
def parseLoop (regex : List Nat) : Nat → ParseContext → Except Err ParseContext
  | 0, _ => .error .fuel
  | fuel + 1, ctx =>
    if ctx.pos < regex.length then
      match process regex fuel ctx with
      | .error e => .error e
      | .ok ctx1 => parseLoop regex fuel ctx1.incr
    else .ok ctx

/-- The function `parse`. Every loop iteration and every nested call moves the cursor
forward, so twice the length of the pattern bounds the fuel that is used (theorem
`parse_no_fuel`). -/
def parse (regex : List Nat) : Except Err ParseContext :=
  parseLoop regex (2 * regex.length + 3) { pos := 0, tokens := [] }

/-! ## parser.go -/

/-- The Go `state`; `transitions` lists the entries of the map `map[uint8][]*state`, the
entry nearest the head being the current one for its key, and a pointer `*state` is an index
into the arena. -/
structure State where
  start : Bool
  isEnd : Bool
  transitions : List (Nat × List Nat)
  deriving DecidableEq, Repr

/-- The heap of the states allocated so far. -/
abbrev Arena := List State

/-- The constant `epsilonChar`. -/
def epsilonChar : Nat := 0

/-- The state behind a pointer. -/
def getState (nfa : Arena) (s : Nat) : State :=
  nfa.getD s { start := false, isEnd := false, transitions := [] }

/-- The value of the key `ch` among the entries of a transition map: the nil slice when the
key is absent. -/
def lookupKey (ch : Nat) : List (Nat × List Nat) → List Nat
  | [] => []
  | (k, dests) :: rest => if ch = k then dests else lookupKey ch rest

/-- The map read `s.transitions[ch]`. -/
def transitionsAt (nfa : Arena) (s : Nat) (ch : Nat) : List Nat :=
  lookupKey ch (getState nfa s).transitions

/-- The map write `s.transitions[ch] = dests`. -/
def setTrans (nfa : Arena) (s : Nat) (ch : Nat) (dests : List Nat) : Arena :=
  nfa.modify (fun st => { st with transitions := (ch, dests) :: st.transitions }) s

/-- The statement
`s.transitions[epsilonChar] = append(s.transitions[epsilonChar], d)`. -/
def appendEps (nfa : Arena) (s : Nat) (d : Nat) : Arena :=
  setTrans nfa s epsilonChar (transitionsAt nfa s epsilonChar ++ [d])

/-- The allocation `&state{transitions: map[uint8][]*state{}}` with the given flags: the new
pointer and the grown arena. -/
def alloc (nfa : Arena) (start isEnd : Bool) : Nat × Arena :=
  (nfa.length, nfa ++ [{ start := start, isEnd := isEnd, transitions := [] }])

/-- The loop `for i := 1; i < len(tokens); i++` shared by `toNFA` and by the group case of
`tokenToNFA`, over the compilers of `tokens[1:]`: each fragment is linked behind the running
exit `endS` and its exit becomes the running exit. -/
def chainLoop : List (Arena → Except Err (Nat × Nat × Arena)) → Nat → Arena →
    Except Err (Nat × Arena)
  | [], endS, nfa => .ok (endS, nfa)
  | c :: cs, endS, nfa =>
    match c nfa with
    | .error e => .error e
    | .ok (ts, te, nfa1) => chainLoop cs te (appendEps nfa1 endS ts)

/-- The loop `for i := 2; i <= copyCount; i++` of the repeat case over the values of `i`,
`inner` compiling `p.token` once more, `endS` being the exit of the whole repeat. -/
def repeatLoop (inner : Arena → Except Err (Nat × Nat × Arena)) (min : Int) (endS : Nat) :
    List Int → Nat → Nat → Arena → Except Err (Nat × Nat × Arena)
  | [], frm, toS, nfa => .ok (frm, toS, nfa)
  | i :: is, _, toS, nfa =>
    match inner nfa with
    | .error e => .error e
    | .ok (s, e, nfa1) =>
      let nfa2 := appendEps nfa1 toS s
      let nfa3 := if i > min then appendEps nfa2 s endS else nfa2
      repeatLoop inner min endS is s e nfa3

/-- The values taken by `i` in `for i := 2; i <= copyCount; i++`. -/
def copyIndices (copyCount : Int) : List Int :=
  (List.range (copyCount.toNat - 1)).map (fun k => (k : Int) + 2)

mutual
/-- The function `tokenToNFA`: the entry and the exit of the fragment, and the arena after
its allocations. Indexing an empty token slice panics. -/
def tokenToNFA : Token → Arena → Except Err (Nat × Nat × Arena)
  | .literal ch, nfa =>
    let (start, nfa) := alloc nfa false false
    let (endS, nfa) := alloc nfa false false
    .ok (start, endS, setTrans nfa start ch [endS])
  | .or values, nfa =>
    let (start, nfa) := alloc nfa false false
    let (endS, nfa) := alloc nfa false false
    match tokensToNFA values with
    | left :: right :: _ =>
      match left nfa with
      | .error e => .error e
      | .ok (s1, e1, nfa) =>
        match right nfa with
        | .error e => .error e
        | .ok (s2, e2, nfa) =>
          let nfa := setTrans nfa start epsilonChar [s1, s2]
          let nfa := setTrans nfa e1 epsilonChar [endS]
          let nfa := setTrans nfa e2 epsilonChar [endS]
          .ok (start, endS, nfa)
    | _ => .error .panic
  | .bracket literals, nfa =>
    let (start, nfa) := alloc nfa false false
    let (endS, nfa) := alloc nfa false false
    .ok (start, endS, literals.foldl (fun a l => setTrans a start l [endS]) nfa)
  | .group tokens, nfa =>
    let (_, nfa) := alloc nfa false false
    let (_, nfa) := alloc nfa false false
    match tokensToNFA tokens with
    | [] => .error .panic
    | first :: others =>
      match first nfa with
      | .error e => .error e
      | .ok (start, endS, nfa) =>
        match chainLoop others endS nfa with
        | .error e => .error e
        | .ok (endS, nfa) => .ok (start, endS, nfa)
  | .groupUncaptured tokens, nfa =>
    let (_, nfa) := alloc nfa false false
    let (_, nfa) := alloc nfa false false
    match tokensToNFA tokens with
    | [] => .error .panic
    | first :: others =>
      match first nfa with
      | .error e => .error e
      | .ok (start, endS, nfa) =>
        match chainLoop others endS nfa with
        | .error e => .error e
        | .ok (endS, nfa) => .ok (start, endS, nfa)
  | .repeatT min max token, nfa =>
    let (start, nfa) := alloc nfa false false
    let (endS, nfa) := alloc nfa false false
    let nfa := if min = 0 then setTrans nfa start epsilonChar [endS] else nfa
    let copyCount : Int :=
      if max = repeatInfinity then (if min = 0 then 1 else min) else max
    match tokenToNFA token nfa with
    | .error e => .error e
    | .ok (frm, toS, nfa) =>
      let nfa := appendEps nfa start frm
      match repeatLoop (tokenToNFA token) min endS (copyIndices copyCount) frm toS nfa with
      | .error e => .error e
      | .ok (frm, toS, nfa) =>
        let nfa := appendEps nfa toS endS
        let nfa := if max = repeatInfinity then appendEps nfa endS frm else nfa
        .ok (start, endS, nfa)
/-- The compilers `tokenToNFA(&tokens[i])` of the elements of a token slice. -/
def tokensToNFA : List Token → List (Arena → Except Err (Nat × Nat × Arena))
  | [] => []
  | t :: ts => tokenToNFA t :: tokensToNFA ts
end

/-- The function `toNFA`: the pointer to the synthetic start state and the arena. The last
statement assigns `append(end.transitions[epsilonChar], end)`, the slice of the fresh `end`
state extended by `end`, to the epsilon entry of `endState`. -/
def toNFA (ctx : ParseContext) : Except Err (Nat × Arena) :=
  match tokensToNFA ctx.tokens with
  | [] => .error .panic
  | first :: others =>
    match first [] with
    | .error e => .error e
    | .ok (startState, endState, nfa) =>
      match chainLoop others endState nfa with
      | .error e => .error e
      | .ok (endState, nfa) =>
        let (start, nfa) := alloc nfa true false
        let nfa := setTrans nfa start epsilonChar [startState]
        let (endS, nfa) := alloc nfa false true
        let nfa := setTrans nfa endState epsilonChar (transitionsAt nfa endS epsilonChar ++ [endS])
        .ok (start, nfa)

/-! ## matching.go -/

/-- The constant `startOfText`. -/
def startOfText : Nat := 1

/-- The constant `endOfText`. -/
def endOfText : Nat := 2

/-- The function `getChar`. -/
def getChar (input : List Nat) (pos : Int) : Nat :=
  if pos ≥ input.length then endOfText
  else if pos < 0 then startOfText
  else input.getD pos.toNat 0

/-- The loop `for _, state := range s.transitions[epsilonChar]` of `check`, the recursive
call `state.check(input, p)` being `rec state p`. -/
def epsLoop (rec : Nat → Int → Except Err Bool) (ch : Nat) (pos : Int) :
    List Nat → Except Err Bool
  | [] => .ok false
  | st :: rest =>
    match rec st pos with
    | .error e => .error e
    | .ok true => .ok true
    | .ok false =>
      if ch = startOfText then
        match rec st (pos + 1) with
        | .error e => .error e
        | .ok true => .ok true
        | .ok false => epsLoop rec ch pos rest
      else epsLoop rec ch pos rest

/-- The method `check` on the state `s` of the arena `nfa`; the fuel bounds the depth of the
recursion. -/
def check (nfa : Arena) (input : List Nat) : Nat → Nat → Int → Except Err Bool
  | 0, _, _ => .error .fuel
  | fuel + 1, s, pos =>
    let ch := getChar input pos
    if ch = endOfText ∧ (getState nfa s).isEnd = true then .ok true
    else
      match transitionsAt nfa s ch with
      | nextState :: _ =>
        match check nfa input fuel nextState (pos + 1) with
        | .error e => .error e
        | .ok true => .ok true
        | .ok false => epsLoop (check nfa input fuel) ch pos (transitionsAt nfa s epsilonChar)
      | [] => epsLoop (check nfa input fuel) ch pos (transitionsAt nfa s epsilonChar)

/-- The pipeline `toNFA(parse(regex)).check(input, pos)`. -/
def matchAt (fuel : Nat) (regex input : List Nat) (pos : Int) : Except Err Bool :=
  match parse regex with
  | .error e => .error e
  | .ok ctx =>
    match toNFA ctx with
    | .error e => .error e
    | .ok (root, nfa) => check nfa input fuel root pos



/-! ## Definitions used by the statements and the proofs -/

/-- The sequencing of two attempts in `check`: the second is made when the first returns
false. -/
def orElse (a b : Except Err Bool) : Except Err Bool :=
  match a with
  | .error e => .error e
  | .ok true => .ok true
  | .ok false => b

/-- The operator characters `(`, `[`, `|`, `*`, `+`, `?` and the opening brace: the bytes on
which `process` does not take its literal branch. -/
def operatorChars : List Nat := [40, 91, 124, 42, 43, 63, 123]

/-- The reserved symbol codes: the epsilon key and the two text-boundary sentinels. -/
def reservedCodes : List Nat := [epsilonChar, startOfText, endOfText]

/-- The call `toNFA(parse(regex)).check(input, pos)` returns the boolean `b`: neither
`parse` nor `toNFA` panics and the search terminates with `b`. -/
def Returns (regex input : List Nat) (pos : Int) (b : Bool) : Prop :=
  ∃ fuel, matchAt fuel regex input pos = .ok b

/-- The arena of `x?`, the root being state 4. -/
def optArena : Arena :=
  [{ start := false, isEnd := false, transitions := [(0, [1, 2]), (0, [1])] },
   { start := false, isEnd := false, transitions := [(0, [5])] },
   { start := false, isEnd := false, transitions := [(120, [3])] },
   { start := false, isEnd := false, transitions := [(0, [1])] },
   { start := true, isEnd := false, transitions := [(0, [0])] },
   { start := false, isEnd := true, transitions := [] }]

/-- The arena of `x{2,4}`, the root being state 10. -/
def boundedArena : Arena :=
  [{ start := false, isEnd := false, transitions := [(0, [2])] },
   { start := false, isEnd := false, transitions := [(0, [11])] },
   { start := false, isEnd := false, transitions := [(120, [3])] },
   { start := false, isEnd := false, transitions := [(0, [4])] },
   { start := false, isEnd := false, transitions := [(120, [5])] },
   { start := false, isEnd := false, transitions := [(0, [6])] },
   { start := false, isEnd := false, transitions := [(0, [1]), (120, [7])] },
   { start := false, isEnd := false, transitions := [(0, [8])] },
   { start := false, isEnd := false, transitions := [(0, [1]), (120, [9])] },
   { start := false, isEnd := false, transitions := [(0, [1])] },
   { start := true, isEnd := false, transitions := [(0, [0])] },
   { start := false, isEnd := true, transitions := [] }]

/-- The arena of `[a-c]`, the root being state 2. -/
def bracketArena : Arena :=
  [{ start := false, isEnd := false, transitions := [(99, [1]), (98, [1]), (97, [1])] },
   { start := false, isEnd := false, transitions := [(0, [3])] },
   { start := true, isEnd := false, transitions := [(0, [0])] },
   { start := false, isEnd := true, transitions := [] }]

/-- The arena of `a|b`, the root being state 10; the states 2, 3, 6 and 7 are the pairs that
the group case of `tokenToNFA` allocates and then drops. -/
def orArena : Arena :=
  [{ start := false, isEnd := false, transitions := [(0, [4, 8])] },
   { start := false, isEnd := false, transitions := [(0, [11])] },
   { start := false, isEnd := false, transitions := [] },
   { start := false, isEnd := false, transitions := [] },
   { start := false, isEnd := false, transitions := [(97, [5])] },
   { start := false, isEnd := false, transitions := [(0, [1])] },
   { start := false, isEnd := false, transitions := [] },
   { start := false, isEnd := false, transitions := [] },
   { start := false, isEnd := false, transitions := [(98, [9])] },
   { start := false, isEnd := false, transitions := [(0, [1])] },
   { start := true, isEnd := false, transitions := [(0, [0])] },
   { start := false, isEnd := true, transitions := [] }]

/-- The arena of `ab*c`, the root being state 8. -/
def starArena : Arena :=
  [{ start := false, isEnd := false, transitions := [(97, [1])] },
   { start := false, isEnd := false, transitions := [(0, [2])] },
   { start := false, isEnd := false, transitions := [(0, [3, 4]), (0, [3])] },
   { start := false, isEnd := false, transitions := [(0, [4, 6]), (0, [4])] },
   { start := false, isEnd := false, transitions := [(98, [5])] },
   { start := false, isEnd := false, transitions := [(0, [3])] },
   { start := false, isEnd := false, transitions := [(99, [7])] },
   { start := false, isEnd := false, transitions := [(0, [9])] },
   { start := true, isEnd := false, transitions := [(0, [0])] },
   { start := false, isEnd := true, transitions := [] }]

/-- The input `a`, then `n` copies of `b`, then `c`. -/
def abcInput (n : Nat) : List Nat := 97 :: (List.replicate n 98 ++ [99])

/-- A state as allocated, without transitions. -/
def freshState : State := { start := false, isEnd := false, transitions := [] }

/-- A state whose only transition is `c → t`. -/
def litState (c t : Nat) : State := { start := false, isEnd := false, transitions := [(c, [t])] }

/-- A state whose only transition is the epsilon transition to `t`. -/
def epsState (t : Nat) : State :=
  { start := false, isEnd := false, transitions := [(epsilonChar, [t])] }

/-- The states that the chaining loop puts behind the exit state `b` for the literals `cs`:
the exit linked to the next entry, then the entry with its literal transition. -/
def chainStates : List Nat → Nat → List State
  | [], _ => []
  | c :: cs, b => epsState (b + 1) :: litState c (b + 2) :: chainStates cs (b + 2)

/-- The synthetic start state of `toNFA`, linked to the entry `t`. -/
def rootState (t : Nat) : State :=
  { start := true, isEnd := false, transitions := [(epsilonChar, [t])] }

/-- The synthetic end state of `toNFA`. -/
def finalState : State := { start := false, isEnd := true, transitions := [] }

/-- The arena of a pattern of literals `c0 :: cs`, the root being state `2 * cs.length + 2`. -/
def literalArena (c0 : Nat) (cs : List Nat) : Arena :=
  [litState c0 1] ++ chainStates cs 1 ++
    [epsState (2 * cs.length + 3), rootState 0, finalState]

/-- The arena of `a**b`, the root being state 8. -/
def nestedStarArena : Arena :=
  [{ start := false, isEnd := false, transitions := [(0, [1, 2]), (0, [1])] },
   { start := false, isEnd := false, transitions := [(0, [2, 6]), (0, [2])] },
   { start := false, isEnd := false, transitions := [(0, [3, 4]), (0, [3])] },
   { start := false, isEnd := false, transitions := [(0, [4, 1]), (0, [4])] },
   { start := false, isEnd := false, transitions := [(97, [5])] },
   { start := false, isEnd := false, transitions := [(0, [3])] },
   { start := false, isEnd := false, transitions := [(98, [7])] },
   { start := false, isEnd := false, transitions := [(0, [9])] },
   { start := true, isEnd := false, transitions := [(0, [0])] },
   { start := false, isEnd := true, transitions := [] }]

/-- The decimal digits of `n`, most significant first, as bytes; `fuel` bounds the number of
digits. -/
def decimalDigits : Nat → Nat → List Nat
  | 0, _ => []
  | fuel + 1, n => if n < 10 then [48 + n] else decimalDigits fuel (n / 10) ++ [48 + n % 10]

/-- The natural number `n` written in decimal, without sign and without leading zeros. -/
def decimal (n : Nat) : List Nat := decimalDigits (n + 1) n

/-- The bounds that `parseRepeatSpecified` reads from the bytes between the braces; `none`
when it panics on them. -/
def braceBounds (body : List Nat) : Option (Int × Int) :=
  match splitComma body [] with
  | [p0] => (atoi p0).map (fun value => (value, value))
  | [p0, p1] =>
    match atoi p0 with
    | none => none
    | some min =>
      if p1 = [] then some (min, repeatInfinity)
      else (atoi p1).map (fun max => (min, max))
  | _ => none

/-- The bounds that `parseRepeatSpecified` reads with the cursor on the offset `pos` of the
pattern: the bytes after that offset up to the next `}`, read by `braceBounds`; `none` when
it panics. -/
def braceBoundsAt (regex : List Nat) (pos : Nat) : Option (Int × Int) :=
  match scanBrace (regex.drop pos) with
  | .error _ => none
  | .ok scanned => braceBounds (scanned.drop 1)

/-- Every opening brace of the pattern behind which `parseRepeatSpecified` reads bounds
gives `min ≥ 0` and `max` the unbounded sentinel or `max ≥ min`. -/
def braceBoundsOk (regex : List Nat) : Bool :=
  (List.range regex.length).all (fun pos =>
    if regex.get? pos = some 123 then
      match braceBoundsAt regex pos with
      | none => true
      | some (min, max) => decide (0 ≤ min ∧ (max = repeatInfinity ∨ min ≤ max))
    else true)

/-- The token is a `Repeat` whose bounds are the ones that `parseRepeatSpecified` reads at
an opening brace of the pattern. -/
def readFromBrace (regex : List Nat) : Token → Prop
  | .repeatT min max _ =>
    ∃ pos, regex.get? pos = some 123 ∧ braceBoundsAt regex pos = some (min, max)
  | _ => False

/-- An integer literal in the sense of the claims: an optional sign `+` or `-` followed by
one or more decimal digits. -/
def isDecimalInt (s : List Nat) : Bool :=
  match s with
  | 43 :: r => !r.isEmpty && r.all (fun c => decide (48 ≤ c ∧ c ≤ 57))
  | 45 :: r => !r.isEmpty && r.all (fun c => decide (48 ≤ c ∧ c ≤ 57))
  | r => !r.isEmpty && r.all (fun c => decide (48 ≤ c ∧ c ≤ 57))

/-- The ordinary literal characters of the claims: every byte other than the operator
characters and the closing parenthesis. -/
def ordinaryChars (w : List Nat) : Prop := ∀ c ∈ w, c ∉ operatorChars ∧ c ≠ 41

mutual
/-- The predicate `P` holds at the token and at every token below it in the tree. -/
def tokenAll (P : Token → Prop) : Token → Prop
  | .group tokens => P (.group tokens) ∧ tokensAll P tokens
  | .bracket literalsSet => P (.bracket literalsSet)
  | .or values => P (.or values) ∧ tokensAll P values
  | .repeatT min max token => P (.repeatT min max token) ∧ tokenAll P token
  | .literal ch => P (.literal ch)
  | .groupUncaptured tokens => P (.groupUncaptured tokens) ∧ tokensAll P tokens
/-- The predicate `P` holds at every token of the trees of a token sequence. -/
def tokensAll (P : Token → Prop) : List Token → Prop
  | [] => True
  | t :: ts => tokenAll P t ∧ tokensAll P ts
end

/-- The bounds of a `Repeat` token are in order: `min ≥ 0`, and `max` is the unbounded
sentinel or at least `min`. Every other token passes. -/
def repeatBoundsOk : Token → Prop
  | .repeatT min max _ => 0 ≤ min ∧ (max = repeatInfinity ∨ min ≤ max)
  | _ => True

/-- What the tokenizer needs from a predicate on tokens in order to keep it true at every
token it builds from the pattern `regex`. -/
structure NodeRules (P : Token → Prop) (regex : List Nat) : Prop where
  lit : ∀ c ∈ regex, P (.literal c)
  group : ∀ ts, P (.group ts)
  uncaptured : ∀ ts, P (.groupUncaptured ts)
  alt : ∀ vs, P (.or vs)
  star : ∀ t, P (.repeatT 0 repeatInfinity t)
  opt : ∀ t, P (.repeatT 0 1 t)
  plus : ∀ t, P (.repeatT 1 repeatInfinity t)
  brace : ∀ pos min max t, regex.get? pos = some 123 →
    braceBoundsAt regex pos = some (min, max) → P (.repeatT min max t)
  bracket : ∀ pos literals n set, bracketScan (regex.drop pos) [] 0 = .ok (literals, n) →
    expandLiterals literals [] = .ok set → P (.bracket set)

/-- Every destination of a transition on the start-of-text code is also an epsilon
destination of the same state. -/
def keyOneInEps (nfa : Arena) : Prop :=
  ∀ s t, t ∈ transitionsAt nfa s startOfText → t ∈ transitionsAt nfa s epsilonChar

/-- The state `i` exists in the arena and has no transition on the start-of-text code. -/
def NoOne (a : Arena) (i : Nat) : Prop :=
  i < a.length ∧ transitionsAt a i startOfText = []

/-- The arena `b` continues the arena `a`: no state is lost, the transitions on the
start-of-text code of the states of `a` are the same, and `keyOneInEps` is kept. -/
structure Ext (a b : Arena) : Prop where
  len : a.length ≤ b.length
  frame : ∀ i, i < a.length → transitionsAt b i startOfText = transitionsAt a i startOfText
  ke : keyOneInEps a → keyOneInEps b

/-- A node of a token tree never gives a transition on the start-of-text code that is not
also an epsilon transition: a literal is not the code 1, and a bracket set with the code 1
has the code 0. -/
def keyOk : Token → Prop
  | .literal ch => ch ≠ startOfText
  | .bracket set => startOfText ∈ set → epsilonChar ∈ set
  | _ => True

/-- A compiler of a fragment continues the arena and returns an exit without transition on
the start-of-text code. -/
def CompPost (c : Arena → Except Err (Nat × Nat × Arena)) : Prop :=
  ∀ a s e b, c a = .ok (s, e, b) → Ext a b ∧ NoOne b e

/-- The arena after the two allocations `start` and `end` that open `tokenToNFA`. -/
def twoFresh (a : Arena) : Arena :=
  (alloc (alloc a false false).2 false false).2

/-! ## The fuel of the matcher -/

/-- The epsilon loop keeps its value when the recursive call is replaced by one that returns
every value the first one returns. -/
theorem epsLoop_mono {rec1 rec2 : Nat → Int → Except Err Bool}
    (h : ∀ s p b, rec1 s p = .ok b → rec2 s p = .ok b) (ch : Nat) (pos : Int) :
    ∀ (l : List Nat) (b : Bool), epsLoop rec1 ch pos l = .ok b → epsLoop rec2 ch pos l = .ok b := by
  intro l
  induction l with
  | nil => intro b hb; simpa [epsLoop] using hb
  | cons st rest ih =>
    intro b hb
    simp only [epsLoop] at hb ⊢
    cases h1 : rec1 st pos with
    | error e => simp [h1] at hb
    | ok r =>
      rw [h1] at hb
      rw [h st pos r h1]
      cases r with
      | true => simpa using hb
      | false =>
        simp only at hb ⊢
        by_cases hc : ch = startOfText
        · subst hc
          simp only [if_true] at hb ⊢
          cases h2 : rec1 st (pos + 1) with
          | error e => simp [h2] at hb
          | ok r2 =>
            rw [h2] at hb
            rw [h st (pos + 1) r2 h2]
            cases r2 with
            | true => simpa using hb
            | false => exact ih b hb
        · simp only [hc, if_false] at hb ⊢
          exact ih b hb

/-- More fuel does not change a value that `check` has returned. -/
theorem check_mono (nfa : Arena) (input : List Nat) :
    ∀ (fuel s : Nat) (pos : Int) (b : Bool),
      check nfa input fuel s pos = .ok b → check nfa input (fuel + 1) s pos = .ok b := by
  intro fuel
  induction fuel with
  | zero => intro s pos b hb; simp [check] at hb
  | succ n ih =>
    intro s pos b hb
    rw [check] at hb ⊢
    split
    · rename_i hc
      simpa [hc] using hb
    · rename_i hc
      rw [if_neg hc] at hb
      cases ht : transitionsAt nfa s (getChar input pos) with
      | nil =>
        rw [ht] at hb
        simp only at hb ⊢
        exact epsLoop_mono (fun s p b h => ih s p b h) _ _ _ _ hb
      | cons nx tl =>
        rw [ht] at hb
        simp only at hb ⊢
        cases h1 : check nfa input n nx (pos + 1) with
        | error e => simp [h1] at hb
        | ok r =>
          rw [h1] at hb
          rw [ih nx (pos + 1) r h1]
          cases r with
          | true => simpa using hb
          | false =>
            simp only at hb ⊢
            exact epsLoop_mono (fun s p b h => ih s p b h) _ _ _ _ hb

theorem check_mono_le (nfa : Arena) (input : List Nat) (s : Nat) (pos : Int) (b : Bool)
    {fuel fuel1 : Nat} (hle : fuel ≤ fuel1) (h : check nfa input fuel s pos = .ok b) :
    check nfa input fuel1 s pos = .ok b := by
  induction hle with
  | refl => exact h
  | step _ ih => exact check_mono nfa input _ s pos b ih


/-! ## One step of the matcher -/

theorem epsLoop_eq_foldr (rec : Nat → Int → Except Err Bool) (ch : Nat) (pos : Int)
    (h1 : ch ≠ startOfText) (l : List Nat) :
    epsLoop rec ch pos l = l.foldr (fun t acc => orElse (rec t pos) acc) (.ok false) := by
  induction l with
  | nil => rfl
  | cons t rest ih =>
    simp only [epsLoop, List.foldr_cons, orElse, if_neg h1, ih]

/-- One call of `check` on a symbol other than the start-of-text sentinel: the end test,
the first destination of the symbol, then the epsilon destinations in order. -/
theorem check_step (nfa : Arena) (input : List Nat) (f s : Nat) (pos : Int)
    (h1 : getChar input pos ≠ startOfText) :
    check nfa input (f + 1) s pos =
      if getChar input pos = endOfText ∧ (getState nfa s).isEnd = true then .ok true
      else orElse
        (match transitionsAt nfa s (getChar input pos) with
          | nextState :: _ => check nfa input f nextState (pos + 1)
          | [] => .ok false)
        ((transitionsAt nfa s epsilonChar).foldr
          (fun t acc => orElse (check nfa input f t pos) acc) (.ok false)) := by
  rw [check]
  simp only [epsLoop_eq_foldr _ _ _ h1]
  split
  · rfl
  · cases transitionsAt nfa s (getChar input pos) with
    | nil => rfl
    | cons n tl => simp only [orElse]

theorem orElse_false_right (a : Except Err Bool) : orElse a (.ok false) = a := by
  cases a with
  | error e => rfl
  | ok b => cases b <;> rfl

theorem orElse_false_left (b : Except Err Bool) : orElse (.ok false) b = b := rfl

theorem orElse_true_left (b : Except Err Bool) : orElse (.ok true) b = .ok true := rfl

theorem lookupKey_of_all_eps (ch : Nat) (h0 : ch ≠ epsilonChar) :
    ∀ (l : List (Nat × List Nat)), l.all (fun e => e.1 == epsilonChar) = true →
      lookupKey ch l = [] := by
  intro l
  induction l with
  | nil => intro _; rfl
  | cons e rest ih =>
    intro h
    obtain ⟨k, d⟩ := e
    simp only [List.all_cons, Bool.and_eq_true, beq_iff_eq] at h
    have hk : k = epsilonChar := h.1
    subst hk
    simp only [lookupKey, if_neg h0]
    exact ih h.2

/-- A state without an end flag whose transitions are all epsilon transitions hands a symbol
other than the epsilon key and the start-of-text sentinel to its epsilon destinations, in
order. -/
theorem check_eps (nfa : Arena) (input : List Nat) (f s : Nat) (pos : Int) (ds : List Nat)
    (hE : (getState nfa s).isEnd = false)
    (hk : (getState nfa s).transitions.all (fun e => e.1 == epsilonChar) = true)
    (hd : transitionsAt nfa s epsilonChar = ds)
    (h0 : getChar input pos ≠ epsilonChar) (h1 : getChar input pos ≠ startOfText) :
    check nfa input (f + 1) s pos =
      ds.foldr (fun t acc => orElse (check nfa input f t pos) acc) (.ok false) := by
  rw [check_step _ _ _ _ _ h1, hd]
  have ht : transitionsAt nfa s (getChar input pos) = [] :=
    lookupKey_of_all_eps _ h0 _ hk
  simp only [ht, hE, Bool.false_eq_true, and_false, if_false, orElse_false_left]

/-- A state with the single transition `c → t`, `c` not the epsilon key. -/
theorem check_lit (nfa : Arena) (input : List Nat) (f s : Nat) (pos : Int) (b : Bool)
    (c t : Nat) (hs : getState nfa s = ⟨b, false, [(c, [t])]⟩) (hc : c ≠ epsilonChar) :
    check nfa input (f + 1) s pos =
      if getChar input pos = c then check nfa input f t (pos + 1) else .ok false := by
  rw [check]
  simp only [hs, epsLoop, Bool.false_eq_true, and_false, if_false, transitionsAt, lookupKey,
    if_neg (Ne.symm hc)]
  by_cases h : getChar input pos = c
  · simp only [h, if_true]
    cases check nfa input f t (pos + 1) with
    | error e => rfl
    | ok r => cases r <;> rfl
  · simp only [h, if_false]

/-- A state with the transition `c → t` and the epsilon transition to `u`. -/
theorem check_lit_skip (nfa : Arena) (input : List Nat) (f s : Nat) (pos : Int) (b : Bool)
    (c t u : Nat) (hs : getState nfa s = ⟨b, false, [(epsilonChar, [u]), (c, [t])]⟩)
    (h0 : getChar input pos ≠ epsilonChar) (h1 : getChar input pos ≠ startOfText) :
    check nfa input (f + 1) s pos =
      if getChar input pos = c then
        orElse (check nfa input f t (pos + 1)) (check nfa input f u pos)
      else check nfa input f u pos := by
  rw [check_step _ _ _ _ _ h1]
  simp only [hs, Bool.false_eq_true, and_false, if_false, transitionsAt, lookupKey, if_neg h0,
    if_true, List.foldr, orElse_false_right]
  by_cases h : getChar input pos = c
  · simp only [h, if_true]
  · simp only [h, if_false, orElse_false_left]

/-- A state with the end flag and no transition. -/
theorem check_end (nfa : Arena) (input : List Nat) (f s : Nat) (pos : Int) (b : Bool)
    (hs : getState nfa s = ⟨b, true, []⟩) :
    check nfa input (f + 1) s pos = .ok (decide (getChar input pos = endOfText)) := by
  rw [check]
  simp only [hs, and_true, transitionsAt, lookupKey, epsLoop]
  by_cases h : getChar input pos = endOfText
  · simp only [h, if_true, decide_True]
  · simp only [h, if_false, decide_False]

theorem matchAt_eq_check {regex : List Nat} {ctx : ParseContext} {root : Nat} {nfa : Arena}
    (h1 : parse regex = .ok ctx) (h2 : toNFA ctx = .ok (root, nfa))
    (fuel : Nat) (input : List Nat) (pos : Int) :
    matchAt fuel regex input pos = check nfa input fuel root pos := by
  simp [matchAt, h1, h2]

theorem check_eps1 (nfa : Arena) (input : List Nat) (f s : Nat) (pos : Int) (t : Nat)
    (hE : (getState nfa s).isEnd = false)
    (hk : (getState nfa s).transitions.all (fun e => e.1 == epsilonChar) = true)
    (hd : transitionsAt nfa s epsilonChar = [t])
    (h0 : getChar input pos ≠ epsilonChar) (h1 : getChar input pos ≠ startOfText) :
    check nfa input (f + 1) s pos = check nfa input f t pos := by
  rw [check_eps nfa input f s pos [t] hE hk hd h0 h1]
  simp only [List.foldr, orElse_false_right]

theorem check_eps2 (nfa : Arena) (input : List Nat) (f s : Nat) (pos : Int) (t u : Nat)
    (hE : (getState nfa s).isEnd = false)
    (hk : (getState nfa s).transitions.all (fun e => e.1 == epsilonChar) = true)
    (hd : transitionsAt nfa s epsilonChar = [t, u])
    (h0 : getChar input pos ≠ epsilonChar) (h1 : getChar input pos ≠ startOfText) :
    check nfa input (f + 1) s pos =
      orElse (check nfa input f t pos) (check nfa input f u pos) := by
  rw [check_eps nfa input f s pos [t, u] hE hk hd h0 h1]
  simp only [List.foldr, orElse_false_right]

/-! ## The symbol looked up by `getChar` -/

theorem getChar_nat_lt (input : List Nat) (j : Nat) (h : j < input.length) :
    getChar input (j : Int) = input.getD j 0 := by
  unfold getChar
  have h1 : ¬ ((j : Int) ≥ (input.length : Int)) := by omega
  have h2 : ¬ ((j : Int) < 0) := by omega
  simp only [h1, h2, if_false, Int.toNat_ofNat]

theorem getChar_nat_ge (input : List Nat) (j : Nat) (h : input.length ≤ j) :
    getChar input (j : Int) = endOfText := by
  unfold getChar
  have h1 : ((j : Int) ≥ (input.length : Int)) := by omega
  simp only [h1, if_true]

theorem getChar_mem (input : List Nat) (pos : Int) (hpos : 0 ≤ pos) :
    getChar input pos = endOfText ∨ getChar input pos ∈ input := by
  obtain ⟨j, rfl⟩ := Int.eq_ofNat_of_zero_le hpos
  by_cases h : j < input.length
  · right
    rw [getChar_nat_lt input j h, List.getD_eq_getElem _ _ h]
    exact List.getElem_mem _
  · left
    exact getChar_nat_ge input j (by omega)

theorem getChar_ne (input : List Nat) (pos : Int) (hpos : 0 ≤ pos) (v : Nat)
    (hv : v ∉ input) (hv2 : v ≠ endOfText) : getChar input pos ≠ v := by
  intro h
  rcases getChar_mem input pos hpos with h2 | h2
  · exact hv2 (h ▸ h2)
  · exact hv (h ▸ h2)

theorem getChar_replicate_lt (c k j : Nat) (h : j < k) :
    getChar (List.replicate k c) (j : Int) = c := by
  rw [getChar_nat_lt _ j (by simpa using h), List.getD_eq_getElem _ _ (by simpa using h)]
  simp

theorem getChar_replicate_ge (c k j : Nat) (h : k ≤ j) :
    getChar (List.replicate k c) (j : Int) = endOfText :=
  getChar_nat_ge _ j (by simpa using h)

theorem getChar_cons_zero (c : Nat) (l : List Nat) : getChar (c :: l) 0 = c :=
  getChar_nat_lt (c :: l) 0 (by simp)

theorem getChar_cons_one_eq_end (c : Nat) (l : List Nat) (h : endOfText ∉ l) :
    getChar (c :: l) (0 + 1) = endOfText ↔ l = [] := by
  cases l with
  | nil => exact ⟨fun _ => rfl, fun _ => rfl⟩
  | cons d r =>
    have hg : getChar (c :: d :: r) (0 + 1) = d := getChar_nat_lt (c :: d :: r) 1 (by simp)
    rw [hg]
    constructor
    · intro hd
      exact absurd (hd ▸ List.mem_cons_self d r) h
    · intro hd
      exact absurd hd (by simp)

theorem not_reserved {s : List Nat} (hs : ∀ c ∈ s, c ∉ reservedCodes) :
    epsilonChar ∉ s ∧ startOfText ∉ s ∧ endOfText ∉ s := by
  refine ⟨fun h => hs _ h ?_, fun h => hs _ h ?_, fun h => hs _ h ?_⟩ <;> decide

/-! ## Determinism of the embedded pipeline -/

theorem matchAt_mono_le (regex input : List Nat) (pos : Int) (b : Bool) {fuel fuel1 : Nat}
    (hle : fuel ≤ fuel1) (h : matchAt fuel regex input pos = .ok b) :
    matchAt fuel1 regex input pos = .ok b := by
  unfold matchAt at h ⊢
  cases hp : parse regex with
  | error e => rw [hp] at h; exact absurd h (by simp)
  | ok ctx =>
    rw [hp] at h
    simp only at h ⊢
    cases hn : toNFA ctx with
    | error e => rw [hn] at h; exact absurd h (by simp)
    | ok r =>
      obtain ⟨root, nfa⟩ := r
      rw [hn] at h
      exact check_mono_le nfa input root pos b hle h

/-- The value returned by the pipeline does not depend on the fuel. -/
theorem Returns_unique (regex input : List Nat) (pos : Int) (b c : Bool)
    (hb : Returns regex input pos b) (hc : Returns regex input pos c) : b = c := by
  obtain ⟨f1, h1⟩ := hb
  obtain ⟨f2, h2⟩ := hc
  have e1 := matchAt_mono_le regex input pos b (Nat.le_max_left f1 f2) h1
  have e2 := matchAt_mono_le regex input pos c (Nat.le_max_right f1 f2) h2
  rw [e1] at e2
  exact Except.ok.inj e2

/-! ## The quantifiers `?` and `{2,4}` -/

theorem opt_parse :
    parse (ascii "x?") = .ok { pos := 2, tokens := [Token.repeatT 0 1 (Token.literal 120)] } :=
  rfl

theorem opt_toNFA :
    toNFA { pos := 2, tokens := [Token.repeatT 0 1 (Token.literal 120)] } = .ok (4, optArena) :=
  rfl

theorem replicate_not_mem (k c v : Nat) (h : v ≠ c) : v ∉ List.replicate k c := by
  intro hm
  exact h (List.eq_of_mem_replicate hm)

theorem opt_ge_two (m : Nat) :
    check optArena (List.replicate (m + 2) 120) 10 4 0 = .ok false := by
  have H0 : ∀ pos : Int, 0 ≤ pos → getChar (List.replicate (m + 2) 120) pos ≠ epsilonChar :=
    fun pos hp => getChar_ne _ pos hp _ (replicate_not_mem _ _ _ (by decide)) (by decide)
  have H1 : ∀ pos : Int, 0 ≤ pos → getChar (List.replicate (m + 2) 120) pos ≠ startOfText :=
    fun pos hp => getChar_ne _ pos hp _ (replicate_not_mem _ _ _ (by decide)) (by decide)
  have g0 : getChar (List.replicate (m + 2) 120) 0 = 120 :=
    getChar_replicate_lt 120 (m + 2) 0 (by omega)
  have g1 : getChar (List.replicate (m + 2) 120) (0 + 1) = 120 :=
    getChar_replicate_lt 120 (m + 2) 1 (by omega)
  have p0 : (0 : Int) ≤ 0 := by decide
  have p1 : (0 : Int) ≤ 0 + 1 := by decide
  rw [check_eps1 optArena _ _ 4 0 0 rfl rfl rfl (H0 _ p0) (H1 _ p0),
    check_eps2 optArena _ _ 0 0 1 2 rfl rfl rfl (H0 _ p0) (H1 _ p0),
    check_eps1 optArena _ _ 1 0 5 rfl rfl rfl (H0 _ p0) (H1 _ p0),
    check_end optArena _ _ 5 0 false rfl,
    check_lit optArena _ _ 2 0 false 120 3 rfl (by decide),
    check_eps1 optArena _ _ 3 (0 + 1) 1 rfl rfl rfl (H0 _ p1) (H1 _ p1),
    check_eps1 optArena _ _ 1 (0 + 1) 5 rfl rfl rfl (H0 _ p1) (H1 _ p1),
    check_end optArena _ _ 5 (0 + 1) false rfl, g0, g1]
  rfl

/-- C8: for every `k`, `check` on the automaton of `x?` returns true on `k` copies of `x`
exactly when `k ≤ 1`. -/
theorem optional_accepts_iff (k : Nat) :
    Returns (ascii "x?") (List.replicate k 120) 0 (decide (k ≤ 1)) :=
  match k with
  | 0 => ⟨10, rfl⟩
  | 1 => ⟨10, rfl⟩
  | m + 2 => ⟨10, by
      rw [matchAt_eq_check opt_parse opt_toNFA, opt_ge_two m]
      have h : ¬ (m + 2 ≤ 1) := by omega
      simp only [h, decide_False]⟩

theorem bounded_parse :
    parse (ascii "x{2,4}") =
      .ok { pos := 6, tokens := [Token.repeatT 2 4 (Token.literal 120)] } :=
  rfl

theorem bounded_toNFA :
    toNFA { pos := 6, tokens := [Token.repeatT 2 4 (Token.literal 120)] } =
      .ok (10, boundedArena) :=
  rfl

theorem bounded_ge_five (m : Nat) :
    check boundedArena (List.replicate (m + 5) 120) 16 10 0 = .ok false := by
  have H0 : ∀ pos : Int, 0 ≤ pos → getChar (List.replicate (m + 5) 120) pos ≠ epsilonChar :=
    fun pos hp => getChar_ne _ pos hp _ (replicate_not_mem _ _ _ (by decide)) (by decide)
  have H1 : ∀ pos : Int, 0 ≤ pos → getChar (List.replicate (m + 5) 120) pos ≠ startOfText :=
    fun pos hp => getChar_ne _ pos hp _ (replicate_not_mem _ _ _ (by decide)) (by decide)
  have g0 : getChar (List.replicate (m + 5) 120) 0 = 120 :=
    getChar_replicate_lt 120 (m + 5) 0 (by omega)
  have g1 : getChar (List.replicate (m + 5) 120) (0 + 1) = 120 :=
    getChar_replicate_lt 120 (m + 5) 1 (by omega)
  have g2 : getChar (List.replicate (m + 5) 120) (0 + 1 + 1) = 120 :=
    getChar_replicate_lt 120 (m + 5) 2 (by omega)
  have g3 : getChar (List.replicate (m + 5) 120) (0 + 1 + 1 + 1) = 120 :=
    getChar_replicate_lt 120 (m + 5) 3 (by omega)
  have g4 : getChar (List.replicate (m + 5) 120) (0 + 1 + 1 + 1 + 1) = 120 :=
    getChar_replicate_lt 120 (m + 5) 4 (by omega)
  have p0 : (0 : Int) ≤ 0 := by decide
  have p1 : (0 : Int) ≤ 0 + 1 := by decide
  have p2 : (0 : Int) ≤ 0 + 1 + 1 := by decide
  have p3 : (0 : Int) ≤ 0 + 1 + 1 + 1 := by decide
  have p4 : (0 : Int) ≤ 0 + 1 + 1 + 1 + 1 := by decide
  rw [check_eps1 boundedArena _ _ 10 0 0 rfl rfl rfl (H0 _ p0) (H1 _ p0),
    check_eps1 boundedArena _ _ 0 0 2 rfl rfl rfl (H0 _ p0) (H1 _ p0),
    check_lit boundedArena _ _ 2 0 false 120 3 rfl (by decide),
    check_eps1 boundedArena _ _ 3 (0 + 1) 4 rfl rfl rfl (H0 _ p1) (H1 _ p1),
    check_lit boundedArena _ _ 4 (0 + 1) false 120 5 rfl (by decide),
    check_eps1 boundedArena _ _ 5 (0 + 1 + 1) 6 rfl rfl rfl (H0 _ p2) (H1 _ p2),
    check_lit_skip boundedArena _ _ 6 (0 + 1 + 1) false 120 7 1 rfl (H0 _ p2) (H1 _ p2),
    check_eps1 boundedArena _ _ 7 (0 + 1 + 1 + 1) 8 rfl rfl rfl (H0 _ p3) (H1 _ p3),
    check_lit_skip boundedArena _ _ 8 (0 + 1 + 1 + 1) false 120 9 1 rfl (H0 _ p3) (H1 _ p3),
    check_eps1 boundedArena _ _ 9 (0 + 1 + 1 + 1 + 1) 1 rfl rfl rfl (H0 _ p4) (H1 _ p4),
    check_eps1 boundedArena _ _ 1 (0 + 1 + 1 + 1 + 1) 11 rfl rfl rfl (H0 _ p4) (H1 _ p4),
    check_end boundedArena _ _ 11 (0 + 1 + 1 + 1 + 1) false rfl,
    check_eps1 boundedArena _ _ 1 (0 + 1 + 1 + 1) 11 rfl rfl rfl (H0 _ p3) (H1 _ p3),
    check_end boundedArena _ _ 11 (0 + 1 + 1 + 1) false rfl,
    check_eps1 boundedArena _ _ 1 (0 + 1 + 1) 11 rfl rfl rfl (H0 _ p2) (H1 _ p2),
    check_end boundedArena _ _ 11 (0 + 1 + 1) false rfl,
    g0, g1, g2, g3, g4]
  rfl

/-- C7: for every `k`, `check` on the automaton of `x{2,4}` returns true on `k` copies of
`x` exactly when `2 ≤ k ≤ 4`. -/
theorem bounded_accepts_iff (k : Nat) :
    Returns (ascii "x{2,4}") (List.replicate k 120) 0 (decide (2 ≤ k ∧ k ≤ 4)) :=
  match k with
  | 0 => ⟨16, rfl⟩
  | 1 => ⟨16, rfl⟩
  | 2 => ⟨16, rfl⟩
  | 3 => ⟨16, rfl⟩
  | 4 => ⟨16, rfl⟩
  | m + 5 => ⟨16, by
      rw [matchAt_eq_check bounded_parse bounded_toNFA, bounded_ge_five m]
      have h : ¬ (2 ≤ m + 5 ∧ m + 5 ≤ 4) := by omega
      simp only [h, decide_False]⟩

/-! ## The bracket class `[a-c]` and the alternation `a|b` -/

theorem bracket_parse :
    parse (ascii "[a-c]") = .ok { pos := 5, tokens := [Token.bracket [97, 98, 99]] } :=
  rfl

theorem bracket_toNFA :
    toNFA { pos := 5, tokens := [Token.bracket [97, 98, 99]] } = .ok (2, bracketArena) :=
  rfl

theorem bracket_state (input : List Nat) (f : Nat) (pos : Int)
    (h1 : getChar input pos ≠ startOfText) :
    check bracketArena input (f + 1) 0 pos =
      if getChar input pos = 97 ∨ getChar input pos = 98 ∨ getChar input pos = 99 then
        check bracketArena input f 1 (pos + 1)
      else .ok false := by
  rw [check_step _ _ _ _ _ h1]
  have hs : getState bracketArena 0 = ⟨false, false, [(99, [1]), (98, [1]), (97, [1])]⟩ := rfl
  have he : transitionsAt bracketArena 0 epsilonChar = [] := rfl
  simp only [he, hs, Bool.false_eq_true, and_false, if_false, List.foldr, orElse_false_right,
    transitionsAt, lookupKey]
  by_cases h99 : getChar input pos = 99
  · simp [h99]
  · by_cases h98 : getChar input pos = 98
    · simp [h98]
    · by_cases h97 : getChar input pos = 97
      · simp [h97]
      · simp [h97, h98, h99]

theorem bracket_cons (c : Nat) (rest : List Nat) (hs : ∀ x ∈ c :: rest, x ∉ reservedCodes) :
    check bracketArena (c :: rest) 10 2 0 =
      .ok (decide (c :: rest = [97] ∨ c :: rest = [98] ∨ c :: rest = [99])) := by
  obtain ⟨n0, n1, n2⟩ := not_reserved hs
  have H0 : ∀ pos : Int, 0 ≤ pos → getChar (c :: rest) pos ≠ epsilonChar :=
    fun pos hp => getChar_ne _ pos hp _ n0 (by decide)
  have H1 : ∀ pos : Int, 0 ≤ pos → getChar (c :: rest) pos ≠ startOfText :=
    fun pos hp => getChar_ne _ pos hp _ n1 (by decide)
  have p0 : (0 : Int) ≤ 0 := by decide
  have p1 : (0 : Int) ≤ 0 + 1 := by decide
  have hend := getChar_cons_one_eq_end c rest (fun h => n2 (List.mem_cons_of_mem c h))
  rw [check_eps1 bracketArena _ _ 2 0 0 rfl rfl rfl (H0 _ p0) (H1 _ p0),
    bracket_state _ _ 0 (H1 _ p0),
    check_eps1 bracketArena _ _ 1 (0 + 1) 3 rfl rfl rfl (H0 _ p1) (H1 _ p1),
    check_end bracketArena _ _ 3 (0 + 1) false rfl, getChar_cons_zero]
  by_cases hr : rest = []
  · subst hr
    simp only [hend.mpr rfl, decide_True, List.cons.injEq, and_true]
    by_cases h : c = 97 ∨ c = 98 ∨ c = 99
    · simp only [h, if_true, decide_True]
    · simp only [h, if_false, decide_False]
  · have hne : ¬ getChar (c :: rest) (0 + 1) = endOfText := fun h => hr (hend.mp h)
    simp only [hne, decide_False, List.cons.injEq, hr, and_false, or_false, ite_self]

/-- C10: for every input `s` free of the reserved symbol codes, `check` on the automaton of
`[a-c]` returns true exactly when `s` is one of the one-symbol inputs `a`, `b`, `c`. -/
theorem bracket_accepts_iff (s : List Nat) (hs : ∀ c ∈ s, c ∉ reservedCodes) :
    Returns (ascii "[a-c]") s 0 (decide (s = [97] ∨ s = [98] ∨ s = [99])) :=
  match s, hs with
  | [], _ => ⟨10, rfl⟩
  | c :: rest, hs => ⟨10, by
      rw [matchAt_eq_check bracket_parse bracket_toNFA]
      exact bracket_cons c rest hs⟩

/-- The theorem `bracket_accepts_iff` on the inputs `d`, `a`, `b` and `c`. -/
theorem bracket_accepts_iff_witness :
    (∀ c ∈ ascii "d", c ∉ reservedCodes) ∧
      Returns (ascii "[a-c]") (ascii "d") 0 false ∧
      Returns (ascii "[a-c]") (ascii "a") 0 true ∧
      Returns (ascii "[a-c]") (ascii "b") 0 true ∧
      Returns (ascii "[a-c]") (ascii "c") 0 true :=
  ⟨by decide, bracket_accepts_iff (ascii "d") (by decide),
    bracket_accepts_iff (ascii "a") (by decide), bracket_accepts_iff (ascii "b") (by decide),
    bracket_accepts_iff (ascii "c") (by decide)⟩

theorem or_parse :
    parse (ascii "a|b") =
      .ok { pos := 4,
            tokens := [Token.or [Token.groupUncaptured [Token.literal 97],
              Token.groupUncaptured [Token.literal 98]]] } :=
  rfl

theorem or_toNFA :
    toNFA { pos := 4,
            tokens := [Token.or [Token.groupUncaptured [Token.literal 97],
              Token.groupUncaptured [Token.literal 98]]] } = .ok (10, orArena) :=
  rfl

theorem or_cons (c : Nat) (rest : List Nat) (hs : ∀ x ∈ c :: rest, x ∉ reservedCodes) :
    check orArena (c :: rest) 10 10 0 =
      .ok (decide (c :: rest = [97] ∨ c :: rest = [98])) := by
  obtain ⟨n0, n1, n2⟩ := not_reserved hs
  have H0 : ∀ pos : Int, 0 ≤ pos → getChar (c :: rest) pos ≠ epsilonChar :=
    fun pos hp => getChar_ne _ pos hp _ n0 (by decide)
  have H1 : ∀ pos : Int, 0 ≤ pos → getChar (c :: rest) pos ≠ startOfText :=
    fun pos hp => getChar_ne _ pos hp _ n1 (by decide)
  have p0 : (0 : Int) ≤ 0 := by decide
  have p1 : (0 : Int) ≤ 0 + 1 := by decide
  have hend := getChar_cons_one_eq_end c rest (fun h => n2 (List.mem_cons_of_mem c h))
  rw [check_eps1 orArena _ _ 10 0 0 rfl rfl rfl (H0 _ p0) (H1 _ p0),
    check_eps2 orArena _ _ 0 0 4 8 rfl rfl rfl (H0 _ p0) (H1 _ p0),
    check_lit orArena _ _ 4 0 false 97 5 rfl (by decide),
    check_lit orArena _ _ 8 0 false 98 9 rfl (by decide),
    check_eps1 orArena _ _ 5 (0 + 1) 1 rfl rfl rfl (H0 _ p1) (H1 _ p1),
    check_eps1 orArena _ _ 9 (0 + 1) 1 rfl rfl rfl (H0 _ p1) (H1 _ p1),
    check_eps1 orArena _ _ 1 (0 + 1) 11 rfl rfl rfl (H0 _ p1) (H1 _ p1),
    check_end orArena _ _ 11 (0 + 1) false rfl, getChar_cons_zero]
  by_cases hr : rest = []
  · subst hr
    simp only [hend.mpr rfl, decide_True, List.cons.injEq, and_true]
    by_cases h97 : c = 97
    · subst h97
      rfl
    · by_cases h98 : c = 98
      · subst h98
        rfl
      · simp only [h97, h98, if_false, or_self, decide_False, orElse_false_left]
  · have hne : ¬ getChar (c :: rest) (0 + 1) = endOfText := fun h => hr (hend.mp h)
    simp only [hne, decide_False, List.cons.injEq, hr, and_false, or_false, ite_self,
      orElse_false_left]

/-- C9: for every input `s` free of the reserved symbol codes, `check` on the automaton of
`a|b` returns true exactly when `s` is `a` or `b`. -/
theorem alternation_accepts_iff (s : List Nat) (hs : ∀ c ∈ s, c ∉ reservedCodes) :
    Returns (ascii "a|b") s 0 (decide (s = [97] ∨ s = [98])) :=
  match s, hs with
  | [], _ => ⟨10, rfl⟩
  | c :: rest, hs => ⟨10, by
      rw [matchAt_eq_check or_parse or_toNFA]
      exact or_cons c rest hs⟩

/-- The theorem `alternation_accepts_iff` on the inputs `ab`, `c`, `a` and `b`. -/
theorem alternation_accepts_iff_witness :
    (∀ c ∈ ascii "ab", c ∉ reservedCodes) ∧
      Returns (ascii "a|b") (ascii "ab") 0 false ∧
      Returns (ascii "a|b") (ascii "c") 0 false ∧
      Returns (ascii "a|b") (ascii "a") 0 true ∧
      Returns (ascii "a|b") (ascii "b") 0 true :=
  ⟨by decide, alternation_accepts_iff (ascii "ab") (by decide),
    alternation_accepts_iff (ascii "c") (by decide),
    alternation_accepts_iff (ascii "a") (by decide),
    alternation_accepts_iff (ascii "b") (by decide)⟩

/-! ## The scenario `ab*c` -/

theorem star_parse :
    parse (ascii "ab*c") =
      .ok { pos := 4,
            tokens := [Token.literal 97, Token.repeatT 0 (-1) (Token.literal 98),
              Token.literal 99] } :=
  rfl

theorem star_toNFA :
    toNFA { pos := 4,
            tokens := [Token.literal 97, Token.repeatT 0 (-1) (Token.literal 98),
              Token.literal 99] } = .ok (8, starArena) :=
  rfl

theorem abcInput_length (n : Nat) : (abcInput n).length = n + 2 := by
  simp [abcInput]

theorem abcInput_not_mem (n v : Nat) (h97 : v ≠ 97) (h98 : v ≠ 98) (h99 : v ≠ 99) :
    v ∉ abcInput n := by
  intro h
  simp only [abcInput, List.mem_cons, List.mem_append, List.mem_replicate,
    List.mem_singleton, List.not_mem_nil, or_false] at h
  rcases h with h | ⟨_, h⟩ | h
  · exact h97 h
  · exact h98 h
  · exact h99 h

theorem getChar_abc_b (n j : Nat) (h1 : 1 ≤ j) (h2 : j ≤ n) :
    getChar (abcInput n) (j : Int) = 98 := by
  rw [getChar_nat_lt _ j (by rw [abcInput_length]; omega)]
  obtain ⟨i, rfl⟩ : ∃ i, j = i + 1 := ⟨j - 1, by omega⟩
  have hi : i < (List.replicate n 98).length := by simp; omega
  rw [abcInput, List.getD_cons_succ, List.getD_append _ _ _ _ hi,
    List.getD_eq_getElem _ _ hi]
  simp

theorem getChar_abc_c (n : Nat) : getChar (abcInput n) ((n + 1 : Nat) : Int) = 99 := by
  rw [getChar_nat_lt _ (n + 1) (by rw [abcInput_length]; omega)]
  have hn : (List.replicate n 98).length ≤ n := by simp
  rw [abcInput, List.getD_cons_succ, List.getD_append_right _ _ _ _ hn]
  simp

theorem getChar_abc_end (n : Nat) :
    getChar (abcInput n) ((n + 2 : Nat) : Int) = endOfText :=
  getChar_nat_ge _ _ (by rw [abcInput_length])

theorem star_loop (n : Nat) :
    ∀ (d j : Nat), j + d = n + 1 → 1 ≤ j →
      check starArena (abcInput n) (3 * d + 4) 3 (j : Int) = .ok true := by
  have H0 : ∀ pos : Int, 0 ≤ pos → getChar (abcInput n) pos ≠ epsilonChar :=
    fun pos hp => getChar_ne _ pos hp _
      (abcInput_not_mem n _ (by decide) (by decide) (by decide)) (by decide)
  have H1 : ∀ pos : Int, 0 ≤ pos → getChar (abcInput n) pos ≠ startOfText :=
    fun pos hp => getChar_ne _ pos hp _
      (abcInput_not_mem n _ (by decide) (by decide) (by decide)) (by decide)
  intro d
  induction d with
  | zero =>
    intro j hj _
    have hjn : j = n + 1 := by omega
    subst hjn
    have pj : (0 : Int) ≤ ((n + 1 : Nat) : Int) := Int.ofNat_nonneg _
    have pj1 : (0 : Int) ≤ ((n + 1 : Nat) : Int) + 1 := by omega
    have hend : getChar (abcInput n) (((n + 1 : Nat) : Int) + 1) = endOfText :=
      getChar_abc_end n
    rw [check_eps2 starArena _ _ 3 _ 4 6 rfl rfl rfl (H0 _ pj) (H1 _ pj),
      check_lit starArena _ _ 4 _ false 98 5 rfl (by decide),
      check_lit starArena _ _ 6 _ false 99 7 rfl (by decide),
      check_eps1 starArena _ _ 7 _ 9 rfl rfl rfl (H0 _ pj1) (H1 _ pj1),
      check_end starArena _ _ 9 _ false rfl, getChar_abc_c, hend]
    rfl
  | succ d ih =>
    intro j hj h1
    have pj : (0 : Int) ≤ (j : Int) := Int.ofNat_nonneg _
    have pj1 : (0 : Int) ≤ (j : Int) + 1 := by omega
    have hb : getChar (abcInput n) (j : Int) = 98 := getChar_abc_b n j h1 (by omega)
    have hnext : check starArena (abcInput n) (3 * d + 4) 3 ((j : Int) + 1) = .ok true :=
      ih (j + 1) (by omega) (by omega)
    have hf : 3 * (d + 1) + 4 = (3 * d + 4) + 1 + 1 + 1 := by ring
    rw [hf, check_eps2 starArena _ _ 3 _ 4 6 rfl rfl rfl (H0 _ pj) (H1 _ pj),
      check_lit starArena _ _ 4 _ false 98 5 rfl (by decide),
      check_eps1 starArena _ _ 5 _ 3 rfl rfl rfl (H0 _ pj1) (H1 _ pj1), hb, hnext]
    rfl

theorem star_accepts (n : Nat) :
    check starArena (abcInput n) (3 * n + 8) 8 0 = .ok true := by
  have H0 : ∀ pos : Int, 0 ≤ pos → getChar (abcInput n) pos ≠ epsilonChar :=
    fun pos hp => getChar_ne _ pos hp _
      (abcInput_not_mem n _ (by decide) (by decide) (by decide)) (by decide)
  have H1 : ∀ pos : Int, 0 ≤ pos → getChar (abcInput n) pos ≠ startOfText :=
    fun pos hp => getChar_ne _ pos hp _
      (abcInput_not_mem n _ (by decide) (by decide) (by decide)) (by decide)
  have p0 : (0 : Int) ≤ 0 := by decide
  have p1 : (0 : Int) ≤ 0 + 1 := by decide
  have hloop : check starArena (abcInput n) (3 * n + 4) 3 (0 + 1) = .ok true :=
    star_loop n n 1 (by omega) (by omega)
  have hf : 3 * n + 8 = (3 * n + 4) + 1 + 1 + 1 + 1 := by ring
  have ha : getChar (abcInput n) 0 = 97 := getChar_cons_zero _ _
  rw [hf, check_eps1 starArena _ _ 8 0 0 rfl rfl rfl (H0 _ p0) (H1 _ p0),
    check_lit starArena _ _ 0 0 false 97 1 rfl (by decide),
    check_eps1 starArena _ _ 1 (0 + 1) 2 rfl rfl rfl (H0 _ p1) (H1 _ p1),
    check_eps2 starArena _ _ 2 (0 + 1) 3 4 rfl rfl rfl (H0 _ p1) (H1 _ p1), hloop, ha]
  rfl

/-- C3: on the automaton of `ab*c`, `check` from offset 0 returns true on `a`, `n` copies of
`b`, `c` for every `n` (in particular on `ac`, `abc` and `abbbbc`), and returns false on
`ab` and on `a c`. -/
theorem ab_star_c_scenario :
    (∀ n : Nat, Returns (ascii "ab*c") (abcInput n) 0 true) ∧
      Returns (ascii "ab*c") (ascii "ac") 0 true ∧
      Returns (ascii "ab*c") (ascii "abc") 0 true ∧
      Returns (ascii "ab*c") (ascii "abbbbc") 0 true ∧
      Returns (ascii "ab*c") (ascii "ab") 0 false ∧
      Returns (ascii "ab*c") (ascii "a c") 0 false :=
  ⟨fun n => ⟨3 * n + 8, by rw [matchAt_eq_check star_parse star_toNFA, star_accepts n]⟩,
    ⟨20, rfl⟩, ⟨20, rfl⟩, ⟨20, rfl⟩, ⟨20, rfl⟩, ⟨20, rfl⟩⟩

/-! ## Evaluations of the pipeline on concrete patterns -/

/-- C1: on the pattern `x*` and the input `xx` the search returns false. The loop edge that
the repeat case of `tokenToNFA` puts on the exit of the fragment is overwritten by the last
assignment of `toNFA`, so that only the empty input and `x` are accepted. -/
theorem star_rejects_two_x :
    Returns (ascii "x*") [] 0 true ∧ Returns (ascii "x*") (ascii "x") 0 true ∧
      Returns (ascii "x*") (ascii "xx") 0 false :=
  ⟨⟨8, rfl⟩, ⟨8, rfl⟩, ⟨8, rfl⟩⟩

/-- C4: `parse` on `(ab)+` tokenizes the bytes of the group a second time at the outer level
and applies the quantifier to the literal `)`; the searches on `ab` and on `abab` return
false and the search on `abab)` returns true. -/
theorem group_plus_rejects_ab :
    parse (ascii "(ab)+") =
        .ok { pos := 5,
              tokens := [Token.group [Token.literal 97, Token.literal 98], Token.literal 97,
                Token.literal 98, Token.repeatT 1 (-1) (Token.literal 41)] } ∧
      Returns (ascii "(ab)+") (ascii "ab") 0 false ∧
      Returns (ascii "(ab)+") (ascii "abab") 0 false ∧
      Returns (ascii "(ab)+") (ascii "abab)") 0 true :=
  ⟨rfl, ⟨20, rfl⟩, ⟨20, rfl⟩, ⟨20, rfl⟩⟩

/-- C5: `parse` panics on the pattern `(a|b)c`: `parseOr` leaves the cursor on the closing
parenthesis, the loop of `parseGroup` steps over it and indexes past the end. -/
theorem group_alternation_panics : parse (ascii "(a|b)c") = .error .panic :=
  rfl

/-- C6: on the pattern `x{2,}` the searches on three and on ten copies of `x` return false;
two copies are accepted. -/
theorem at_least_two_rejects_three :
    Returns (ascii "x{2,}") (ascii "xx") 0 true ∧
      Returns (ascii "x{2,}") (ascii "xxx") 0 false ∧
      Returns (ascii "x{2,}") (List.replicate 10 120) 0 false :=
  ⟨⟨20, rfl⟩, ⟨20, rfl⟩, ⟨20, rfl⟩⟩



/-! ## Patterns of literals -/

theorem process_literal (regex : List Nat) (fuel : Nat) (ctx : ParseContext) (ch : Nat)
    (hget : regex.get? ctx.pos = some ch) (hop : ch ∉ operatorChars) :
    process regex (fuel + 1) ctx = .ok (ctx.push (Token.literal ch)) := by
  simp only [operatorChars, List.mem_cons, List.mem_singleton, List.not_mem_nil, or_false,
    not_or] at hop
  obtain ⟨h40, h91, h124, h42, h43, h63, h123⟩ := hop
  simp only [process, hget, h40, h91, h124, h42, h43, h63, h123, if_false, or_self]

theorem parseLoop_literals (regex : List Nat) (hop : ∀ c ∈ regex, c ∉ operatorChars) :
    ∀ (d fuel : Nat) (ctx : ParseContext), ctx.pos + d = regex.length → d + 1 ≤ fuel →
      parseLoop regex fuel ctx =
        .ok { pos := regex.length,
              tokens := ctx.tokens ++ (regex.drop ctx.pos).map Token.literal } := by
  intro d
  induction d with
  | zero =>
    intro fuel ctx hd hf
    obtain ⟨f, rfl⟩ : ∃ f, fuel = f + 1 := ⟨fuel - 1, by omega⟩
    have hpos : ctx.pos = regex.length := by omega
    have hlt : ¬ ctx.pos < regex.length := by omega
    simp only [parseLoop, hlt, if_false]
    rw [hpos, List.drop_length]
    simp [← hpos]
  | succ d ih =>
    intro fuel ctx hd hf
    obtain ⟨f, rfl⟩ : ∃ f, fuel = f + 1 + 1 := ⟨fuel - 2, by omega⟩
    have hlt : ctx.pos < regex.length := by omega
    have hget : regex.get? ctx.pos = some regex[ctx.pos] := by
      simp [List.getElem?_eq_getElem hlt]
    have hproc := process_literal regex f ctx regex[ctx.pos] hget
      (hop _ (List.getElem_mem _))
    rw [parseLoop, if_pos hlt, hproc]
    simp only
    rw [ih (f + 1) (ctx.push (Token.literal regex[ctx.pos])).incr
      (by simp only [ParseContext.incr, ParseContext.push]; omega) (by omega)]
    simp only [ParseContext.incr, ParseContext.push, List.append_assoc]
    rw [List.drop_eq_getElem_cons hlt]
    rfl

theorem parse_literals (regex : List Nat) (hop : ∀ c ∈ regex, c ∉ operatorChars) :
    parse regex = .ok { pos := regex.length, tokens := regex.map Token.literal } := by
  rw [parse, parseLoop_literals regex hop regex.length _ _ (by simp) (by omega)]
  simp

theorem modify_length_append (f : State → State) (pre : List State) (x : State)
    (post : List State) : (pre ++ x :: post).modify f pre.length = pre ++ f x :: post := by
  induction pre with
  | nil => rfl
  | cons a pre ih => simp only [List.cons_append, List.length_cons, List.modify_succ_cons, ih]

theorem getState_length_append (pre : List State) (x : State) (post : List State) :
    getState (pre ++ x :: post) pre.length = x := by
  induction pre with
  | nil => rfl
  | cons a pre ih =>
    unfold getState at ih ⊢
    simp only [List.cons_append, List.length_cons, List.getD_cons_succ]
    exact ih

theorem chainStates_length (cs : List Nat) : ∀ b, (chainStates cs b).length = 2 * cs.length := by
  induction cs with
  | nil => intro b; rfl
  | cons c cs ih => intro b; simp only [chainStates, List.length_cons, ih]; omega

theorem setTrans_length_append (pre : List State) (x : State) (post : List State)
    (ch : Nat) (dests : List Nat) :
    setTrans (pre ++ x :: post) pre.length ch dests =
      pre ++ { x with transitions := (ch, dests) :: x.transitions } :: post := by
  rw [setTrans, modify_length_append]

theorem appendEps_fresh (pre : List State) (post : List State) (d : Nat) :
    appendEps (pre ++ freshState :: post) pre.length d = pre ++ epsState d :: post := by
  rw [appendEps, setTrans_length_append, transitionsAt, getState_length_append]
  rfl

theorem tokenToNFA_literal (c : Nat) (nfa : Arena) :
    tokenToNFA (Token.literal c) nfa =
      .ok (nfa.length, nfa.length + 1, nfa ++ [litState c (nfa.length + 1), freshState]) := by
  have h := setTrans_length_append nfa freshState [freshState] c [nfa.length + 1]
  simp only [tokenToNFA, alloc, List.length_append, List.length_singleton,
    List.append_assoc, List.singleton_append]
  rw [show ({ start := false, isEnd := false, transitions := [] } : State) = freshState from rfl,
    h]
  rfl

theorem chainLoop_literals (cs : List Nat) :
    ∀ (B : List State),
      chainLoop (tokensToNFA (cs.map Token.literal)) B.length (B ++ [freshState]) =
        .ok (B.length + 2 * cs.length, B ++ chainStates cs B.length ++ [freshState]) := by
  induction cs with
  | nil => intro B; simp [tokensToNFA, chainLoop, chainStates]
  | cons c cs ih =>
    intro B
    have hih := ih (B ++ [epsState (B.length + 1), litState c (B.length + 2)])
    have hlen : (B ++ [epsState (B.length + 1), litState c (B.length + 2)]).length =
        B.length + 2 := by simp
    have harena : (B ++ [freshState]) ++ [litState c ((B ++ [freshState]).length + 1), freshState]
        = B ++ freshState :: [litState c (B.length + 2), freshState] := by simp
    have hout : B ++ [epsState (B.length + 1), litState c (B.length + 2)] ++
          chainStates cs (B.length + 2) ++ [freshState] =
        B ++ chainStates (c :: cs) B.length ++ [freshState] := by
      simp [chainStates]
    rw [hlen] at hih
    rw [List.map_cons, tokensToNFA, chainLoop, tokenToNFA_literal]
    simp only
    rw [harena, appendEps_fresh]
    have hL : (B ++ [freshState]).length + 1 = B.length + 2 := by simp
    have hL2 : (B ++ [freshState]).length = B.length + 1 := by simp
    rw [hL, hL2]
    have hin : B ++ epsState (B.length + 1) :: [litState c (B.length + 2), freshState] =
        B ++ [epsState (B.length + 1), litState c (B.length + 2)] ++ [freshState] := by simp
    rw [hin, hih, hout]
    simp only [List.length_cons]
    congr 2
    omega

theorem toNFA_literals (n c0 : Nat) (cs : List Nat) :
    toNFA { pos := n, tokens := (c0 :: cs).map Token.literal } =
      .ok (2 * cs.length + 2, literalArena c0 cs) := by
  have h0 : tokenToNFA (Token.literal c0) [] = .ok (0, 1, [litState c0 1, freshState]) := rfl
  have h : chainLoop (tokensToNFA (cs.map Token.literal)) 1 [litState c0 1, freshState] =
      .ok (1 + 2 * cs.length, [litState c0 1] ++ chainStates cs 1 ++ [freshState]) :=
    chainLoop_literals cs [litState c0 1]
  have hX : ([litState c0 1] ++ chainStates cs 1).length = 1 + 2 * cs.length := by
    rw [List.length_append, chainStates_length]; rfl
  have hA1 : ([litState c0 1] ++ chainStates cs 1 ++ [freshState]).length =
      2 * cs.length + 2 := by
    rw [List.length_append, hX]; simp; omega
  have hS := setTrans_length_append ([litState c0 1] ++ chainStates cs 1 ++ [freshState])
    { start := true, isEnd := false, transitions := [] } [] epsilonChar [0]
  rw [hA1] at hS
  have hA2 : ([litState c0 1] ++ chainStates cs 1 ++ [freshState] ++
      [({ start := true, isEnd := false, transitions := [(epsilonChar, [0])] } : State)]).length =
      2 * cs.length + 3 := by
    rw [List.length_append, hA1]; rfl
  have hG := getState_length_append ([litState c0 1] ++ chainStates cs 1 ++ [freshState] ++
      [({ start := true, isEnd := false, transitions := [(epsilonChar, [0])] } : State)])
    { start := false, isEnd := true, transitions := [] } []
  rw [hA2] at hG
  have hE := setTrans_length_append ([litState c0 1] ++ chainStates cs 1) freshState
    [{ start := true, isEnd := false, transitions := [(epsilonChar, [0])] },
      { start := false, isEnd := true, transitions := [] }] epsilonChar [2 * cs.length + 3]
  rw [hX] at hE
  simp only [toNFA, List.map_cons, tokensToNFA, h0, h, alloc, hA1, hS, hA2, transitionsAt, hG,
    List.nil_append, lookupKey]
  simp only [List.append_assoc, List.singleton_append, List.cons_append, List.nil_append]
    at hE ⊢
  rw [hE]
  rfl

theorem getState_append_add (pre post : List State) (k : Nat) :
    getState (pre ++ post) (pre.length + k) = getState post k := by
  induction pre with
  | nil => simp only [List.nil_append, List.length_nil, Nat.zero_add]
  | cons a pre ih =>
    unfold getState at ih ⊢
    rw [List.cons_append, List.length_cons, Nat.add_right_comm, List.getD_cons_succ]
    exact ih

theorem check_eps_state (nfa : Arena) (input : List Nat) (f s : Nat) (pos : Int) (b : Bool)
    (t : Nat) (hs : getState nfa s = ⟨b, false, [(epsilonChar, [t])]⟩)
    (h0 : getChar input pos ≠ epsilonChar) (h1 : getChar input pos ≠ startOfText) :
    check nfa input (f + 1) s pos = check nfa input f t pos := by
  refine check_eps1 nfa input f s pos t ?_ ?_ ?_ h0 h1
  · rw [hs]
  · rw [hs]; rfl
  · rw [transitionsAt, hs]; rfl

theorem drop_eq_cons_iff (s : List Nat) (j c : Nat) (cs : List Nat) (hc : c ≠ endOfText) :
    (getChar s (j : Int) = c ∧ s.drop (j + 1) = cs) ↔ s.drop j = c :: cs := by
  by_cases h : j < s.length
  · rw [getChar_nat_lt s j h, List.getD_eq_getElem _ _ h, List.drop_eq_getElem_cons h,
      List.cons.injEq]
  · have hd : s.drop j = [] := List.drop_eq_nil_of_le (by omega)
    rw [getChar_nat_ge s j (by omega), hd]
    constructor
    · intro hh
      exact absurd hh.1.symm hc
    · intro hh
      exact absurd hh (by simp)

theorem drop_eq_nil_iff_getChar (s : List Nat) (j : Nat) (h2 : endOfText ∉ s) :
    getChar s (j : Int) = endOfText ↔ s.drop j = [] := by
  by_cases h : j < s.length
  · rw [getChar_nat_lt s j h, List.getD_eq_getElem _ _ h, List.drop_eq_getElem_cons h]
    constructor
    · intro hh
      exact absurd (hh ▸ List.getElem_mem _) h2
    · intro hh
      exact absurd hh (List.cons_ne_nil _ _)
  · have hd : s.drop j = [] := List.drop_eq_nil_of_le (by omega)
    rw [getChar_nat_ge s j (by omega), hd]
    simp

theorem literal_walk (s : List Nat) (h0 : epsilonChar ∉ s) (h1 : startOfText ∉ s)
    (h2 : endOfText ∉ s) :
    ∀ (cs : List Nat), (∀ c ∈ cs, c ≠ epsilonChar ∧ c ≠ endOfText) →
      ∀ (pre : List State) (j : Nat),
        check (pre ++ chainStates cs pre.length ++
            [epsState (pre.length + 2 * cs.length + 2), rootState 0, finalState])
          s (2 * cs.length + 2) pre.length (j : Int) = .ok (decide (s.drop j = cs)) := by
  have H0 : ∀ pos : Int, 0 ≤ pos → getChar s pos ≠ epsilonChar :=
    fun pos hp => getChar_ne _ pos hp _ h0 (by decide)
  have H1 : ∀ pos : Int, 0 ≤ pos → getChar s pos ≠ startOfText :=
    fun pos hp => getChar_ne _ pos hp _ h1 (by decide)
  intro cs
  induction cs with
  | nil =>
    intro _ pre j
    have pj : (0 : Int) ≤ (j : Int) := Int.ofNat_nonneg _
    have hA : pre ++ chainStates [] pre.length ++
        [epsState (pre.length + 2 * ([] : List Nat).length + 2), rootState 0, finalState] =
        pre ++ epsState (pre.length + 2) :: [rootState 0, finalState] := by
      simp [chainStates]
    have hs0 := getState_length_append pre (epsState (pre.length + 2)) [rootState 0, finalState]
    have hs2 : getState (pre ++ epsState (pre.length + 2) :: [rootState 0, finalState])
        (pre.length + 2) = finalState := getState_append_add pre _ 2
    rw [hA, show 2 * ([] : List Nat).length + 2 = 0 + 1 + 1 from rfl,
      check_eps_state _ _ _ _ _ false _ hs0 (H0 _ pj) (H1 _ pj),
      check_end _ _ _ _ _ false hs2]
    by_cases hd : s.drop j = []
    · simp only [hd, (drop_eq_nil_iff_getChar s j h2).mpr hd, decide_True]
    · have hne : ¬ getChar s (j : Int) = endOfText :=
        fun h => hd ((drop_eq_nil_iff_getChar s j h2).mp h)
      simp only [hd, hne, decide_False]
  | cons c cs ih =>
    intro hcs pre j
    have pj : (0 : Int) ≤ (j : Int) := Int.ofNat_nonneg _
    have hc := hcs c (List.mem_cons_self c cs)
    have hih := ih (fun x hx => hcs x (List.mem_cons_of_mem c hx))
      (pre ++ [epsState (pre.length + 1), litState c (pre.length + 2)]) (j + 1)
    have hlen : (pre ++ [epsState (pre.length + 1), litState c (pre.length + 2)]).length =
        pre.length + 2 := by simp
    rw [hlen] at hih
    have hA : pre ++ chainStates (c :: cs) pre.length ++
        [epsState (pre.length + 2 * (c :: cs).length + 2), rootState 0, finalState] =
        pre ++ [epsState (pre.length + 1), litState c (pre.length + 2)] ++
          chainStates cs (pre.length + 2) ++
          [epsState (pre.length + 2 + 2 * cs.length + 2), rootState 0, finalState] := by
      have e : pre.length + 2 * (c :: cs).length + 2 = pre.length + 2 + 2 * cs.length + 2 := by
        simp only [List.length_cons]; omega
      rw [e]
      simp [chainStates]
    have hs0 : getState (pre ++ [epsState (pre.length + 1), litState c (pre.length + 2)] ++
          chainStates cs (pre.length + 2) ++
          [epsState (pre.length + 2 + 2 * cs.length + 2), rootState 0, finalState])
        pre.length = epsState (pre.length + 1) := by
      have := getState_length_append pre (epsState (pre.length + 1))
        (litState c (pre.length + 2) :: (chainStates cs (pre.length + 2) ++
          [epsState (pre.length + 2 + 2 * cs.length + 2), rootState 0, finalState]))
      simpa using this
    have hs1 : getState (pre ++ [epsState (pre.length + 1), litState c (pre.length + 2)] ++
          chainStates cs (pre.length + 2) ++
          [epsState (pre.length + 2 + 2 * cs.length + 2), rootState 0, finalState])
        (pre.length + 1) = litState c (pre.length + 2) := by
      have := getState_append_add pre (epsState (pre.length + 1) ::
        litState c (pre.length + 2) :: (chainStates cs (pre.length + 2) ++
          [epsState (pre.length + 2 + 2 * cs.length + 2), rootState 0, finalState])) 1
      simpa using this
    have hf : 2 * (c :: cs).length + 2 = (2 * cs.length + 2) + 1 + 1 := by
      simp only [List.length_cons]; omega
    have hcast : ((j + 1 : Nat) : Int) = (j : Int) + 1 := by push_cast; rfl
    rw [hcast] at hih
    rw [hA, hf, check_eps_state _ _ _ _ _ false _ hs0 (H0 _ pj) (H1 _ pj),
      check_lit _ _ _ _ _ false c _ hs1 hc.1, hih]
    by_cases hd : s.drop j = c :: cs
    · have hh := (drop_eq_cons_iff s j c cs hc.2).mpr hd
      simp only [hd, hh.1, hh.2, if_true, decide_True]
    · by_cases hg : getChar s (j : Int) = c
      · have hne : ¬ s.drop (j + 1) = cs :=
          fun h => hd ((drop_eq_cons_iff s j c cs hc.2).mp ⟨hg, h⟩)
        simp only [hd, hg, hne, if_true, decide_False]
      · simp only [hd, hg, if_false, decide_False]

theorem literalArena_eq (c0 : Nat) (cs : List Nat) :
    literalArena c0 cs =
      [litState c0 1] ++ chainStates cs [litState c0 1].length ++
        [epsState ([litState c0 1].length + 2 * cs.length + 2), rootState 0, finalState] := by
  have e : [litState c0 1].length + 2 * cs.length + 2 = 2 * cs.length + 3 := by
    simp only [List.length_singleton]; omega
  rw [e]
  rfl

theorem literal_check (s : List Nat) (c0 : Nat) (cs : List Nat)
    (hs : ∀ c ∈ s, c ∉ reservedCodes) (hp : ∀ c ∈ c0 :: cs, c ∉ reservedCodes) :
    check (literalArena c0 cs) s (2 * cs.length + 2 + 1 + 1) (2 * cs.length + 2) 0 =
      .ok (decide (s = c0 :: cs)) := by
  obtain ⟨h0, h1, h2⟩ := not_reserved hs
  obtain ⟨q0, _, q2⟩ := not_reserved hp
  have H0 : ∀ pos : Int, 0 ≤ pos → getChar s pos ≠ epsilonChar :=
    fun pos hp => getChar_ne _ pos hp _ h0 (by decide)
  have H1 : ∀ pos : Int, 0 ≤ pos → getChar s pos ≠ startOfText :=
    fun pos hp => getChar_ne _ pos hp _ h1 (by decide)
  have p0 : (0 : Int) ≤ 0 := by decide
  have hc0 : c0 ≠ epsilonChar ∧ c0 ≠ endOfText :=
    ⟨fun h => q0 (h ▸ List.mem_cons_self c0 cs), fun h => q2 (h ▸ List.mem_cons_self c0 cs)⟩
  have hcs : ∀ c ∈ cs, c ≠ epsilonChar ∧ c ≠ endOfText := fun c hc =>
    ⟨fun h => q0 (h ▸ List.mem_cons_of_mem c0 hc), fun h => q2 (h ▸ List.mem_cons_of_mem c0 hc)⟩
  have hroot : getState (literalArena c0 cs) (2 * cs.length + 2) = rootState 0 := by
    have hl : ([litState c0 1] ++ chainStates cs 1).length + 1 = 2 * cs.length + 2 := by
      rw [List.length_append, chainStates_length, List.length_singleton]; omega
    have := getState_append_add ([litState c0 1] ++ chainStates cs 1)
      [epsState (2 * cs.length + 3), rootState 0, finalState] 1
    rw [hl] at this
    exact this
  have hfirst : getState (literalArena c0 cs) 0 = litState c0 1 := rfl
  have hwalk := literal_walk s h0 h1 h2 cs hcs [litState c0 1] 1
  rw [← literalArena_eq] at hwalk
  rw [check_eps_state _ _ _ _ _ true 0 hroot (H0 _ p0) (H1 _ p0),
    check_lit _ _ _ _ _ false c0 1 hfirst hc0.1]
  have hw : check (literalArena c0 cs) s (2 * cs.length + 2) 1 (0 + 1) =
      .ok (decide (s.drop 1 = cs)) := hwalk
  rw [hw]
  have hiff := drop_eq_cons_iff s 0 c0 cs hc0.2
  rw [List.drop_zero] at hiff
  have hg : getChar s ((0 : Nat) : Int) = getChar s 0 := rfl
  rw [hg] at hiff
  by_cases hd : s = c0 :: cs
  · have hh := hiff.mpr hd
    simp only [hh.1, hh.2, if_true, decide_True, ← hd]
  · by_cases hgc : getChar s 0 = c0
    · have hne : ¬ s.drop (0 + 1) = cs := fun h => hd (hiff.mp ⟨hgc, h⟩)
      simp only [hd, hgc, if_true, decide_False]
      simp only [Nat.zero_add] at hne
      simp only [hne, decide_False]
    · simp only [hd, hgc, if_false, decide_False]

/-- C2: for every non-empty pattern `p` without operator characters and every input `s`,
both free of the reserved symbol codes, `check` on the automaton of `p` from offset 0 returns
true exactly when `s = p`. -/
theorem literal_pattern_accepts_iff (p s : List Nat) (hne : p ≠ [])
    (hop : ∀ c ∈ p, c ∉ operatorChars) (hp : ∀ c ∈ p, c ∉ reservedCodes)
    (hs : ∀ c ∈ s, c ∉ reservedCodes) :
    Returns p s 0 (decide (s = p)) :=
  match p, hne, hop, hp with
  | [], hne, _, _ => absurd rfl hne
  | c0 :: cs, _, hop, hp => ⟨2 * cs.length + 2 + 1 + 1, by
      rw [matchAt_eq_check (parse_literals (c0 :: cs) hop)
        (toNFA_literals (c0 :: cs).length c0 cs)]
      exact literal_check s c0 cs hs hp⟩

/-- The theorem `literal_pattern_accepts_iff` on the pattern `abc` and the inputs `abc`,
`abd` and `ab`. -/
theorem literal_pattern_accepts_iff_witness :
    (ascii "abc" ≠ [] ∧ (∀ c ∈ ascii "abc", c ∉ operatorChars) ∧
      (∀ c ∈ ascii "abc", c ∉ reservedCodes) ∧ (∀ c ∈ ascii "abd", c ∉ reservedCodes)) ∧
      Returns (ascii "abc") (ascii "abc") 0 true ∧
      Returns (ascii "abc") (ascii "abd") 0 false ∧
      Returns (ascii "abc") (ascii "ab") 0 false :=
  ⟨⟨by decide, by decide, by decide, by decide⟩,
    literal_pattern_accepts_iff (ascii "abc") (ascii "abc") (by decide) (by decide) (by decide)
      (by decide),
    literal_pattern_accepts_iff (ascii "abc") (ascii "abd") (by decide) (by decide) (by decide)
      (by decide),
    literal_pattern_accepts_iff (ascii "abc") (ascii "ab") (by decide) (by decide) (by decide)
      (by decide)⟩



/-! ## The fuel of the tokenizer -/

theorem replaceLast_ok (ctx : ParseContext) (min max : Int) :
    (∃ c, replaceLast ctx min max = .ok c ∧ c.pos = ctx.pos) ∨
      replaceLast ctx min max = .error .panic := by
  unfold replaceLast
  cases ctx.tokens.getLast? with
  | none => right; rfl
  | some t => left; exact ⟨_, rfl, rfl⟩

theorem parseRepeat_ok (ch : Nat) (ctx : ParseContext) :
    (∃ c, parseRepeat ch ctx = .ok c ∧ c.pos = ctx.pos) ∨
      parseRepeat ch ctx = .error .panic := by
  unfold parseRepeat
  split
  · exact replaceLast_ok _ _ _
  · split
    · exact replaceLast_ok _ _ _
    · exact replaceLast_ok _ _ _

theorem scanBrace_ok (l : List Nat) :
    (∃ r, scanBrace l = .ok r) ∨ scanBrace l = .error .panic := by
  induction l with
  | nil => right; rfl
  | cons c cs ih =>
    unfold scanBrace
    split
    · left; exact ⟨_, rfl⟩
    · rcases ih with ⟨r, hr⟩ | hr
      · left; rw [hr]; exact ⟨_, rfl⟩
      · right; rw [hr]; rfl

theorem parseRepeatSpecified_ok (regex : List Nat) (ctx : ParseContext) :
    (∃ c, parseRepeatSpecified regex ctx = .ok c ∧ ctx.pos ≤ c.pos) ∨
      parseRepeatSpecified regex ctx = .error .panic := by
  unfold parseRepeatSpecified
  rcases scanBrace_ok (regex.drop ctx.pos) with ⟨r, hr⟩ | hr
  · rw [hr]
    simp only
    have key : ∀ (min max : Int),
        (∃ c, replaceLast { ctx with pos := ctx.pos + r.length } min max = .ok c ∧
          ctx.pos ≤ c.pos) ∨
        replaceLast { ctx with pos := ctx.pos + r.length } min max = .error .panic := by
      intro min max
      rcases replaceLast_ok { ctx with pos := ctx.pos + r.length } min max with ⟨c, hc, hp⟩ | h
      · left; exact ⟨c, hc, by rw [hp]; exact Nat.le_add_right _ _⟩
      · right; exact h
    split
    · split
      · right; rfl
      · exact key _ _
    · split
      · right; rfl
      · split
        · exact key _ _
        · split
          · right; rfl
          · exact key _ _
    · right; rfl
  · rw [hr]; right; rfl

theorem bracketScan_error :
    ∀ (k : Nat) (l : List Nat) (literals : List (List Nat)) (n : Nat) (e : Err),
      l.length ≤ k → bracketScan l literals n = .error e → e = .panic := by
  intro k
  induction k with
  | zero =>
    intro l literals n e hk h
    have hl : l = [] := List.length_eq_zero.mp (Nat.le_zero.mp hk)
    subst hl
    exact (Except.error.inj h).symm
  | succ k ih =>
    intro l literals n e hk h
    cases l with
    | nil => exact (Except.error.inj h).symm
    | cons ch rest =>
      cases rest with
      | nil =>
        simp only [bracketScan] at h
        split at h
        · exact absurd h (by simp)
        · split at h
          · exact (Except.error.inj h).symm
          · exact (Except.error.inj h).symm
      | cons next rest1 =>
        simp only [bracketScan] at h
        split at h
        · exact absurd h (by simp)
        · split at h
          · split at h
            · exact (Except.error.inj h).symm
            · split at h
              · exact (Except.error.inj h).symm
              · exact ih rest1 _ _ e (by simp only [List.length_cons] at hk; omega) h
          · exact ih (next :: rest1) _ _ e (by simp only [List.length_cons] at hk ⊢; omega) h

theorem expandLiterals_error (ls : List (List Nat)) :
    ∀ (set : List Nat) (e : Err), expandLiterals ls set = .error e → e = .panic := by
  induction ls with
  | nil => intro set e h; exact absurd h (by simp [expandLiterals])
  | cons l ls ih =>
    intro set e h
    rw [expandLiterals] at h
    cases hx : expandLiteral set l with
    | error e1 =>
      rw [hx] at h
      unfold expandLiteral at hx
      split at hx
      · exact absurd hx (by simp)
      · rw [← Except.error.inj h]; exact (Except.error.inj hx).symm
    | ok set1 =>
      rw [hx] at h
      exact ih set1 e h

theorem parseBracket_ok (regex : List Nat) (ctx : ParseContext) :
    (∃ c, parseBracket regex ctx = .ok c ∧ ctx.pos ≤ c.pos) ∨
      parseBracket regex ctx = .error .panic := by
  unfold parseBracket
  cases hb : bracketScan (regex.drop (ctx.pos + 1)) [] 0 with
  | error e =>
    right
    rw [bracketScan_error _ _ _ _ e (Nat.le_refl _) hb]
  | ok r =>
    obtain ⟨literals, n⟩ := r
    simp only
    cases hx : expandLiterals literals [] with
    | error e => right; rw [expandLiterals_error _ _ e hx]
    | ok set => left; exact ⟨_, rfl, by simp only; omega⟩

theorem orLoop_pos_le (proc : ParseContext → Except Err ParseContext) (regex : List Nat)
    (hproc : ∀ c c1, proc c = .ok c1 → c.pos ≤ c1.pos) :
    ∀ (k : Nat) (c c1 : ParseContext), orLoop proc regex k c = .ok c1 → c.pos ≤ c1.pos := by
  intro k
  induction k with
  | zero => intro c c1 h; exact absurd h (by simp [orLoop])
  | succ k ih =>
    intro c c1 h
    rw [orLoop] at h
    split at h
    · rw [← Except.ok.inj h]
    · split at h
      · rw [← Except.ok.inj h]
      · cases hp : proc c with
        | error e => rw [hp] at h; exact absurd h (by simp)
        | ok c2 =>
          rw [hp] at h
          have h1 := hproc c c2 hp
          have h2 := ih c2.incr c1 h
          simp only [ParseContext.incr] at h2
          omega

theorem process_pos_le (regex : List Nat) :
    ∀ (f : Nat) (ctx ctx1 : ParseContext), process regex f ctx = .ok ctx1 →
      ctx.pos ≤ ctx1.pos := by
  intro f
  induction f with
  | zero => intro ctx ctx1 h; exact absurd h (by simp [process])
  | succ f ih =>
    intro ctx ctx1 h
    rw [process] at h
    split at h
    · exact absurd h (by simp)
    · rename_i ch hget
      split at h
      · split at h
        · exact absurd h (by simp)
        · rw [← Except.ok.inj h]; exact Nat.le_refl _
      · split at h
        · rcases parseBracket_ok regex ctx with ⟨c, hc, hp⟩ | hc
          · rw [hc] at h; rw [← Except.ok.inj h]; exact hp
          · rw [hc] at h; exact absurd h (by simp)
        · split at h
          · rcases parseRepeat_ok ch ctx with ⟨c, hc, hp⟩ | hc
            · rw [hc] at h; rw [← Except.ok.inj h, hp]
            · rw [hc] at h; exact absurd h (by simp)
          · split at h
            · unfold parseOr at h
              cases ho : orLoop (process regex f) regex f { pos := ctx.pos + 1, tokens := [] } with
              | error e => rw [ho] at h; exact absurd h (by simp)
              | ok r =>
                rw [ho] at h
                have h1 := orLoop_pos_le (process regex f) regex ih f _ r ho
                rw [← Except.ok.inj h]
                simp only at h1 ⊢
                omega
            · split at h
              · rcases parseRepeatSpecified_ok regex ctx with ⟨c, hc, hp⟩ | hc
                · rw [hc] at h; rw [← Except.ok.inj h]; exact hp
                · rw [hc] at h; exact absurd h (by simp)
              · rw [← Except.ok.inj h]; exact Nat.le_refl _

theorem groupLoop_no_fuel (proc : ParseContext → Except Err ParseContext) (regex : List Nat)
    (p0 : Nat) (hmono : ∀ c c1, proc c = .ok c1 → c.pos ≤ c1.pos)
    (hproc : ∀ c, p0 ≤ c.pos → proc c ≠ .error .fuel) :
    ∀ (k : Nat) (c : ParseContext), p0 ≤ c.pos → 1 ≤ k → regex.length + 1 ≤ k + c.pos →
      groupLoop proc regex k c ≠ .error .fuel := by
  intro k
  induction k with
  | zero => intro c _ h1 _; omega
  | succ k ih =>
    intro c hp _ hk
    rw [groupLoop]
    cases hget : regex.get? c.pos with
    | none => simp
    | some ch =>
      have hlt : c.pos < regex.length := by
        rcases Nat.lt_or_ge c.pos regex.length with h | h
        · exact h
        · rw [List.get?_eq_none.mpr h] at hget; exact absurd hget (by simp)
      simp only
      split
      · simp
      · cases hpc : proc c with
        | error e =>
          simp only
          intro he
          exact hproc c hp (by rw [hpc, Except.error.inj he])
        | ok c1 =>
          simp only
          have hm := hmono c c1 hpc
          exact ih c1.incr (by simp only [ParseContext.incr]; omega) (by omega)
            (by simp only [ParseContext.incr]; omega)

theorem orLoop_no_fuel (proc : ParseContext → Except Err ParseContext) (regex : List Nat)
    (p0 : Nat) (hmono : ∀ c c1, proc c = .ok c1 → c.pos ≤ c1.pos)
    (hproc : ∀ c, p0 ≤ c.pos → proc c ≠ .error .fuel) :
    ∀ (k : Nat) (c : ParseContext), p0 ≤ c.pos → 1 ≤ k → regex.length + 1 ≤ k + c.pos →
      orLoop proc regex k c ≠ .error .fuel := by
  intro k
  induction k with
  | zero => intro c _ h1 _; omega
  | succ k ih =>
    intro c hp _ hk
    rw [orLoop]
    cases hget : regex.get? c.pos with
    | none => simp
    | some ch =>
      have hlt : c.pos < regex.length := by
        rcases Nat.lt_or_ge c.pos regex.length with h | h
        · exact h
        · rw [List.get?_eq_none.mpr h] at hget; exact absurd hget (by simp)
      simp only
      split
      · simp
      · cases hpc : proc c with
        | error e =>
          simp only
          intro he
          exact hproc c hp (by rw [hpc, Except.error.inj he])
        | ok c1 =>
          simp only
          have hm := hmono c c1 hpc
          exact ih c1.incr (by simp only [ParseContext.incr]; omega) (by omega)
            (by simp only [ParseContext.incr]; omega)

theorem process_no_fuel (regex : List Nat) :
    ∀ (f : Nat) (ctx : ParseContext), 2 * (regex.length - ctx.pos) + 1 ≤ f →
      process regex f ctx ≠ .error .fuel := by
  intro f
  induction f with
  | zero => intro ctx h; omega
  | succ f ih =>
    intro ctx hf
    rw [process]
    cases hget : regex.get? ctx.pos with
    | none => simp
    | some ch =>
      have hlt : ctx.pos < regex.length := by
        rcases Nat.lt_or_ge ctx.pos regex.length with h | h
        · exact h
        · rw [List.get?_eq_none.mpr h] at hget; exact absurd hget (by simp)
      have hsub : ∀ c : ParseContext, ctx.pos + 1 ≤ c.pos → process regex f c ≠ .error .fuel :=
        fun c hc => ih c (by omega)
      simp only
      split
      · have hg := groupLoop_no_fuel (process regex f) regex (ctx.pos + 1)
          (process_pos_le regex f) hsub f ({ pos := ctx.pos, tokens := [] } : ParseContext).incr
          (by simp only [ParseContext.incr]; omega) (by omega)
          (by simp only [ParseContext.incr]; omega)
        unfold parseGroup
        cases hgl : groupLoop (process regex f) regex f
            ({ pos := ctx.pos, tokens := [] } : ParseContext).incr with
        | error e =>
          simp only
          intro he
          exact hg (by rw [hgl, Except.error.inj he])
        | ok g => simp
      · split
        · rcases parseBracket_ok regex ctx with ⟨c, hc, _⟩ | hc <;> rw [hc] <;> simp
        · split
          · rcases parseRepeat_ok ch ctx with ⟨c, hc, _⟩ | hc <;> rw [hc] <;> simp
          · split
            · have hg := orLoop_no_fuel (process regex f) regex (ctx.pos + 1)
                (process_pos_le regex f) hsub f { pos := ctx.pos + 1, tokens := [] }
                (by simp only; omega) (by omega) (by simp only; omega)
              unfold parseOr
              cases hgl : orLoop (process regex f) regex f { pos := ctx.pos + 1, tokens := [] } with
              | error e =>
                simp only
                intro he
                exact hg (by rw [hgl, Except.error.inj he])
              | ok g => simp
            · split
              · rcases parseRepeatSpecified_ok regex ctx with ⟨c, hc, _⟩ | hc <;> rw [hc] <;>
                  simp
              · simp

theorem parseLoop_no_fuel (regex : List Nat) :
    ∀ (k : Nat) (ctx : ParseContext), 2 * (regex.length - ctx.pos) + 2 ≤ k →
      parseLoop regex k ctx ≠ .error .fuel := by
  intro k
  induction k with
  | zero => intro ctx h; omega
  | succ k ih =>
    intro ctx hk
    rw [parseLoop]
    split
    · rename_i hlt
      cases hp : process regex k ctx with
      | error e =>
        simp only
        intro he
        exact process_no_fuel regex k ctx (by omega) (by rw [hp, Except.error.inj he])
      | ok c1 =>
        simp only
        have hm := process_pos_le regex k ctx c1 hp
        exact ih c1.incr (by simp only [ParseContext.incr]; omega)
    · simp

/-- The fuel that `parse` hands to its loop is never used up: `parse` either returns the
token sequence or panics. -/
theorem parse_no_fuel (regex : List Nat) : parse regex ≠ .error .fuel :=
  parseLoop_no_fuel regex _ _ (by simp only [Nat.sub_zero]; omega)

/-! ## The nested quantifier `a**b` -/

theorem nested_parse :
    parse (ascii "a**b") =
      .ok { pos := 4,
            tokens := [Token.repeatT 0 (-1) (Token.repeatT 0 (-1) (Token.literal 97)),
              Token.literal 98] } :=
  rfl

theorem nested_toNFA :
    toNFA { pos := 4,
            tokens := [Token.repeatT 0 (-1) (Token.repeatT 0 (-1) (Token.literal 97)),
              Token.literal 98] } = .ok (8, nestedStarArena) :=
  rfl

theorem orElse_error_left (e : Err) (b : Except Err Bool) : orElse (.error e) b = .error e :=
  rfl

theorem nested_cycle :
    ∀ f : Nat,
      check nestedStarArena [98] f 1 0 = .error .fuel ∧
      check nestedStarArena [98] f 2 0 = .error .fuel ∧
      check nestedStarArena [98] f 3 0 = .error .fuel := by
  have g0 : getChar [98] 0 = 98 := rfl
  have a0 : getChar [98] 0 ≠ epsilonChar := by decide
  have b0 : getChar [98] 0 ≠ startOfText := by decide
  intro f
  induction f with
  | zero => exact ⟨rfl, rfl, rfl⟩
  | succ f ih =>
    obtain ⟨h1, h2, h3⟩ := ih
    refine ⟨?_, ?_, ?_⟩
    · rw [check_eps2 nestedStarArena _ _ 1 0 2 6 rfl rfl rfl a0 b0, h2]
      rfl
    · rw [check_eps2 nestedStarArena _ _ 2 0 3 4 rfl rfl rfl a0 b0, h3]
      rfl
    · rw [check_eps2 nestedStarArena _ _ 3 0 4 1 rfl rfl rfl a0 b0, h1]
      cases f with
      | zero => rfl
      | succ f =>
        rw [check_lit nestedStarArena _ _ 4 0 false 97 5 rfl (by decide), g0]
        rfl

theorem nested_root (f : Nat) : check nestedStarArena [98] f 8 0 = .error .fuel := by
  have a0 : getChar [98] 0 ≠ epsilonChar := by decide
  have b0 : getChar [98] 0 ≠ startOfText := by decide
  cases f with
  | zero => rfl
  | succ f =>
    rw [check_eps1 nestedStarArena _ _ 8 0 0 rfl rfl rfl a0 b0]
    cases f with
    | zero => rfl
    | succ f =>
      rw [check_eps2 nestedStarArena _ _ 0 0 1 2 rfl rfl rfl a0 b0, (nested_cycle f).1]
      rfl

/-- C17: `parse` and `toNFA` succeed on `a**b`, and the search on the input `b` from offset
0 uses up every amount of fuel: the recursion of `check` goes round the epsilon cycle of the
nested repeat without reading a symbol and never returns. -/
theorem nested_star_never_returns :
    (∃ ctx root nfa, parse (ascii "a**b") = .ok ctx ∧ toNFA ctx = .ok (root, nfa)) ∧
      (∀ fuel, matchAt fuel (ascii "a**b") (ascii "b") 0 = .error .fuel) ∧
      ∀ b, ¬ Returns (ascii "a**b") (ascii "b") 0 b := by
  have h : ∀ fuel, matchAt fuel (ascii "a**b") (ascii "b") 0 = .error .fuel := by
    intro fuel
    rw [matchAt_eq_check nested_parse nested_toNFA]
    exact nested_root fuel
  refine ⟨⟨_, _, _, nested_parse, nested_toNFA⟩, h, ?_⟩
  rintro b ⟨fuel, hf⟩
  rw [h fuel] at hf
  exact absurd hf (by simp)

/-! ## Evaluations on bracket classes, groups and exact counts -/

/-- C13: `parse` panics on `[abc]` and on `[a-cx]`: the second loop of `parseBracket` reads
`l[1]` of every collected literal, and a literal that no `-` has extended has one byte. A
class made of ranges only, such as `[a-cx-z]`, is parsed. -/
theorem bracket_single_symbols_panic :
    parse (ascii "[abc]") = .error .panic ∧ parse (ascii "[a-cx]") = .error .panic ∧
      parse (ascii "[a-cx-z]") =
        .ok { pos := 8, tokens := [Token.bracket [97, 98, 99, 120, 121, 122]] } :=
  ⟨rfl, rfl, rfl⟩

/-- C14: `parse` on `(ab)` returns four tokens: the group, then the literals `a`, `b` and
`)` that the outer loop tokenizes again because the cursor of the outer context stays on the
opening parenthesis. -/
theorem group_tokenized_twice :
    parse (ascii "(ab)") =
      .ok { pos := 4,
            tokens := [Token.group [Token.literal 97, Token.literal 98], Token.literal 97,
              Token.literal 98, Token.literal 41] } :=
  rfl

/-- C15: the automaton of `x{0}` accepts the input `x` as well as the empty input: the
repeat case of `tokenToNFA` compiles one copy of the inner fragment before its loop, also
when `copyCount` is 0. The automata of `x{1}` and `x{3}` accept one and three copies only. -/
theorem exact_zero_accepts_one :
    parse (ascii "x{0}") = .ok { pos := 4, tokens := [Token.repeatT 0 0 (Token.literal 120)] } ∧
      Returns (ascii "x{0}") [] 0 true ∧ Returns (ascii "x{0}") (ascii "x") 0 true ∧
      Returns (ascii "x{1}") [] 0 false ∧ Returns (ascii "x{1}") (ascii "x") 0 true ∧
      Returns (ascii "x{3}") (ascii "xx") 0 false ∧ Returns (ascii "x{3}") (ascii "xxx") 0 true ∧
      Returns (ascii "x{3}") (ascii "xxxx") 0 false :=
  ⟨rfl, ⟨20, rfl⟩, ⟨20, rfl⟩, ⟨20, rfl⟩, ⟨20, rfl⟩, ⟨20, rfl⟩, ⟨20, rfl⟩, ⟨20, rfl⟩⟩

/-! ## The sentinels of `getChar` -/

/-- C18, as stated, fails: the input byte 2 is the end-of-text sentinel at the offset 0,
inside the input, the input byte 1 is the start-of-text sentinel at the offset 0, and the
input byte 0 is the epsilon key. -/
theorem getChar_sentinel_inside_input :
    (getChar [2] 0 = endOfText ∧ ¬ ((0 : Int) ≥ ([2] : List Nat).length)) ∧
      (getChar [1] 0 = startOfText ∧ ¬ ((0 : Int) < 0)) ∧
      getChar [0] 0 = epsilonChar :=
  ⟨⟨rfl, by decide⟩, ⟨rfl, by decide⟩, rfl⟩

/-- C18, amended: for every input free of the reserved symbol codes and every offset,
`getChar` returns the end-of-text sentinel exactly at the offsets from the length on, the
start-of-text sentinel exactly at the negative offsets, and never the epsilon key at an
offset inside the input. -/
theorem getChar_sentinels (input : List Nat) (h : ∀ c ∈ input, c ∉ reservedCodes)
    (pos : Int) :
    (getChar input pos = endOfText ↔ pos ≥ input.length) ∧
      (getChar input pos = startOfText ↔ pos < 0) ∧
      (0 ≤ pos → pos < input.length → getChar input pos ≠ epsilonChar) := by
  obtain ⟨n0, n1, n2⟩ := not_reserved h
  by_cases hge : pos ≥ input.length
  · have hg : getChar input pos = endOfText := by simp only [getChar, hge, if_true]
    have hnn : ¬ pos < 0 := by omega
    refine ⟨⟨fun _ => hge, fun _ => hg⟩, ⟨fun hh => ?_, fun hh => absurd hh hnn⟩, fun _ hl => ?_⟩
    · rw [hg] at hh; exact absurd hh (by decide)
    · omega
  · by_cases hneg : pos < 0
    · have hg : getChar input pos = startOfText := by
        simp only [getChar, hge, hneg, if_true, if_false]
      refine ⟨⟨fun hh => ?_, fun hh => absurd hh hge⟩, ⟨fun _ => hneg, fun _ => hg⟩,
        fun h0 _ => ?_⟩
      · rw [hg] at hh; exact absurd hh (by decide)
      · omega
    · have hpos : 0 ≤ pos := by omega
      refine ⟨⟨fun hh => ?_, fun hh => absurd hh hge⟩, ⟨fun hh => ?_, fun hh => absurd hh hneg⟩,
        fun _ _ => getChar_ne input pos hpos _ n0 (by decide)⟩
      · rcases getChar_mem input pos hpos with hm | hm
        · obtain ⟨j, rfl⟩ := Int.eq_ofNat_of_zero_le hpos
          have hj : j < input.length := by omega
          rw [getChar_nat_lt input j hj, List.getD_eq_getElem _ _ hj] at hh
          exact absurd (hh ▸ List.getElem_mem _) n2
        · exact absurd (hh ▸ hm) n2
      · exact absurd hh (getChar_ne input pos hpos _ n1 (by decide))

/-- The theorem `getChar_sentinels` on the input `ab` at the offsets 2, -1 and 1. -/
theorem getChar_sentinels_witness :
    (∀ c ∈ ascii "ab", c ∉ reservedCodes) ∧
      (getChar (ascii "ab") 2 = endOfText ↔ (2 : Int) ≥ (ascii "ab").length) ∧
      (getChar (ascii "ab") (-1) = startOfText ↔ (-1 : Int) < 0) ∧
      ((0 : Int) ≤ 1 → (1 : Int) < (ascii "ab").length → getChar (ascii "ab") 1 ≠ epsilonChar) :=
  ⟨by decide, (getChar_sentinels (ascii "ab") (by decide) 2).1,
    (getChar_sentinels (ascii "ab") (by decide) (-1)).2.1,
    (getChar_sentinels (ascii "ab") (by decide) 1).2.2⟩

/-! ## Brace quantifiers -/

theorem digitsVal_append (xs ys : List Nat) :
    ∀ acc, digitsVal (xs ++ ys) acc = (digitsVal xs acc).bind (digitsVal ys) := by
  induction xs with
  | nil => intro acc; rfl
  | cons d xs ih =>
    intro acc
    simp only [List.cons_append, digitsVal]
    split
    · exact ih _
    · rfl

theorem decimalDigits_val : ∀ (fuel n : Nat), n < fuel →
    digitsVal (decimalDigits fuel n) 0 = some n := by
  intro fuel
  induction fuel with
  | zero => intro n h; omega
  | succ fuel ih =>
    intro n h
    rw [decimalDigits]
    split
    · rename_i hlt
      have hd : 48 ≤ 48 + n ∧ 48 + n ≤ 57 := by omega
      simp only [digitsVal, hd, and_self, if_true]
      simp
    · rename_i hge
      rw [digitsVal_append, ih (n / 10) (by omega)]
      have hd : 48 ≤ 48 + n % 10 ∧ 48 + n % 10 ≤ 57 := by omega
      simp only [Option.some_bind, digitsVal, hd, and_self, if_true]
      congr 1
      omega

theorem decimalDigits_digit : ∀ (fuel n : Nat), ∀ c ∈ decimalDigits fuel n, 48 ≤ c ∧ c ≤ 57 := by
  intro fuel
  induction fuel with
  | zero => intro n c h; simp [decimalDigits] at h
  | succ fuel ih =>
    intro n c h
    rw [decimalDigits] at h
    split at h
    · simp only [List.mem_singleton] at h; omega
    · rcases List.mem_append.mp h with h1 | h1
      · exact ih _ c h1
      · simp only [List.mem_singleton] at h1; omega

theorem decimalDigits_ne_nil : ∀ (fuel n : Nat), n < fuel → decimalDigits fuel n ≠ [] := by
  intro fuel n h
  cases fuel with
  | zero => omega
  | succ fuel =>
    rw [decimalDigits]
    split
    · simp
    · simp

theorem decimal_digit (n : Nat) : ∀ c ∈ decimal n, 48 ≤ c ∧ c ≤ 57 :=
  decimalDigits_digit _ _

theorem atoi_of_digits (s : List Nat) (v : Nat) (hne : s ≠ [])
    (hd : ∀ c ∈ s, 48 ≤ c ∧ c ≤ 57) (hv : digitsVal s 0 = some v) (hr : v < 2 ^ 63) :
    atoi s = some (v : Int) := by
  cases s with
  | nil => exact absurd rfl hne
  | cons d rest =>
    have hdd := hd d (List.mem_cons_self d rest)
    have h43 : d ≠ 43 := by omega
    have h45 : d ≠ 45 := by omega
    obtain ⟨h1, h2⟩ := hdd
    have hr2 : v < 9223372036854775808 := by
      have e : (2 : Nat) ^ 63 = 9223372036854775808 := by norm_num
      omega
    interval_cases d <;> simp [atoi, hv, hr2]

theorem atoi_decimal (n : Nat) (h : n < 2 ^ 63) : atoi (decimal n) = some (n : Int) :=
  atoi_of_digits (decimal n) n (decimalDigits_ne_nil _ _ (Nat.lt_succ_self n)) (decimal_digit n)
    (decimalDigits_val _ _ (Nat.lt_succ_self n)) h


theorem splitComma_no_comma (l : List Nat) (h : 44 ∉ l) :
    ∀ cur, splitComma l cur = [cur ++ l] := by
  induction l with
  | nil => intro cur; simp [splitComma]
  | cons c cs ih =>
    intro cur
    have hc : c ≠ 44 := fun e => h (e ▸ List.mem_cons_self c cs)
    rw [splitComma, if_neg hc, ih (fun hh => h (List.mem_cons_of_mem c hh))]
    simp

theorem splitComma_comma (l r : List Nat) (h : 44 ∉ l) :
    ∀ cur, splitComma (l ++ 44 :: r) cur = (cur ++ l) :: splitComma r [] := by
  induction l with
  | nil => intro cur; simp [splitComma]
  | cons c cs ih =>
    intro cur
    have hc : c ≠ 44 := fun e => h (e ▸ List.mem_cons_self c cs)
    rw [List.cons_append, splitComma, if_neg hc, ih (fun hh => h (List.mem_cons_of_mem c hh))]
    simp

theorem scanBrace_found (l rest : List Nat) (h : 125 ∉ l) :
    scanBrace (l ++ 125 :: rest) = .ok l := by
  induction l with
  | nil => simp [scanBrace]
  | cons c cs ih =>
    have hc : c ≠ 125 := fun e => h (e ▸ List.mem_cons_self c cs)
    rw [List.cons_append, scanBrace, if_neg hc, ih (fun hh => h (List.mem_cons_of_mem c hh))]
    rfl

theorem scanBrace_missing (l : List Nat) (h : 125 ∉ l) : scanBrace l = .error .panic := by
  induction l with
  | nil => rfl
  | cons c cs ih =>
    have hc : c ≠ 125 := fun e => h (e ▸ List.mem_cons_self c cs)
    rw [scanBrace, if_neg hc, ih (fun hh => h (List.mem_cons_of_mem c hh))]
    rfl

theorem parseRepeatSpecified_body (regex : List Nat) (ctx : ParseContext)
    (body rest : List Nat) (hdrop : regex.drop ctx.pos = 123 :: (body ++ 125 :: rest))
    (hbody : 125 ∉ body) :
    parseRepeatSpecified regex ctx =
      match braceBounds body with
      | none => .error .panic
      | some (min, max) => replaceLast { ctx with pos := ctx.pos + (body.length + 1) } min max := by
  have hscan : scanBrace (regex.drop ctx.pos) = .ok (123 :: body) := by
    rw [hdrop]
    have := scanBrace_found (123 :: body) rest (by
      intro hm
      rcases List.mem_cons.mp hm with h1 | h1
      · exact absurd h1 (by decide)
      · exact hbody h1)
    simpa using this
  unfold parseRepeatSpecified braceBounds
  rw [hscan]
  simp only [List.drop_succ_cons, List.drop_zero, List.length_cons]
  rcases splitComma body [] with _ | ⟨p0, _ | ⟨p1, _ | ⟨p2, r⟩⟩⟩
  · rfl
  · dsimp only
    cases atoi p0 <;> rfl
  · dsimp only
    cases atoi p0 with
    | none => rfl
    | some mn =>
      dsimp only
      split
      · rfl
      · cases atoi p1 <;> rfl
  · rfl

theorem replaceLast_snoc (pos : Nat) (ts : List Token) (t : Token) (min max : Int) :
    replaceLast { pos := pos, tokens := ts ++ [t] } min max =
      .ok { pos := pos, tokens := ts ++ [Token.repeatT min max t] } := by
  simp [replaceLast]


theorem get?_of_drop (regex : List Nat) (pos c : Nat) (rest : List Nat)
    (h : regex.drop pos = c :: rest) : regex.get? pos = some c ∧ pos < regex.length := by
  have hlt : pos < regex.length := by
    rcases Nat.lt_or_ge pos regex.length with hl | hl
    · exact hl
    · rw [List.drop_eq_nil_of_le hl] at h; exact absurd h (by simp)
  rw [List.drop_eq_getElem_cons hlt] at h
  refine ⟨?_, hlt⟩
  rw [List.get?_eq_getElem?, List.getElem?_eq_getElem hlt, (List.cons.inj h).1]

theorem drop_succ_of_drop (regex : List Nat) (pos c : Nat) (rest : List Nat)
    (h : regex.drop pos = c :: rest) : regex.drop (pos + 1) = rest := by
  have hlt := (get?_of_drop regex pos c rest h).2
  rw [List.drop_eq_getElem_cons hlt] at h
  exact (List.cons.inj h).2

theorem parseLoop_literal_run (regex : List Nat) :
    ∀ (run rest : List Nat) (k : Nat) (ctx : ParseContext),
      (∀ c ∈ run, c ∉ operatorChars) → regex.drop ctx.pos = run ++ rest → 1 ≤ k →
      parseLoop regex (k + run.length) ctx =
        parseLoop regex k
          { pos := ctx.pos + run.length, tokens := ctx.tokens ++ run.map Token.literal } := by
  intro run
  induction run with
  | nil => intro rest k ctx _ _ _; simp
  | cons c run ih =>
    intro rest k ctx hop hdrop hk
    obtain ⟨hget, hlt⟩ := get?_of_drop regex ctx.pos c (run ++ rest) hdrop
    obtain ⟨f, hf⟩ : ∃ f, k + run.length = f + 1 := ⟨k + run.length - 1, by omega⟩
    have hproc := process_literal regex f ctx c hget (hop c (List.mem_cons_self c run))
    rw [List.length_cons, ← Nat.add_assoc, parseLoop, if_pos hlt, hf, hproc]
    simp only
    rw [← hf, ih rest k (ctx.push (Token.literal c)).incr
      (fun x hx => hop x (List.mem_cons_of_mem c hx))
      (by simp only [ParseContext.incr, ParseContext.push]
          exact drop_succ_of_drop regex ctx.pos c _ hdrop) hk]
    simp only [ParseContext.incr, ParseContext.push, List.map_cons, List.append_assoc,
      List.singleton_append]
    congr 2
    omega

theorem process_brace (regex : List Nat) (fuel : Nat) (ctx : ParseContext)
    (hget : regex.get? ctx.pos = some 123) :
    process regex (fuel + 1) ctx = parseRepeatSpecified regex ctx := by
  rw [process]
  simp only [hget]
  norm_num

/-- The tokens of a run of literals followed by the literal `x` and a brace quantifier. -/
theorem parse_literals_brace (w body : List Nat) (hw : ∀ c ∈ w, c ∉ operatorChars)
    (hbody : 125 ∉ body) :
    parse (w ++ 120 :: 123 :: (body ++ [125])) =
      match braceBounds body with
      | none => .error .panic
      | some (min, max) =>
        .ok { pos := (w ++ 120 :: 123 :: (body ++ [125])).length,
              tokens := w.map Token.literal ++ [Token.repeatT min max (Token.literal 120)] } := by
  have hrun : ∀ c ∈ w ++ [120], c ∉ operatorChars := by
    intro c hc
    rcases List.mem_append.mp hc with h | h
    · exact hw c h
    · rw [List.mem_singleton.mp h]; decide
  have hlen : (w ++ 120 :: 123 :: (body ++ [125])).length = w.length + body.length + 3 := by
    simp; omega
  obtain ⟨K, hK⟩ : ∃ K, 2 * (w ++ 120 :: 123 :: (body ++ [125])).length + 3 =
      (K + 1 + 1) + (w ++ [120]).length := ⟨2 * w.length + 2 * body.length + 6 - w.length,
        by rw [hlen]; simp; omega⟩
  have hdrop0 : (w ++ 120 :: 123 :: (body ++ [125])).drop 0 = (w ++ [120]) ++ (123 :: (body ++ [125])) := by
    simp
  rw [parse, hK, parseLoop_literal_run _ (w ++ [120]) (123 :: (body ++ [125])) (K + 1 + 1)
    { pos := 0, tokens := [] } hrun hdrop0 (by omega)]
  have hdrop1 : (w ++ 120 :: 123 :: (body ++ [125])).drop (0 + (w ++ [120]).length) =
      123 :: (body ++ 125 :: []) := by
    have : w ++ 120 :: 123 :: (body ++ [125]) = (w ++ [120]) ++ 123 :: (body ++ [125]) := by simp
    rw [this, Nat.zero_add, List.drop_left]
  obtain ⟨hget, hlt⟩ := get?_of_drop _ _ _ _ hdrop1
  rw [parseLoop, if_pos hlt, process_brace _ K _ hget,
    parseRepeatSpecified_body _ _ body [] hdrop1 hbody]
  cases braceBounds body with
  | none => rfl
  | some b =>
    obtain ⟨mn, mx⟩ := b
    simp only [List.nil_append, List.map_append, List.map_cons, List.map_nil]
    rw [replaceLast_snoc]
    simp only
    have hpos : ¬ (0 + (w ++ [120]).length + (body.length + 1) + 1 <
        (w ++ 120 :: 123 :: (body ++ [125])).length) := by
      rw [hlen]; simp only [List.length_append, List.length_singleton]; omega
    rw [parseLoop, ParseContext.incr]
    simp only [if_neg hpos]
    congr 2
    rw [hlen]; simp only [List.length_append, List.length_singleton]; omega


theorem decimal_not_mem (n v : Nat) (hv : v < 48 ∨ 57 < v) : v ∉ decimal n := by
  intro h
  have := decimal_digit n v h
  omega

theorem braceBounds_exact (m : Nat) (hm : m < 2 ^ 63) :
    braceBounds (decimal m) = some ((m : Int), (m : Int)) := by
  have hs := splitComma_no_comma (decimal m) (decimal_not_mem m 44 (by omega)) []
  simp only [List.nil_append] at hs
  simp only [braceBounds, hs, atoi_decimal m hm, Option.map_some']

theorem braceBounds_range (m n : Nat) (hm : m < 2 ^ 63) (hn : n < 2 ^ 63) :
    braceBounds (decimal m ++ 44 :: decimal n) = some ((m : Int), (n : Int)) := by
  have hs := splitComma_comma (decimal m) (decimal n) (decimal_not_mem m 44 (by omega)) []
  have hs2 := splitComma_no_comma (decimal n) (decimal_not_mem n 44 (by omega)) []
  simp only [List.nil_append] at hs hs2
  have hne : decimal n ≠ [] := decimalDigits_ne_nil _ _ (Nat.lt_succ_self n)
  simp only [braceBounds, hs, hs2, atoi_decimal m hm, atoi_decimal n hn, Option.map_some', hne,
    if_false]

theorem braceBounds_open (m : Nat) (hm : m < 2 ^ 63) :
    braceBounds (decimal m ++ [44]) = some ((m : Int), repeatInfinity) := by
  have hs := splitComma_comma (decimal m) [] (decimal_not_mem m 44 (by omega)) []
  simp only [List.nil_append] at hs
  simp only [braceBounds, hs, splitComma, atoi_decimal m hm, if_true]

/-- C12, as stated, fails: at `m = 2 ^ 63` the bound does not fit the `int` that
`strconv.Atoi` returns, and `parse` panics on `x{9223372036854775808}`. -/
theorem brace_bound_out_of_range :
    decimal (2 ^ 63) = ascii "9223372036854775808" ∧
      parse (ascii "x\x7b" ++ decimal (2 ^ 63) ++ ascii "\x7d") = .error .panic :=
  ⟨by decide, rfl⟩

/-- C12, amended: for all natural numbers `m` and `n` below `2 ^ 63` written in decimal and
every run `w` of literal characters, `parse` turns `w` followed by `x{m}`, `x{m,n}` or
`x{m,}` into the literals of `w` followed by the single token `Repeat(m, m)`, `Repeat(m, n)`
or `Repeat(m, unbounded)` around `Literal x`: the quantifier replaces the last token only.
With `w` empty the result is the single `Repeat` token. -/
theorem brace_quantifier_tokens (w : List Nat) (m n : Nat)
    (hw : ∀ c ∈ w, c ∉ operatorChars) (hm : m < 2 ^ 63) (hn : n < 2 ^ 63) :
    (parse (w ++ ascii "x\x7b" ++ decimal m ++ ascii "\x7d")).map ParseContext.tokens =
        .ok (w.map Token.literal ++ [Token.repeatT m m (Token.literal 120)]) ∧
      (parse (w ++ ascii "x\x7b" ++ decimal m ++ ascii "," ++ decimal n ++ ascii "\x7d")).map
          ParseContext.tokens =
        .ok (w.map Token.literal ++ [Token.repeatT m n (Token.literal 120)]) ∧
      (parse (w ++ ascii "x\x7b" ++ decimal m ++ ascii ",\x7d")).map ParseContext.tokens =
        .ok (w.map Token.literal ++
          [Token.repeatT m repeatInfinity (Token.literal 120)]) := by
  have h125 : ∀ k, 125 ∉ decimal k := fun k => decimal_not_mem k 125 (by omega)
  have e1 : w ++ ascii "x\x7b" ++ decimal m ++ ascii "\x7d" =
      w ++ 120 :: 123 :: (decimal m ++ [125]) := by
    rw [show ascii "x\x7b" = [120, 123] from rfl, show ascii "\x7d" = [125] from rfl]; simp
  have e2 : w ++ ascii "x\x7b" ++ decimal m ++ ascii "," ++ decimal n ++ ascii "\x7d" =
      w ++ 120 :: 123 :: ((decimal m ++ 44 :: decimal n) ++ [125]) := by
    rw [show ascii "x\x7b" = [120, 123] from rfl, show ascii "\x7d" = [125] from rfl,
      show ascii "," = [44] from rfl]; simp
  have e3 : w ++ ascii "x\x7b" ++ decimal m ++ ascii ",\x7d" =
      w ++ 120 :: 123 :: ((decimal m ++ [44]) ++ [125]) := by
    rw [show ascii "x\x7b" = [120, 123] from rfl, show ascii ",\x7d" = [44, 125] from rfl]; simp
  refine ⟨?_, ?_, ?_⟩
  · rw [e1, parse_literals_brace w (decimal m) hw (h125 m), braceBounds_exact m hm]
    rfl
  · rw [e2, parse_literals_brace w _ hw (by
      intro h
      rcases List.mem_append.mp h with h1 | h1
      · exact h125 m h1
      · rcases List.mem_cons.mp h1 with h2 | h2
        · exact absurd h2 (by decide)
        · exact h125 n h2), braceBounds_range m n hm hn]
    rfl
  · rw [e3, parse_literals_brace w _ hw (by
      intro h
      rcases List.mem_append.mp h with h1 | h1
      · exact h125 m h1
      · exact absurd (List.mem_singleton.mp h1) (by decide)), braceBounds_open m hm]
    rfl

/-- The theorem `brace_quantifier_tokens` on the patterns `abx{2}`, `abx{2,4}` and
`abx{2,}`. -/
theorem brace_quantifier_tokens_witness :
    ((∀ c ∈ ascii "ab", c ∉ operatorChars) ∧ 2 < 2 ^ 63 ∧ 4 < 2 ^ 63) ∧
      (parse (ascii "abx{2}")).map ParseContext.tokens =
        .ok [Token.literal 97, Token.literal 98, Token.repeatT 2 2 (Token.literal 120)] ∧
      (parse (ascii "abx{2,4}")).map ParseContext.tokens =
        .ok [Token.literal 97, Token.literal 98, Token.repeatT 2 4 (Token.literal 120)] ∧
      (parse (ascii "abx{2,}")).map ParseContext.tokens =
        .ok [Token.literal 97, Token.literal 98, Token.repeatT 2 (-1) (Token.literal 120)] :=
  ⟨⟨by decide, by norm_num, by norm_num⟩,
    brace_quantifier_tokens (ascii "ab") 2 4 (by decide) (by norm_num) (by norm_num)⟩

/-! ## Malformed patterns -/

theorem digitsVal_digits : ∀ (l : List Nat) (acc v : Nat), digitsVal l acc = some v →
    ∀ c ∈ l, 48 ≤ c ∧ c ≤ 57 := by
  intro l
  induction l with
  | nil => intro acc v _ c hc; exact absurd hc (List.not_mem_nil c)
  | cons d ds ih =>
    intro acc v h c hc
    rw [digitsVal] at h
    split at h
    · rename_i hd
      rcases List.mem_cons.mp hc with h1 | h1
      · rw [h1]; exact hd
      · exact ih _ v h c h1
    · exact absurd h (by simp)

theorem all_digits_of_digitsVal (l : List Nat) (acc v : Nat) (h : digitsVal l acc = some v) :
    l.all (fun c => decide (48 ≤ c ∧ c ≤ 57)) = true := by
  rw [List.all_eq_true]
  intro c hc
  exact decide_eq_true (digitsVal_digits l acc v h c hc)

theorem atoi_some_isDecimalInt (s : List Nat) (v : Int) (h : atoi s = some v) :
    isDecimalInt s = true := by
  unfold atoi at h
  unfold isDecimalInt
  split
  · rename_i r
    simp only at h
    cases r with
    | nil => simp at h
    | cons d r =>
      simp only at h
      cases hv : digitsVal (d :: r) 0 with
      | none => rw [hv] at h; simp at h
      | some n =>
        rw [all_digits_of_digitsVal _ _ _ hv]
        rfl
  · rename_i r
    simp only at h
    cases r with
    | nil => simp at h
    | cons d r =>
      simp only at h
      cases hv : digitsVal (d :: r) 0 with
      | none => rw [hv] at h; simp at h
      | some n =>
        rw [all_digits_of_digitsVal _ _ _ hv]
        rfl
  · rename_i h43 h45
    split at h
    · exact absurd rfl (h43 _)
    · exact absurd rfl (h45 _)
    · simp only at h
      cases s with
      | nil => simp at h
      | cons d r =>
        simp only at h
        cases hv : digitsVal (d :: r) 0 with
        | none => rw [hv] at h; simp at h
        | some n =>
          rw [all_digits_of_digitsVal _ _ _ hv]
          rfl

theorem atoi_none_of_not_int (s : List Nat) (h : isDecimalInt s = false) : atoi s = none := by
  cases ha : atoi s with
  | none => rfl
  | some v => rw [atoi_some_isDecimalInt s v ha] at h; exact absurd h (by simp)


theorem panic_of_not_ok (regex : List Nat) (h : ∀ c, parse regex ≠ .ok c) :
    parse regex = .error .panic := by
  cases hp : parse regex with
  | ok c => exact absurd hp (h c)
  | error e =>
    cases e with
    | panic => rfl
    | fuel => exact absurd hp (parse_no_fuel regex)

theorem groupLoop_no_close (proc : ParseContext → Except Err ParseContext) (regex : List Nat)
    (hmono : ∀ c c1, proc c = .ok c1 → c.pos ≤ c1.pos) :
    ∀ (k : Nat) (c : ParseContext), (∀ i, c.pos ≤ i → regex.get? i ≠ some 41) →
      ∀ c1, groupLoop proc regex k c ≠ .ok c1 := by
  intro k
  induction k with
  | zero => intro c _ c1 h; simp [groupLoop] at h
  | succ k ih =>
    intro c hno c1 h
    rw [groupLoop] at h
    cases hget : regex.get? c.pos with
    | none => rw [hget] at h; simp at h
    | some ch =>
      rw [hget] at h
      simp only at h
      have hch : ch ≠ 41 := fun e => hno c.pos (Nat.le_refl _) (e ▸ hget)
      rw [if_neg hch] at h
      cases hp : proc c with
      | error e => rw [hp] at h; simp at h
      | ok c2 =>
        rw [hp] at h
        have hm := hmono c c2 hp
        exact ih c2.incr (fun i hi => hno i (by simp only [ParseContext.incr] at hi; omega)) c1 h

theorem parse_unclosed_group (w : List Nat) (hw : 41 ∉ w) :
    parse (40 :: w) = .error .panic := by
  apply panic_of_not_ok
  intro c hc
  have hno : ∀ i, 1 ≤ i → (40 :: w).get? i ≠ some 41 := by
    intro i hi hg
    obtain ⟨j, rfl⟩ : ∃ j, i = j + 1 := ⟨i - 1, by omega⟩
    rw [List.get?_cons_succ] at hg
    exact hw (List.get?_mem hg)
  obtain ⟨f, hf⟩ : ∃ f, 2 * (40 :: w).length + 3 = f + 1 + 1 :=
    ⟨2 * (40 :: w).length + 1, by omega⟩
  have hlt : (0 : Nat) < (40 :: w).length := by simp
  rw [parse, hf, parseLoop] at hc
  simp only [if_pos hlt] at hc
  rw [process] at hc
  have hget : (40 :: w).get? 0 = some 40 := rfl
  simp only [hget, if_true] at hc
  cases hg : parseGroup (process (40 :: w) f) (40 :: w) f { pos := 0, tokens := [] } with
  | error e => rw [hg] at hc; simp at hc
  | ok g =>
    exact groupLoop_no_close (process (40 :: w) f) (40 :: w) (process_pos_le _ f) f
      ({ pos := 0, tokens := [] } : ParseContext).incr
      (fun i hi => hno i (by simpa [ParseContext.incr] using hi)) g hg

theorem bracketScan_no_close :
    ∀ (k : Nat) (l : List Nat) (literals : List (List Nat)) (n : Nat),
      l.length ≤ k → 93 ∉ l → bracketScan l literals n = .error .panic := by
  intro k
  induction k with
  | zero =>
    intro l literals n hk _
    have hl : l = [] := List.length_eq_zero.mp (Nat.le_zero.mp hk)
    subst hl
    rfl
  | succ k ih =>
    intro l literals n hk h93
    cases l with
    | nil => rfl
    | cons ch rest =>
      have hch : ch ≠ 93 := fun e => h93 (e ▸ List.mem_cons_self ch rest)
      have hrest : 93 ∉ rest := fun hh => h93 (List.mem_cons_of_mem ch hh)
      cases rest with
      | nil =>
        simp only [bracketScan, if_neg hch]
        split <;> rfl
      | cons next rest1 =>
        simp only [bracketScan, if_neg hch]
        split
        · split
          · rfl
          · split
            · rfl
            · exact ih rest1 _ _ (by simp only [List.length_cons] at hk; omega)
                (fun hh => hrest (List.mem_cons_of_mem next hh))
        · exact ih (next :: rest1) _ _ (by simp only [List.length_cons] at hk ⊢; omega) hrest

theorem parse_unclosed_bracket (w : List Nat) (hw : 93 ∉ w) :
    parse (91 :: w) = .error .panic := by
  obtain ⟨f, hf⟩ : ∃ f, 2 * (91 :: w).length + 3 = f + 1 + 1 :=
    ⟨2 * (91 :: w).length + 1, by omega⟩
  have hlt : (0 : Nat) < (91 :: w).length := by simp
  have hget : (91 :: w).get? 0 = some 91 := rfl
  have hb : parseBracket (91 :: w) { pos := 0, tokens := [] } = .error .panic := by
    unfold parseBracket
    have : bracketScan ((91 :: w).drop (0 + 1)) [] 0 = .error .panic :=
      bracketScan_no_close _ _ _ _ (Nat.le_refl _) (by simpa using hw)
    rw [this]
  rw [parse, hf, parseLoop]
  simp only [if_pos hlt]
  rw [process]
  simp only [hget]
  norm_num
  rw [hb]

theorem parse_unclosed_brace (w : List Nat) (hw : 125 ∉ w) :
    parse (120 :: 123 :: w) = .error .panic := by
  obtain ⟨K, hK⟩ : ∃ K, 2 * (120 :: 123 :: w).length + 3 = (K + 1 + 1) + [120].length :=
    ⟨2 * (120 :: 123 :: w).length, by simp only [List.length_cons, List.length_nil]⟩
  have hdrop0 : (120 :: 123 :: w).drop 0 = [120] ++ (123 :: w) := rfl
  rw [parse, hK, parseLoop_literal_run _ [120] (123 :: w) (K + 1 + 1) { pos := 0, tokens := [] }
    (by decide) hdrop0 (by omega)]
  have hdrop1 : (120 :: 123 :: w).drop (0 + [120].length) = 123 :: w := rfl
  obtain ⟨hget, hlt⟩ := get?_of_drop _ _ _ _ hdrop1
  have hs : scanBrace ((120 :: 123 :: w).drop (0 + [120].length)) = .error .panic := by
    rw [hdrop1]
    exact scanBrace_missing _ (by
      intro h
      rcases List.mem_cons.mp h with h1 | h1
      · exact absurd h1 (by decide)
      · exact hw h1)
  rw [parseLoop, if_pos hlt, process_brace _ K _ hget]
  unfold parseRepeatSpecified
  simp only [hs]

theorem braceBounds_none (body : List Nat)
    (h : 3 ≤ (splitComma body []).length ∨
      (∃ p0, (splitComma body []).head? = some p0 ∧ isDecimalInt p0 = false) ∨
      (∃ p1, (splitComma body []).get? 1 = some p1 ∧ p1 ≠ [] ∧ isDecimalInt p1 = false)) :
    braceBounds body = none := by
  unfold braceBounds
  rcases hs : splitComma body [] with _ | ⟨p0, _ | ⟨p1, _ | ⟨p2, r⟩⟩⟩
  · rfl
  · rw [hs] at h
    rcases h with h | ⟨q, hq, hi⟩ | ⟨q, hq, _, _⟩
    · simp at h
    · simp only [List.head?_cons, Option.some.injEq] at hq
      subst hq
      simp only [atoi_none_of_not_int _ hi, Option.map_none']
    · simp at hq
  · rw [hs] at h
    rcases h with h | ⟨q, hq, hi⟩ | ⟨q, hq, hne, hi⟩
    · simp at h
    · simp only [List.head?_cons, Option.some.injEq] at hq
      subst hq
      simp only [atoi_none_of_not_int _ hi]
    · simp only [List.get?_cons_succ, List.get?_cons_zero, Option.some.injEq] at hq
      subst hq
      dsimp only
      cases atoi p0 with
      | none => rfl
      | some mn =>
        dsimp only
        rw [if_neg hne, atoi_none_of_not_int _ hi]
        rfl
  · rfl

theorem parse_bad_brace_body (body : List Nat) (hbody : 125 ∉ body)
    (h : 3 ≤ (splitComma body []).length ∨
      (∃ p0, (splitComma body []).head? = some p0 ∧ isDecimalInt p0 = false) ∨
      (∃ p1, (splitComma body []).get? 1 = some p1 ∧ p1 ≠ [] ∧ isDecimalInt p1 = false)) :
    parse (120 :: 123 :: (body ++ [125])) = .error .panic := by
  have := parse_literals_brace [] body (by simp) hbody
  rw [braceBounds_none body h] at this
  exact this

/-- C11: `parse` panics, and so returns no token sequence, on every pattern of the four
shapes: `(` followed by a string without `)`; `[` followed by a string without `]`; `x`, an
opening brace and a string without closing brace; and `x`, a brace body without closing
brace, and the closing brace, when the body split on `,` has three or more fields, or a
first field that is not an integer, or a non-empty second field that is not an integer. -/
theorem malformed_patterns_fail :
    (∀ w : List Nat, 41 ∉ w → parse (ascii "(" ++ w) = .error .panic) ∧
      (∀ w : List Nat, 93 ∉ w → parse (ascii "[" ++ w) = .error .panic) ∧
      (∀ w : List Nat, 125 ∉ w → parse (ascii "x\x7b" ++ w) = .error .panic) ∧
      (∀ body : List Nat, 125 ∉ body →
        (3 ≤ (splitComma body []).length ∨
          (∃ p0, (splitComma body []).head? = some p0 ∧ isDecimalInt p0 = false) ∨
          (∃ p1, (splitComma body []).get? 1 = some p1 ∧ p1 ≠ [] ∧
            isDecimalInt p1 = false)) →
        parse (ascii "x\x7b" ++ body ++ ascii "\x7d") = .error .panic) :=
  ⟨parse_unclosed_group, parse_unclosed_bracket, parse_unclosed_brace,
    fun body hb h => by
      have e : ascii "x\x7b" ++ body ++ ascii "\x7d" = 120 :: 123 :: (body ++ [125]) := by
        rw [show ascii "x\x7b" = [120, 123] from rfl, show ascii "\x7d" = [125] from rfl]; simp
      rw [e]
      exact parse_bad_brace_body body hb h⟩

/-- The theorem `malformed_patterns_fail` on the patterns `(ab`, `[ab`, `x{2,3`, `x{1,2,3}`,
`x{a}` and `x{2,b}`. -/
theorem malformed_patterns_fail_witness :
    (41 ∉ ascii "ab" ∧ parse (ascii "(ab") = .error .panic) ∧
      (93 ∉ ascii "ab" ∧ parse (ascii "[ab") = .error .panic) ∧
      (125 ∉ ascii "2,3" ∧ parse (ascii "x\x7b2,3") = .error .panic) ∧
      (125 ∉ ascii "1,2,3" ∧ 3 ≤ (splitComma (ascii "1,2,3") []).length ∧
        parse (ascii "x{1,2,3}") = .error .panic) ∧
      (isDecimalInt (ascii "a") = false ∧ parse (ascii "x{a}") = .error .panic) ∧
      (isDecimalInt (ascii "b") = false ∧ parse (ascii "x{2,b}") = .error .panic) :=
  ⟨⟨by decide, malformed_patterns_fail.1 (ascii "ab") (by decide)⟩,
    ⟨by decide, malformed_patterns_fail.2.1 (ascii "ab") (by decide)⟩,
    ⟨by decide, malformed_patterns_fail.2.2.1 (ascii "2,3") (by decide)⟩,
    ⟨by decide, by decide,
      malformed_patterns_fail.2.2.2 (ascii "1,2,3") (by decide) (Or.inl (by decide))⟩,
    ⟨by decide,
      malformed_patterns_fail.2.2.2 (ascii "a") (by decide)
        (Or.inr (Or.inl ⟨ascii "a", rfl, by decide⟩))⟩,
    ⟨by decide,
      malformed_patterns_fail.2.2.2 (ascii "2,b") (by decide)
        (Or.inr (Or.inr ⟨ascii "b", rfl, by decide, by decide⟩))⟩⟩

/-! ## Repeated alternation -/

theorem get?_none_of_drop_nil (regex : List Nat) (pos : Nat) (h : regex.drop pos = []) :
    regex.get? pos = none := by
  rw [List.get?_eq_none]
  exact List.drop_eq_nil_iff.mp h

theorem process_or (regex : List Nat) (fuel : Nat) (ctx : ParseContext)
    (hget : regex.get? ctx.pos = some 124) :
    process regex (fuel + 1) ctx = parseOr (process regex fuel) regex fuel ctx := by
  rw [process]
  simp only [hget]
  norm_num

theorem orLoop_literal_run (regex : List Nat) (f : Nat) :
    ∀ (run rest : List Nat) (k : Nat) (ctx : ParseContext),
      ordinaryChars run → regex.drop ctx.pos = run ++ rest →
      orLoop (process regex (f + 1)) regex (k + run.length) ctx =
        orLoop (process regex (f + 1)) regex k
          { pos := ctx.pos + run.length, tokens := ctx.tokens ++ run.map Token.literal } := by
  intro run
  induction run with
  | nil => intro rest k ctx _ _; simp
  | cons c run ih =>
    intro rest k ctx hop hdrop
    obtain ⟨hget, hlt⟩ := get?_of_drop regex ctx.pos c (run ++ rest) hdrop
    have hc := hop c (List.mem_cons_self c run)
    have hproc := process_literal regex f ctx c hget hc.1
    rw [List.length_cons, ← Nat.add_assoc, orLoop]
    simp only [hget, if_neg hc.2, hproc]
    rw [ih rest k (ctx.push (Token.literal c)).incr
      (fun x hx => hop x (List.mem_cons_of_mem c hx))
      (by simp only [ParseContext.incr, ParseContext.push]
          exact drop_succ_of_drop regex ctx.pos c _ hdrop)]
    simp only [ParseContext.incr, ParseContext.push, List.map_cons, List.append_assoc,
      List.singleton_append]
    congr 2
    omega

theorem parseOr_tail (regex w : List Nat) (g : Nat) (ctx : ParseContext)
    (hw : ordinaryChars w) (hdrop : regex.drop (ctx.pos + 1) = w) (hg : w.length + 1 ≤ g) :
    parseOr (process regex g) regex g ctx =
      .ok { pos := ctx.pos + 1 + w.length,
            tokens := [Token.or [Token.groupUncaptured ctx.tokens,
              Token.groupUncaptured (w.map Token.literal)]] } := by
  obtain ⟨f, rfl⟩ : ∃ f, g = f + 1 := ⟨g - 1, by omega⟩
  obtain ⟨k, hk⟩ : ∃ k, f + 1 = (k + 1) + w.length := ⟨f - w.length, by omega⟩
  have hend : regex.get? (ctx.pos + 1 + w.length) = none := by
    apply get?_none_of_drop_nil
    rw [← List.drop_drop, hdrop, List.drop_length]
  have h1 := orLoop_literal_run regex f w [] (k + 1) { pos := ctx.pos + 1, tokens := [] } hw
    (by simpa using hdrop)
  rw [← hk] at h1
  unfold parseOr
  rw [h1, orLoop]
  simp only [hend, List.nil_append]

theorem parseOr_mid (regex v w : List Nat) (g : Nat) (ctx : ParseContext)
    (hv : ordinaryChars v) (hw : ordinaryChars w)
    (hdrop : regex.drop (ctx.pos + 1) = v ++ 124 :: w)
    (hgv : v.length + 2 ≤ g) (hgw : w.length + 2 ≤ g) :
    parseOr (process regex g) regex g ctx =
      .ok { pos := ctx.pos + 1 + v.length + 1 + w.length + 1,
            tokens := [Token.or [Token.groupUncaptured ctx.tokens,
              Token.groupUncaptured [Token.or [Token.groupUncaptured (v.map Token.literal),
                Token.groupUncaptured (w.map Token.literal)]]]] } := by
  obtain ⟨f, rfl⟩ : ∃ f, g = f + 1 := ⟨g - 1, by omega⟩
  obtain ⟨k, hk⟩ : ∃ k, f + 1 = (k + 1 + 1) + v.length := ⟨f - v.length - 1, by omega⟩
  have h1 := orLoop_literal_run regex f v (124 :: w) (k + 1 + 1)
    { pos := ctx.pos + 1, tokens := [] } hv hdrop
  rw [← hk] at h1
  have hdrop2 : regex.drop (ctx.pos + 1 + v.length) = 124 :: w := by
    rw [← List.drop_drop, hdrop, List.drop_left]
  obtain ⟨hget, _⟩ := get?_of_drop _ _ _ _ hdrop2
  have hdrop3 : regex.drop (ctx.pos + 1 + v.length + 1) = w :=
    drop_succ_of_drop _ _ _ _ hdrop2
  have hinner := parseOr_tail regex w f
    { pos := ctx.pos + 1 + v.length, tokens := [] ++ v.map Token.literal } hw hdrop3 (by omega)
  have hend : regex.get? (ctx.pos + 1 + v.length + 1 + w.length + 1) = none := by
    apply get?_none_of_drop_nil
    rw [Nat.add_assoc (ctx.pos + 1 + v.length + 1), ← List.drop_drop, hdrop3]
    exact List.drop_eq_nil_of_le (by omega)
  unfold parseOr
  rw [h1, orLoop]
  simp only [hget]
  rw [if_neg (by decide), process_or regex f _ hget, hinner]
  simp only [ParseContext.incr, List.nil_append]
  rw [orLoop]
  simp only [hend]

/-- C19: for all strings `u`, `v`, `w` of ordinary literal characters, `parse` on
`u|v|w` returns the single token `Or(left, right)` with `left` the uncaptured group of the
literals of `u` and `right` the uncaptured group holding the single token
`Or(GroupUncaptured(literals of v), GroupUncaptured(literals of w))`. -/
theorem alternation_nests_right (u v w : List Nat) (hu : ordinaryChars u)
    (hv : ordinaryChars v) (hw : ordinaryChars w) :
    (parse (u ++ ascii "|" ++ v ++ ascii "|" ++ w)).map ParseContext.tokens =
      .ok [Token.or [Token.groupUncaptured (u.map Token.literal),
        Token.groupUncaptured [Token.or [Token.groupUncaptured (v.map Token.literal),
          Token.groupUncaptured (w.map Token.literal)]]]] := by
  have e : u ++ ascii "|" ++ v ++ ascii "|" ++ w = u ++ 124 :: (v ++ 124 :: w) := by
    rw [show ascii "|" = [124] from rfl]; simp
  rw [e]
  have hlen : (u ++ 124 :: (v ++ 124 :: w)).length = u.length + v.length + w.length + 2 := by
    simp only [List.length_append, List.length_cons]; omega
  obtain ⟨K, hK⟩ : ∃ K, 2 * (u ++ 124 :: (v ++ 124 :: w)).length + 3 =
      (K + 1 + 1) + u.length :=
    ⟨u.length + 2 * v.length + 2 * w.length + 5, by rw [hlen]; omega⟩
  have hKv : v.length + 2 ≤ K := by rw [hlen] at hK; omega
  have hKw : w.length + 2 ≤ K := by rw [hlen] at hK; omega
  have hrun := parseLoop_literal_run (u ++ 124 :: (v ++ 124 :: w)) u (124 :: (v ++ 124 :: w))
    (K + 1 + 1) { pos := 0, tokens := [] } (fun c hc => (hu c hc).1) rfl (by omega)
  have hdrop1 : (u ++ 124 :: (v ++ 124 :: w)).drop (0 + u.length) = 124 :: (v ++ 124 :: w) := by
    rw [Nat.zero_add, List.drop_left]
  obtain ⟨hget, hlt⟩ := get?_of_drop _ _ _ _ hdrop1
  have hmid := parseOr_mid (u ++ 124 :: (v ++ 124 :: w)) v w K
    { pos := 0 + u.length, tokens := [] ++ u.map Token.literal } hv hw
    (drop_succ_of_drop _ _ _ _ hdrop1) hKv hKw
  have hpos : ¬ (0 + u.length + 1 + v.length + 1 + w.length + 1 + 1 <
      (u ++ 124 :: (v ++ 124 :: w)).length) := by rw [hlen]; omega
  rw [parse, hK, hrun, parseLoop, if_pos hlt, process_or _ K _ hget, hmid]
  simp only [ParseContext.incr, List.nil_append]
  rw [parseLoop, if_neg hpos]
  rfl

/-- The theorem `alternation_nests_right` on `a|b|c`, with the remark that the empty
strings are allowed (pattern `||`). -/
theorem alternation_nests_right_witness :
    (ordinaryChars (ascii "a") ∧ ordinaryChars (ascii "b") ∧ ordinaryChars (ascii "c")) ∧
      (parse (ascii "a|b|c")).map ParseContext.tokens =
        .ok [Token.or [Token.groupUncaptured [Token.literal 97],
          Token.groupUncaptured [Token.or [Token.groupUncaptured [Token.literal 98],
            Token.groupUncaptured [Token.literal 99]]]]] ∧
      (parse (ascii "||")).map ParseContext.tokens =
        .ok [Token.or [Token.groupUncaptured [],
          Token.groupUncaptured [Token.or [Token.groupUncaptured [],
            Token.groupUncaptured []]]]] :=
  ⟨⟨by unfold ordinaryChars; decide, by unfold ordinaryChars; decide,
      by unfold ordinaryChars; decide⟩,
    alternation_nests_right (ascii "a") (ascii "b") (ascii "c")
      (by unfold ordinaryChars; decide) (by unfold ordinaryChars; decide)
      (by unfold ordinaryChars; decide),
    alternation_nests_right [] [] [] (by unfold ordinaryChars; decide)
      (by unfold ordinaryChars; decide) (by unfold ordinaryChars; decide)⟩

/-! ## Invariants of the token tree -/

theorem tokensAll_append (P : Token → Prop) (a b : List Token) :
    tokensAll P (a ++ b) ↔ tokensAll P a ∧ tokensAll P b := by
  induction a with
  | nil => simp [tokensAll]
  | cons t ts ih =>
    rw [List.cons_append, tokensAll, tokensAll, ih, and_assoc]

theorem tokensAll_singleton (P : Token → Prop) (t : Token) :
    tokensAll P [t] ↔ tokenAll P t := by
  simp [tokensAll]

theorem replaceLast_all (P : Token → Prop) (ctx c : ParseContext) (min max : Int)
    (hP : ∀ t, P (Token.repeatT min max t))
    (h : replaceLast ctx min max = .ok c) (hall : tokensAll P ctx.tokens) :
    tokensAll P c.tokens := by
  unfold replaceLast at h
  cases hl : ctx.tokens.getLast? with
  | none => rw [hl] at h; simp at h
  | some last =>
    rw [hl] at h
    simp only at h
    have hsplit : ctx.tokens = ctx.tokens.dropLast ++ [last] := by
      have := List.dropLast_append_getLast? last (Option.mem_def.mpr hl)
      exact this.symm
    rw [hsplit, tokensAll_append, tokensAll_singleton] at hall
    rw [← Except.ok.inj h]
    simp only
    rw [tokensAll_append, tokensAll_singleton]
    exact ⟨hall.1, by rw [tokenAll]; exact ⟨hP last, hall.2⟩⟩

theorem parseRepeat_all (P : Token → Prop) (regex : List Nat) (R : NodeRules P regex)
    (ch : Nat) (ctx c : ParseContext) (h : parseRepeat ch ctx = .ok c)
    (hall : tokensAll P ctx.tokens) : tokensAll P c.tokens := by
  unfold parseRepeat at h
  split at h
  · exact replaceLast_all P ctx c _ _ R.star h hall
  · split at h
    · exact replaceLast_all P ctx c _ _ R.opt h hall
    · exact replaceLast_all P ctx c _ _ R.plus h hall

theorem parseRepeatSpecified_all (P : Token → Prop) (regex : List Nat) (R : NodeRules P regex)
    (ctx c : ParseContext) (hget : regex.get? ctx.pos = some 123)
    (h : parseRepeatSpecified regex ctx = .ok c)
    (hall : tokensAll P ctx.tokens) : tokensAll P c.tokens := by
  unfold parseRepeatSpecified at h
  cases hs : scanBrace (regex.drop ctx.pos) with
  | error e => rw [hs] at h; simp at h
  | ok scanned =>
    rw [hs] at h
    simp only at h
    have hb : braceBoundsAt regex ctx.pos = braceBounds (scanned.drop 1) := by
      unfold braceBoundsAt
      rw [hs]
    have key : ∀ (min max : Int), braceBounds (scanned.drop 1) = some (min, max) →
        replaceLast { ctx with pos := ctx.pos + scanned.length } min max = .ok c →
        tokensAll P c.tokens :=
      fun min max hbb hr => replaceLast_all P _ c min max
        (fun t => R.brace ctx.pos min max t hget (by rw [hb]; exact hbb)) hr hall
    rcases hsp : splitComma (scanned.drop 1) [] with _ | ⟨p0, _ | ⟨p1, _ | ⟨p2, r⟩⟩⟩
    · rw [hsp] at h; simp at h
    · rw [hsp] at h
      simp only at h
      cases ha : atoi p0 with
      | none => rw [ha] at h; simp at h
      | some v =>
        rw [ha] at h
        exact key v v (by unfold braceBounds; rw [hsp]; simp [ha]) h
    · rw [hsp] at h
      simp only at h
      cases ha : atoi p0 with
      | none => rw [ha] at h; simp at h
      | some mn =>
        rw [ha] at h
        simp only at h
        by_cases hp1 : p1 = []
        · rw [if_pos hp1] at h
          exact key mn repeatInfinity (by unfold braceBounds; rw [hsp]; simp [ha, hp1]) h
        · rw [if_neg hp1] at h
          cases ha1 : atoi p1 with
          | none => rw [ha1] at h; simp at h
          | some mx =>
            rw [ha1] at h
            exact key mn mx (by unfold braceBounds; rw [hsp]; simp [ha, hp1, ha1]) h
    · rw [hsp] at h; simp at h

theorem parseBracket_all (P : Token → Prop) (regex : List Nat) (R : NodeRules P regex)
    (ctx c : ParseContext) (h : parseBracket regex ctx = .ok c)
    (hall : tokensAll P ctx.tokens) : tokensAll P c.tokens := by
  unfold parseBracket at h
  cases hb : bracketScan (regex.drop (ctx.pos + 1)) [] 0 with
  | error e => rw [hb] at h; simp at h
  | ok r =>
    obtain ⟨literals, n⟩ := r
    rw [hb] at h
    simp only at h
    cases hx : expandLiterals literals [] with
    | error e => rw [hx] at h; simp at h
    | ok set =>
      rw [hx] at h
      rw [← Except.ok.inj h]
      simp only
      rw [tokensAll_append, tokensAll_singleton, tokenAll]
      exact ⟨hall, R.bracket _ _ _ _ hb hx⟩

theorem groupLoop_all (P : Token → Prop) (proc : ParseContext → Except Err ParseContext)
    (regex : List Nat)
    (hproc : ∀ c c1, proc c = .ok c1 → tokensAll P c.tokens → tokensAll P c1.tokens) :
    ∀ (k : Nat) (c c1 : ParseContext), groupLoop proc regex k c = .ok c1 →
      tokensAll P c.tokens → tokensAll P c1.tokens := by
  intro k
  induction k with
  | zero => intro c c1 h; simp [groupLoop] at h
  | succ k ih =>
    intro c c1 h hall
    rw [groupLoop] at h
    split at h
    · simp at h
    · split at h
      · rw [← Except.ok.inj h]; exact hall
      · cases hp : proc c with
        | error e => rw [hp] at h; simp at h
        | ok c2 =>
          rw [hp] at h
          exact ih c2.incr c1 h (hproc c c2 hp hall)

theorem orLoop_all (P : Token → Prop) (proc : ParseContext → Except Err ParseContext)
    (regex : List Nat)
    (hproc : ∀ c c1, proc c = .ok c1 → tokensAll P c.tokens → tokensAll P c1.tokens) :
    ∀ (k : Nat) (c c1 : ParseContext), orLoop proc regex k c = .ok c1 →
      tokensAll P c.tokens → tokensAll P c1.tokens := by
  intro k
  induction k with
  | zero => intro c c1 h; simp [orLoop] at h
  | succ k ih =>
    intro c c1 h hall
    rw [orLoop] at h
    split at h
    · rw [← Except.ok.inj h]; exact hall
    · split at h
      · rw [← Except.ok.inj h]; exact hall
      · cases hp : proc c with
        | error e => rw [hp] at h; simp at h
        | ok c2 =>
          rw [hp] at h
          exact ih c2.incr c1 h (hproc c c2 hp hall)

theorem process_all (P : Token → Prop) (regex : List Nat) (R : NodeRules P regex) :
    ∀ (f : Nat) (ctx c : ParseContext), process regex f ctx = .ok c →
      tokensAll P ctx.tokens → tokensAll P c.tokens := by
  intro f
  induction f with
  | zero => intro ctx c h; simp [process] at h
  | succ f ih =>
    intro ctx c h hall
    rw [process] at h
    split at h
    · simp at h
    · rename_i ch hget
      have hmem : ch ∈ regex := List.get?_mem hget
      split at h
      · cases hg : parseGroup (process regex f) regex f { pos := ctx.pos, tokens := [] } with
        | error e => rw [hg] at h; simp at h
        | ok g =>
          rw [hg] at h
          have hgall : tokensAll P g.tokens :=
            groupLoop_all P (process regex f) regex ih f _ g hg (by simp [ParseContext.incr, tokensAll])
          rw [← Except.ok.inj h]
          simp only [ParseContext.push]
          rw [tokensAll_append, tokensAll_singleton, tokenAll]
          exact ⟨hall, R.group _, hgall⟩
      · split at h
        · exact parseBracket_all P regex R ctx c h hall
        · split at h
          · exact parseRepeat_all P regex R ch ctx c h hall
          · split at h
            · unfold parseOr at h
              cases ho : orLoop (process regex f) regex f { pos := ctx.pos + 1, tokens := [] } with
              | error e => rw [ho] at h; simp at h
              | ok r =>
                rw [ho] at h
                have hr : tokensAll P r.tokens :=
                  orLoop_all P (process regex f) regex ih f _ r ho (by simp [tokensAll])
                rw [← Except.ok.inj h]
                simp only
                rw [tokensAll_singleton, tokenAll, tokensAll, tokensAll_singleton, tokenAll,
                  tokenAll]
                exact ⟨R.alt _, ⟨R.uncaptured _, hall⟩, R.uncaptured _, hr⟩
            · split at h
              · rename_i h123
                exact parseRepeatSpecified_all P regex R ctx c (by rw [hget, h123]) h hall
              · rw [← Except.ok.inj h]
                simp only [ParseContext.push]
                rw [tokensAll_append, tokensAll_singleton, tokenAll]
                exact ⟨hall, R.lit ch hmem⟩

theorem parseLoop_all (P : Token → Prop) (regex : List Nat) (R : NodeRules P regex) :
    ∀ (k : Nat) (ctx c : ParseContext), parseLoop regex k ctx = .ok c →
      tokensAll P ctx.tokens → tokensAll P c.tokens := by
  intro k
  induction k with
  | zero => intro ctx c h; simp [parseLoop] at h
  | succ k ih =>
    intro ctx c h hall
    rw [parseLoop] at h
    split at h
    · cases hp : process regex k ctx with
      | error e => rw [hp] at h; simp at h
      | ok c2 =>
        rw [hp] at h
        exact ih c2.incr c h (process_all P regex R k ctx c2 hp hall)
    · rw [← Except.ok.inj h]; exact hall

/-- A predicate that the tokenizer keeps at every token it builds holds at every token of
the tree that `parse` returns. -/
theorem parse_all (P : Token → Prop) (regex : List Nat) (R : NodeRules P regex)
    (c : ParseContext) (h : parse regex = .ok c) : tokensAll P c.tokens :=
  parseLoop_all P regex R _ _ c h (by simp [tokensAll])


theorem braceBoundsOk_at (regex : List Nat) (hb : braceBoundsOk regex = true) (pos : Nat)
    (min max : Int) (hget : regex.get? pos = some 123)
    (hbb : braceBoundsAt regex pos = some (min, max)) :
    0 ≤ min ∧ (max = repeatInfinity ∨ min ≤ max) := by
  have hlt : pos < regex.length := by
    by_contra hge
    rw [List.get?_eq_none.mpr (by omega)] at hget
    exact absurd hget (by simp)
  unfold braceBoundsOk at hb
  have h := List.all_eq_true.mp hb pos (List.mem_range.mpr hlt)
  rw [if_pos hget, hbb] at h
  exact of_decide_eq_true h

theorem repeatBoundsOk_rules (regex : List Nat) (hb : braceBoundsOk regex = true) :
    NodeRules repeatBoundsOk regex where
  lit := fun _ _ => trivial
  group := fun _ => trivial
  uncaptured := fun _ => trivial
  alt := fun _ => trivial
  star := fun _ => ⟨by decide, Or.inl rfl⟩
  opt := fun _ => ⟨by decide, Or.inr (by decide)⟩
  plus := fun _ => ⟨by decide, Or.inl rfl⟩
  brace := fun pos min max _ hget hbb => braceBoundsOk_at regex hb pos min max hget hbb
  bracket := fun _ _ _ _ _ _ => trivial

theorem readFromBrace_rules (regex : List Nat) :
    NodeRules (fun t => repeatBoundsOk t ∨ readFromBrace regex t) regex where
  lit := fun _ _ => Or.inl trivial
  group := fun _ => Or.inl trivial
  uncaptured := fun _ => Or.inl trivial
  alt := fun _ => Or.inl trivial
  star := fun _ => Or.inl ⟨by decide, Or.inl rfl⟩
  opt := fun _ => Or.inl ⟨by decide, Or.inr (by decide)⟩
  plus := fun _ => Or.inl ⟨by decide, Or.inl rfl⟩
  brace := fun pos _ _ _ hget hbb => Or.inr ⟨pos, hget, hbb⟩
  bracket := fun _ _ _ _ _ _ => Or.inl trivial

/-- C16, as stated, fails: `parse` succeeds on `x{-3}` with `min = max = -3`, and on `x{5,2}`
with `min = 5` and `max = 2`, which is neither the sentinel nor at least `min`. -/
theorem brace_bounds_unchecked :
    (parse (ascii "x{-3}") =
        .ok { pos := 5, tokens := [Token.repeatT (-3) (-3) (Token.literal 120)] } ∧
      ¬ tokensAll repeatBoundsOk [Token.repeatT (-3) (-3) (Token.literal 120)]) ∧
    (parse (ascii "x{5,2}") =
        .ok { pos := 6, tokens := [Token.repeatT 5 2 (Token.literal 120)] } ∧
      ¬ tokensAll repeatBoundsOk [Token.repeatT 5 2 (Token.literal 120)]) :=
  ⟨⟨rfl, fun h => absurd h.1.1.1 (by decide)⟩,
    ⟨rfl, fun h => (h.1.1.2).elim (fun e => absurd e (by decide)) (fun e => absurd e (by decide))⟩⟩

/-- C16, amended: for every pattern on which `parse` succeeds and in which the bounds read
behind every opening brace have `min ≥ 0` and `max` equal to the unbounded sentinel or
`max ≥ min`, every `Repeat` token anywhere in the returned token tree has `min ≥ 0` and `max`
equal to the sentinel or `max ≥ min` (second part). With no condition on the braces, every
`Repeat` token of the tree has its bounds in order or carries exactly the bounds read behind
an opening brace of the pattern (first part). -/
theorem repeat_bounds_of_brace_bounds (regex : List Nat) (ctx : ParseContext)
    (h : parse regex = .ok ctx) :
    tokensAll (fun t => repeatBoundsOk t ∨ readFromBrace regex t) ctx.tokens ∧
      (braceBoundsOk regex = true → tokensAll repeatBoundsOk ctx.tokens) :=
  ⟨parse_all _ regex (readFromBrace_rules regex) ctx h,
    fun hb => parse_all repeatBoundsOk regex (repeatBoundsOk_rules regex hb) ctx h⟩

/-- The theorem `repeat_bounds_of_brace_bounds` on the pattern `a*x{2,4}y{3,}z?`. -/
theorem repeat_bounds_of_brace_bounds_witness :
    parse (ascii "a*x{2,4}y{3,}z?") =
        .ok { pos := 15,
              tokens := [Token.repeatT 0 (-1) (Token.literal 97),
                Token.repeatT 2 4 (Token.literal 120), Token.repeatT 3 (-1) (Token.literal 121),
                Token.repeatT 0 1 (Token.literal 122)] } ∧
      braceBoundsOk (ascii "a*x{2,4}y{3,}z?") = true ∧
      tokensAll repeatBoundsOk
        [Token.repeatT 0 (-1) (Token.literal 97), Token.repeatT 2 4 (Token.literal 120),
          Token.repeatT 3 (-1) (Token.literal 121), Token.repeatT 0 1 (Token.literal 122)] :=
  ⟨rfl, rfl,
    (repeat_bounds_of_brace_bounds (ascii "a*x{2,4}y{3,}z?")
      { pos := 15,
        tokens := [Token.repeatT 0 (-1) (Token.literal 97),
          Token.repeatT 2 4 (Token.literal 120), Token.repeatT 3 (-1) (Token.literal 121),
          Token.repeatT 0 1 (Token.literal 122)] } rfl).2 rfl⟩

/-! ## The search from the offset before the text -/

theorem check_det (nfa : Arena) (input : List Nat) (s : Nat) (pos : Int) (f g : Nat)
    (a b : Bool) (ha : check nfa input f s pos = .ok a) (hb : check nfa input g s pos = .ok b) :
    a = b := by
  have e1 := check_mono_le nfa input s pos a (Nat.le_max_left f g) ha
  have e2 := check_mono_le nfa input s pos b (Nat.le_max_right f g) hb
  rw [e1] at e2
  exact Except.ok.inj e2

theorem orElse_eq_false (a b : Except Err Bool) (h : orElse a b = .ok false) :
    a = .ok false ∧ b = .ok false := by
  cases a with
  | error e => simp [orElse] at h
  | ok v =>
    cases v with
    | true => simp [orElse] at h
    | false => exact ⟨rfl, h⟩

theorem orElse_eq_true (a b : Except Err Bool) (h : orElse a b = .ok true) :
    a = .ok true ∨ b = .ok true := by
  cases a with
  | error e => simp [orElse] at h
  | ok v =>
    cases v with
    | true => exact Or.inl rfl
    | false => exact Or.inr h

theorem foldr_orElse_false (r : Nat → Except Err Bool) :
    ∀ l : List Nat, l.foldr (fun t acc => orElse (r t) acc) (.ok false) = .ok false →
      ∀ t ∈ l, r t = .ok false := by
  intro l
  induction l with
  | nil => intro _ t ht; exact absurd ht (List.not_mem_nil t)
  | cons x xs ih =>
    intro h t ht
    rw [List.foldr_cons] at h
    obtain ⟨h1, h2⟩ := orElse_eq_false _ _ h
    rcases List.mem_cons.mp ht with e | e
    · rw [e]; exact h1
    · exact ih h2 t e

theorem foldr_orElse_true (r : Nat → Except Err Bool) :
    ∀ l : List Nat, l.foldr (fun t acc => orElse (r t) acc) (.ok false) = .ok true →
      ∃ t ∈ l, r t = .ok true := by
  intro l
  induction l with
  | nil => intro h; simp at h
  | cons x xs ih =>
    intro h
    rw [List.foldr_cons] at h
    rcases orElse_eq_true _ _ h with h1 | h1
    · exact ⟨x, List.mem_cons_self x xs, h1⟩
    · obtain ⟨t, ht, hr⟩ := ih h1
      exact ⟨t, List.mem_cons_of_mem x ht, hr⟩

theorem check_false_eps (nfa : Arena) (input : List Nat) (f s : Nat) (pos : Int)
    (h1 : getChar input pos ≠ startOfText) (h : check nfa input (f + 1) s pos = .ok false) :
    ∀ t ∈ transitionsAt nfa s epsilonChar, check nfa input f t pos = .ok false := by
  rw [check_step _ _ _ _ _ h1] at h
  split at h
  · simp at h
  · exact foldr_orElse_false _ _ (orElse_eq_false _ _ h).2

theorem epsLoop_start_true (rec : Nat → Int → Except Err Bool) (pos : Int) :
    ∀ l : List Nat, epsLoop rec startOfText pos l = .ok true →
      ∃ t ∈ l, rec t pos = .ok true ∨ rec t (pos + 1) = .ok true := by
  intro l
  induction l with
  | nil => intro h; simp [epsLoop] at h
  | cons x xs ih =>
    intro h
    rw [epsLoop] at h
    cases h1 : rec x pos with
    | error e => rw [h1] at h; simp at h
    | ok v =>
      cases v with
      | true => exact ⟨x, List.mem_cons_self x xs, Or.inl h1⟩
      | false =>
        rw [h1] at h
        simp only [if_true] at h
        cases h2 : rec x (pos + 1) with
        | error e => rw [h2] at h; simp at h
        | ok v2 =>
          cases v2 with
          | true => exact ⟨x, List.mem_cons_self x xs, Or.inr h2⟩
          | false =>
            rw [h2] at h
            obtain ⟨t, ht, hr⟩ := ih h
            exact ⟨t, List.mem_cons_of_mem x ht, hr⟩

theorem epsLoop_start_false (rec : Nat → Int → Except Err Bool) (pos : Int) :
    ∀ l : List Nat, epsLoop rec startOfText pos l = .ok false →
      ∀ t ∈ l, rec t pos = .ok false ∧ rec t (pos + 1) = .ok false := by
  intro l
  induction l with
  | nil => intro _ t ht; exact absurd ht (List.not_mem_nil t)
  | cons x xs ih =>
    intro h t ht
    rw [epsLoop] at h
    cases h1 : rec x pos with
    | error e => rw [h1] at h; simp at h
    | ok v =>
      cases v with
      | true => rw [h1] at h; simp at h
      | false =>
        rw [h1] at h
        simp only [if_true] at h
        cases h2 : rec x (pos + 1) with
        | error e => rw [h2] at h; simp at h
        | ok v2 =>
          cases v2 with
          | true => rw [h2] at h; simp at h
          | false =>
            rw [h2] at h
            rcases List.mem_cons.mp ht with e | e
            · rw [e]; exact ⟨h1, h2⟩
            · exact ih h t e

theorem getChar_neg_one (input : List Nat) : getChar input (-1) = startOfText := by
  unfold getChar
  have h1 : ¬ ((-1 : Int) ≥ (input.length : Int)) := by omega
  simp only [h1, if_false]
  rfl

/-- The call `check` at the offset -1: a transition on the start-of-text code, when the
state has one, then the epsilon destinations, each at the offsets -1 and 0. -/
theorem check_neg_one (nfa : Arena) (input : List Nat) (f s : Nat) :
    check nfa input (f + 1) s (-1) =
      match transitionsAt nfa s startOfText with
      | nextState :: _ =>
        match check nfa input f nextState 0 with
        | .error e => .error e
        | .ok true => .ok true
        | .ok false =>
          epsLoop (check nfa input f) startOfText (-1) (transitionsAt nfa s epsilonChar)
      | [] => epsLoop (check nfa input f) startOfText (-1) (transitionsAt nfa s epsilonChar) := by
  rw [check]
  have hne : ¬ (getChar input (-1) = endOfText ∧ (getState nfa s).isEnd = true) := by
    rw [getChar_neg_one]
    intro h
    exact absurd h.1 (by decide)
  simp only [if_neg hne, getChar_neg_one]
  rfl

theorem true_before_text (nfa : Arena) (input : List Nat) (hk : keyOneInEps nfa)
    (h1 : getChar input 0 ≠ startOfText) :
    ∀ (f s : Nat), check nfa input f s (-1) = .ok true →
      ∀ g, check nfa input g s 0 ≠ .ok false := by
  intro f
  induction f with
  | zero => intro s h; simp [check] at h
  | succ f ih =>
    intro s h g hg
    cases g with
    | zero => simp [check] at hg
    | succ g =>
      have hF := check_false_eps nfa input g s 0 h1 hg
      have hloop : epsLoop (check nfa input f) startOfText (-1)
          (transitionsAt nfa s epsilonChar) = .ok true → False := by
        intro hl
        obtain ⟨t, ht, hr⟩ := epsLoop_start_true _ _ _ hl
        rcases hr with hr | hr
        · exact ih t hr g (hF t ht)
        · have hr0 : check nfa input f t 0 = .ok true := hr
          exact absurd (check_det nfa input t 0 f g true false hr0 (hF t ht)) (by decide)
      rw [check_neg_one] at h
      cases hn : transitionsAt nfa s startOfText with
      | nil =>
        rw [hn] at h
        exact hloop h
      | cons n tl =>
        rw [hn] at h
        simp only at h
        cases hc : check nfa input f n 0 with
        | error e => rw [hc] at h; simp at h
        | ok v =>
          cases v with
          | true =>
            have hmem : n ∈ transitionsAt nfa s epsilonChar :=
              hk s n (by rw [hn]; exact List.mem_cons_self n tl)
            exact absurd (check_det nfa input n 0 f g true false hc (hF n hmem)) (by decide)
          | false =>
            rw [hc] at h
            exact hloop h

/-- On an arena in which every start-of-text destination is an epsilon destination, from a
root without end flag whose transitions are all epsilon transitions, and on an input whose
first symbol is neither the epsilon key nor the start-of-text code, the searches from the
offsets 0 and -1 return the same value when both return. -/
theorem check_root_offsets (nfa : Arena) (input : List Nat) (root : Nat)
    (hk : keyOneInEps nfa) (hE : (getState nfa root).isEnd = false)
    (hall : (getState nfa root).transitions.all (fun e => e.1 == epsilonChar) = true)
    (h0 : getChar input 0 ≠ epsilonChar) (h1 : getChar input 0 ≠ startOfText)
    (f g : Nat) (b c : Bool) (hb : check nfa input f root 0 = .ok b)
    (hc : check nfa input g root (-1) = .ok c) : b = c := by
  cases c with
  | true =>
    cases b with
    | true => rfl
    | false => exact absurd hb (true_before_text nfa input hk h1 g root hc f)
  | false =>
    cases b with
    | false => rfl
    | true =>
      exfalso
      cases g with
      | zero => simp [check] at hc
      | succ g =>
        cases f with
        | zero => simp [check] at hb
        | succ f =>
          have hno : transitionsAt nfa root startOfText = [] :=
            lookupKey_of_all_eps _ (by decide) _ hall
          rw [check_neg_one, hno] at hc
          have hfalse := epsLoop_start_false _ _ _ hc
          rw [check_eps nfa input f root 0 _ hE hall rfl h0 h1] at hb
          obtain ⟨t, ht, hr⟩ := foldr_orElse_true _ _ hb
          have h2 : check nfa input g t 0 = .ok false := (hfalse t ht).2
          exact absurd (check_det nfa input t 0 f g true false hr h2) (by decide)

/-! ## The arena under the writes of the compiler -/

theorem setTrans_length (a : Arena) (s k : Nat) (d : List Nat) :
    (setTrans a s k d).length = a.length := by
  unfold setTrans
  exact List.length_modify _ _ _

theorem getState_setTrans_ne (a : Arena) (s k : Nat) (d : List Nat) (i : Nat) (h : i ≠ s) :
    getState (setTrans a s k d) i = getState a i := by
  unfold getState setTrans
  rw [List.getD_eq_getElem?_getD, List.getD_eq_getElem?_getD, List.getElem?_modify]
  have hne : ¬ s = i := fun e => h e.symm
  simp only [hne, if_false]
  cases a[i]? <;> rfl

theorem getState_setTrans_self (a : Arena) (s k : Nat) (d : List Nat) (h : s < a.length) :
    getState (setTrans a s k d) s =
      { getState a s with transitions := (k, d) :: (getState a s).transitions } := by
  unfold getState setTrans
  rw [List.getD_eq_getElem?_getD, List.getD_eq_getElem?_getD, List.getElem?_modify]
  rw [List.getElem?_eq_getElem h]
  simp

theorem setTrans_out (a : Arena) (s k : Nat) (d : List Nat) (h : a.length ≤ s) :
    setTrans a s k d = a := by
  unfold setTrans
  exact List.modify_eq_self h

theorem transitionsAt_setTrans (a : Arena) (s k : Nat) (d : List Nat) (i c : Nat) :
    transitionsAt (setTrans a s k d) i c =
      if i = s ∧ s < a.length ∧ c = k then d else transitionsAt a i c := by
  by_cases his : i = s
  · by_cases hlt : s < a.length
    · subst his
      unfold transitionsAt
      rw [getState_setTrans_self a i k d hlt]
      by_cases hc : c = k
      · simp [lookupKey, hc, hlt]
      · simp [lookupKey, hc, hlt]
    · rw [setTrans_out a s k d (by omega)]
      simp [hlt]
  · unfold transitionsAt
    rw [getState_setTrans_ne a s k d i his]
    simp [his]

theorem transitionsAt_out (a : Arena) (i c : Nat) (h : a.length ≤ i) :
    transitionsAt a i c = [] := by
  unfold transitionsAt getState
  rw [List.getD_eq_default _ _ h]
  rfl

theorem transitionsAt_alloc (a : Arena) (x y : Bool) (i c : Nat) :
    transitionsAt (alloc a x y).2 i c = transitionsAt a i c := by
  unfold alloc
  by_cases h : i < a.length
  · unfold transitionsAt getState
    rw [List.getD_append _ _ _ _ h]
  · rw [transitionsAt_out a i c (by omega)]
    unfold transitionsAt getState
    rw [List.getD_append_right _ _ _ _ (by omega)]
    cases hi : i - a.length with
    | zero => rfl
    | succ n => rfl

theorem alloc_length (a : Arena) (x y : Bool) : (alloc a x y).2.length = a.length + 1 := by
  unfold alloc
  simp

theorem alloc_fst (a : Arena) (x y : Bool) : (alloc a x y).1 = a.length := rfl

theorem Ext.refl (a : Arena) : Ext a a := ⟨le_refl _, fun _ _ => rfl, fun h => h⟩

theorem Ext.trans {a b c : Arena} (h1 : Ext a b) (h2 : Ext b c) : Ext a c :=
  ⟨le_trans h1.len h2.len,
   fun i hi => by rw [h2.frame i (lt_of_lt_of_le hi h1.len), h1.frame i hi],
   fun h => h2.ke (h1.ke h)⟩

theorem NoOne.ext {a b : Arena} {i : Nat} (h : NoOne a i) (he : Ext a b) : NoOne b i :=
  ⟨lt_of_lt_of_le h.1 he.len, by rw [he.frame i h.1]; exact h.2⟩

theorem Ext_alloc (a : Arena) (x y : Bool) : Ext a (alloc a x y).2 :=
  ⟨by rw [alloc_length]; omega,
   fun i _ => transitionsAt_alloc a x y i _,
   fun h s t ht => by
     rw [transitionsAt_alloc] at ht ⊢
     exact h s t ht⟩

theorem NoOne_alloc (a : Arena) (x y : Bool) : NoOne (alloc a x y).2 a.length :=
  ⟨by rw [alloc_length]; omega, by
    rw [transitionsAt_alloc]
    exact transitionsAt_out a _ _ (le_refl _)⟩

theorem Ext_setTrans_eps (a : Arena) (s : Nat) (d : List Nat)
    (h : ∀ t ∈ transitionsAt a s startOfText, t ∈ d) : Ext a (setTrans a s epsilonChar d) := by
  refine ⟨by rw [setTrans_length], fun i _ => ?_, fun hk i t ht => ?_⟩
  · rw [transitionsAt_setTrans]
    have : ¬ (i = s ∧ s < a.length ∧ startOfText = epsilonChar) := fun e => absurd e.2.2 (by decide)
    rw [if_neg this]
  · rw [transitionsAt_setTrans] at ht ⊢
    have hne : ¬ (i = s ∧ s < a.length ∧ startOfText = epsilonChar) :=
      fun e => absurd e.2.2 (by decide)
    rw [if_neg hne] at ht
    by_cases hc : i = s ∧ s < a.length ∧ epsilonChar = epsilonChar
    · rw [if_pos hc]
      rw [hc.1] at ht
      exact h t ht
    · rw [if_neg hc]
      exact hk i t ht

theorem Ext_appendEps (a : Arena) (s d : Nat) : Ext a (appendEps a s d) := by
  unfold appendEps
  by_cases hlt : s < a.length
  · by_cases hk : keyOneInEps a
    · exact Ext_setTrans_eps a s _ (fun t ht => List.mem_append_left _ (hk s t ht))
    · refine ⟨by rw [setTrans_length], fun i _ => ?_, fun h => absurd h hk⟩
      rw [transitionsAt_setTrans]
      have : ¬ (i = s ∧ s < a.length ∧ startOfText = epsilonChar) :=
        fun e => absurd e.2.2 (by decide)
      rw [if_neg this]
  · rw [setTrans_out a s _ _ (by omega)]
    exact Ext.refl a

theorem Ext_setTrans_fresh (a : Arena) (s : Nat) (d : List Nat)
    (h : transitionsAt a s startOfText = []) : Ext a (setTrans a s epsilonChar d) :=
  Ext_setTrans_eps a s d (fun t ht => by rw [h] at ht; exact absurd ht (List.not_mem_nil t))

/-! ## The cases of the compiler -/

theorem tokenToNFA_literal_fresh (ch : Nat) (a : Arena) :
    tokenToNFA (.literal ch) a =
      .ok (a.length, a.length + 1, setTrans (twoFresh a) a.length ch [a.length + 1]) := by
  rw [tokenToNFA]
  simp [alloc, twoFresh]

theorem tokenToNFA_bracket (set : List Nat) (a : Arena) :
    tokenToNFA (.bracket set) a =
      .ok (a.length, a.length + 1,
        set.foldl (fun n l => setTrans n a.length l [a.length + 1]) (twoFresh a)) := by
  rw [tokenToNFA]
  simp [alloc, twoFresh]

theorem tokenToNFA_or (values : List Token) (a : Arena) :
    tokenToNFA (.or values) a =
      match tokensToNFA values with
      | left :: right :: _ =>
        match left (twoFresh a) with
        | .error e => .error e
        | .ok (s1, e1, n) =>
          match right n with
          | .error e => .error e
          | .ok (s2, e2, n) =>
            .ok (a.length, a.length + 1,
              setTrans (setTrans (setTrans n a.length epsilonChar [s1, s2]) e1 epsilonChar
                [a.length + 1]) e2 epsilonChar [a.length + 1])
      | _ => .error .panic := by
  rw [tokenToNFA]
  simp [alloc, twoFresh]

theorem tokenToNFA_group (tokens : List Token) (a : Arena) :
    tokenToNFA (.group tokens) a =
      match tokensToNFA tokens with
      | [] => .error .panic
      | first :: others =>
        match first (twoFresh a) with
        | .error e => .error e
        | .ok (start, endS, n) =>
          match chainLoop others endS n with
          | .error e => .error e
          | .ok (endS, n) => .ok (start, endS, n) := by
  rw [tokenToNFA]
  simp [alloc, twoFresh]

theorem tokenToNFA_groupUncaptured (tokens : List Token) (a : Arena) :
    tokenToNFA (.groupUncaptured tokens) a =
      match tokensToNFA tokens with
      | [] => .error .panic
      | first :: others =>
        match first (twoFresh a) with
        | .error e => .error e
        | .ok (start, endS, n) =>
          match chainLoop others endS n with
          | .error e => .error e
          | .ok (endS, n) => .ok (start, endS, n) := by
  rw [tokenToNFA]
  simp [alloc, twoFresh]

theorem tokenToNFA_repeat (min max : Int) (token : Token) (a : Arena) :
    tokenToNFA (.repeatT min max token) a =
      match tokenToNFA token
          (if min = 0 then setTrans (twoFresh a) a.length epsilonChar [a.length + 1]
            else twoFresh a) with
      | .error e => .error e
      | .ok (frm, toS, n) =>
        match repeatLoop (tokenToNFA token) min (a.length + 1)
            (copyIndices (if max = repeatInfinity then (if min = 0 then 1 else min) else max))
            frm toS (appendEps n a.length frm) with
        | .error e => .error e
        | .ok (frm, toS, n) =>
          .ok (a.length, a.length + 1,
            if max = repeatInfinity then appendEps (appendEps n toS (a.length + 1)) (a.length + 1) frm
            else appendEps n toS (a.length + 1)) := by
  rw [tokenToNFA]
  simp [alloc, twoFresh]

/-! ## Every fragment continues the arena -/

theorem twoFresh_length (a : Arena) : (twoFresh a).length = a.length + 2 := by
  unfold twoFresh
  rw [alloc_length, alloc_length]

theorem Ext_twoFresh (a : Arena) : Ext a (twoFresh a) :=
  (Ext_alloc a false false).trans (Ext_alloc _ false false)

theorem NoOne_twoFresh_start (a : Arena) : NoOne (twoFresh a) a.length :=
  (NoOne_alloc a false false).ext (Ext_alloc _ false false)

theorem NoOne_twoFresh_end (a : Arena) : NoOne (twoFresh a) (a.length + 1) := by
  have h := NoOne_alloc (alloc a false false).2 false false
  rw [alloc_length] at h
  exact h

theorem Ext_setTrans_key (a : Arena) (s k : Nat) (d : List Nat) (hk : k ≠ startOfText)
    (h : transitionsAt a s startOfText = []) : Ext a (setTrans a s k d) := by
  refine ⟨by rw [setTrans_length], fun i _ => ?_, fun hke i t ht => ?_⟩
  · rw [transitionsAt_setTrans]
    have : ¬ (i = s ∧ s < a.length ∧ startOfText = k) := fun e => hk e.2.2.symm
    rw [if_neg this]
  · rw [transitionsAt_setTrans] at ht ⊢
    have hne : ¬ (i = s ∧ s < a.length ∧ startOfText = k) := fun e => hk e.2.2.symm
    rw [if_neg hne] at ht
    by_cases hc : i = s ∧ s < a.length ∧ epsilonChar = k
    · rw [hc.1, h] at ht
      exact absurd ht (List.not_mem_nil t)
    · rw [if_neg hc]
      exact hke i t ht

theorem foldl_setTrans_length (st e : Nat) :
    ∀ (set : List Nat) (a : Arena),
      (set.foldl (fun n l => setTrans n st l [e]) a).length = a.length := by
  intro set
  induction set with
  | nil => intro a; rfl
  | cons x xs ih =>
    intro a
    rw [List.foldl_cons, ih, setTrans_length]

theorem transitionsAt_foldl (st e i c : Nat) :
    ∀ (set : List Nat) (a : Arena),
      transitionsAt (set.foldl (fun n l => setTrans n st l [e]) a) i c =
        if i = st ∧ st < a.length ∧ c ∈ set then [e] else transitionsAt a i c := by
  intro set
  induction set with
  | nil => intro a; simp
  | cons x xs ih =>
    intro a
    rw [List.foldl_cons, ih, setTrans_length, transitionsAt_setTrans]
    by_cases h1 : i = st ∧ st < a.length
    · by_cases h2 : c ∈ xs
      · simp [h1, h2]
      · by_cases h3 : c = x
        · simp [h1, h2, h3]
        · simp [h1, h2, h3]
    · have e1 : ¬ (i = st ∧ st < a.length ∧ c ∈ xs) := fun h => h1 ⟨h.1, h.2.1⟩
      have e2 : ¬ (i = st ∧ st < a.length ∧ c = x) := fun h => h1 ⟨h.1, h.2.1⟩
      have e3 : ¬ (i = st ∧ st < a.length ∧ c ∈ x :: xs) := fun h => h1 ⟨h.1, h.2.1⟩
      rw [if_neg e1, if_neg e2, if_neg e3]

theorem literal_post (ch : Nat) (h : ch ≠ startOfText) : CompPost (tokenToNFA (.literal ch)) := by
  intro a s e b heq
  rw [tokenToNFA_literal_fresh] at heq
  injection heq with heq
  injection heq with h1 heq
  injection heq with h2 h3
  subst h1 h2 h3
  have hx := Ext_setTrans_key (twoFresh a) a.length ch [a.length + 1] h (NoOne_twoFresh_start a).2
  exact ⟨(Ext_twoFresh a).trans hx, (NoOne_twoFresh_end a).ext hx⟩

theorem bracket_post (set : List Nat) (h : startOfText ∈ set → epsilonChar ∈ set) :
    CompPost (tokenToNFA (.bracket set)) := by
  intro a s e b heq
  rw [tokenToNFA_bracket] at heq
  injection heq with heq
  injection heq with h1 heq
  injection heq with h2 h3
  subst h1 h2 h3
  have hs := NoOne_twoFresh_start a
  have he := NoOne_twoFresh_end a
  have hx := Ext_twoFresh a
  refine ⟨⟨?_, ?_, ?_⟩, ?_, ?_⟩
  · rw [foldl_setTrans_length, twoFresh_length]; omega
  · intro i hi
    rw [transitionsAt_foldl]
    have hne : ¬ (i = a.length ∧ a.length < (twoFresh a).length ∧ startOfText ∈ set) :=
      fun e => by omega
    rw [if_neg hne]
    exact hx.frame i hi
  · intro hk i t ht
    have hk2 := hx.ke hk
    rw [transitionsAt_foldl] at ht ⊢
    by_cases hc : i = a.length ∧ a.length < (twoFresh a).length ∧ startOfText ∈ set
    · rw [if_pos hc] at ht
      rw [if_pos ⟨hc.1, hc.2.1, h hc.2.2⟩]
      exact ht
    · rw [if_neg hc] at ht
      by_cases hc2 : i = a.length ∧ a.length < (twoFresh a).length ∧ epsilonChar ∈ set
      · rw [hc2.1, hs.2] at ht
        exact absurd ht (List.not_mem_nil t)
      · rw [if_neg hc2]
        exact hk2 i t ht
  · rw [foldl_setTrans_length]; exact he.1
  · rw [transitionsAt_foldl]
    have hne : ¬ (a.length + 1 = a.length ∧ a.length < (twoFresh a).length ∧ startOfText ∈ set) :=
      fun e => by omega
    rw [if_neg hne]
    exact he.2

theorem chainLoop_post :
    ∀ (cs : List (Arena → Except Err (Nat × Nat × Arena))), (∀ c ∈ cs, CompPost c) →
      ∀ (endS : Nat) (a : Arena) (e : Nat) (b : Arena), NoOne a endS →
        chainLoop cs endS a = .ok (e, b) → Ext a b ∧ NoOne b e := by
  intro cs
  induction cs with
  | nil =>
    intro _ endS a e b hn h
    rw [chainLoop] at h
    injection h with h
    injection h with h1 h2
    subst h1 h2
    exact ⟨Ext.refl a, hn⟩
  | cons c cs ih =>
    intro hall endS a e b hn h
    rw [chainLoop] at h
    cases hc : c a with
    | error err => rw [hc] at h; simp at h
    | ok r =>
      obtain ⟨ts, te, a1⟩ := r
      rw [hc] at h
      simp only at h
      obtain ⟨hx, hn1⟩ := hall c (List.mem_cons_self c cs) a ts te a1 hc
      have hx2 := Ext_appendEps a1 endS ts
      obtain ⟨hx3, hn3⟩ := ih (fun c1 h1 => hall c1 (List.mem_cons_of_mem c h1)) te
        (appendEps a1 endS ts) e b (hn1.ext hx2) h
      exact ⟨hx.trans (hx2.trans hx3), hn3⟩

theorem repeatLoop_post (inner : Arena → Except Err (Nat × Nat × Arena)) (hin : CompPost inner)
    (min : Int) (endS : Nat) :
    ∀ (is : List Int) (frm toS : Nat) (a : Arena) (f t : Nat) (b : Arena), NoOne a toS →
      repeatLoop inner min endS is frm toS a = .ok (f, t, b) → Ext a b ∧ NoOne b t := by
  intro is
  induction is with
  | nil =>
    intro frm toS a f t b hn h
    rw [repeatLoop] at h
    injection h with h
    injection h with h1 h
    injection h with h2 h3
    subst h1 h2 h3
    exact ⟨Ext.refl a, hn⟩
  | cons i is ih =>
    intro frm toS a f t b hn h
    rw [repeatLoop] at h
    cases hc : inner a with
    | error err => rw [hc] at h; simp at h
    | ok r =>
      obtain ⟨s, e, a1⟩ := r
      rw [hc] at h
      simp only at h
      obtain ⟨hx, hn1⟩ := hin a s e a1 hc
      have hx2 := Ext_appendEps a1 toS s
      have hx3 : Ext (appendEps a1 toS s)
          (if i > min then appendEps (appendEps a1 toS s) s endS else appendEps a1 toS s) := by
        split
        · exact Ext_appendEps _ s endS
        · exact Ext.refl _
      obtain ⟨hx4, hn4⟩ := ih s e _ f t b ((hn1.ext hx2).ext hx3) h
      exact ⟨hx.trans (hx2.trans (hx3.trans hx4)), hn4⟩

theorem group_post (cs : List (Arena → Except Err (Nat × Nat × Arena)))
    (a : Arena) (s e : Nat) (b : Arena)
    (h : (match cs with
      | [] => .error .panic
      | first :: others =>
        match first (twoFresh a) with
        | .error e => .error e
        | .ok (start, endS, n) =>
          match chainLoop others endS n with
          | .error e => .error e
          | .ok (endS, n) => .ok (start, endS, n)) = (.ok (s, e, b) : Except Err (Nat × Nat × Arena)))
    (hall : ∀ c ∈ cs, CompPost c) : Ext a b ∧ NoOne b e := by
  cases cs with
  | nil => simp at h
  | cons first others =>
    simp only at h
    cases hf : first (twoFresh a) with
    | error err => rw [hf] at h; simp at h
    | ok r =>
      obtain ⟨s1, e1, a1⟩ := r
      rw [hf] at h
      simp only at h
      obtain ⟨hx, hn⟩ := hall first (List.mem_cons_self _ _) _ s1 e1 a1 hf
      cases hc : chainLoop others e1 a1 with
      | error err => rw [hc] at h; simp at h
      | ok r2 =>
        obtain ⟨e2, a2⟩ := r2
        rw [hc] at h
        simp only at h
        injection h with h
        injection h with h1 h
        injection h with h2 h3
        subst h1 h2 h3
        obtain ⟨hx2, hn2⟩ := chainLoop_post others
          (fun c1 h1 => hall c1 (List.mem_cons_of_mem _ h1)) e1 a1 e2 a2 hn hc
        exact ⟨(Ext_twoFresh a).trans (hx.trans hx2), hn2⟩

theorem or_post (cs : List (Arena → Except Err (Nat × Nat × Arena)))
    (a : Arena) (s e : Nat) (b : Arena)
    (h : (match cs with
      | left :: right :: _ =>
        match left (twoFresh a) with
        | .error e => .error e
        | .ok (s1, e1, n) =>
          match right n with
          | .error e => .error e
          | .ok (s2, e2, n) =>
            .ok (a.length, a.length + 1,
              setTrans (setTrans (setTrans n a.length epsilonChar [s1, s2]) e1 epsilonChar
                [a.length + 1]) e2 epsilonChar [a.length + 1])
      | _ => .error .panic) = (.ok (s, e, b) : Except Err (Nat × Nat × Arena)))
    (hall : ∀ c ∈ cs, CompPost c) : Ext a b ∧ NoOne b e := by
  rcases cs with _ | ⟨left, _ | ⟨right, rest⟩⟩
  · simp at h
  · simp at h
  · simp only at h
    cases hl : left (twoFresh a) with
    | error err => rw [hl] at h; simp at h
    | ok r =>
      obtain ⟨s1, e1, a1⟩ := r
      rw [hl] at h
      simp only at h
      cases hr : right a1 with
      | error err => rw [hr] at h; simp at h
      | ok r2 =>
        obtain ⟨s2, e2, a2⟩ := r2
        rw [hr] at h
        simp only at h
        injection h with h
        injection h with h1 h
        injection h with h2 h3
        subst h1 h2 h3
        obtain ⟨hx1, hn1⟩ := hall left (List.mem_cons_self _ _) _ s1 e1 a1 hl
        obtain ⟨hx2, hn2⟩ := hall right
          (List.mem_cons_of_mem _ (List.mem_cons_self _ _)) _ s2 e2 a2 hr
        have hs : NoOne a2 a.length := ((NoOne_twoFresh_start a).ext hx1).ext hx2
        have he : NoOne a2 (a.length + 1) := ((NoOne_twoFresh_end a).ext hx1).ext hx2
        have hy1 := Ext_setTrans_fresh a2 a.length [s1, s2] hs.2
        have hy2 := Ext_setTrans_fresh _ e1 [a.length + 1] (((hn1.ext hx2).ext hy1).2)
        have hy3 := Ext_setTrans_fresh _ e2 [a.length + 1] (((hn2.ext hy1).ext hy2).2)
        exact ⟨(Ext_twoFresh a).trans (hx1.trans (hx2.trans (hy1.trans (hy2.trans hy3)))),
          ((he.ext hy1).ext hy2).ext hy3⟩

theorem repeat_post (inner : Arena → Except Err (Nat × Nat × Arena)) (hin : CompPost inner)
    (min max : Int) (a : Arena) (s e : Nat) (b : Arena)
    (h : (match inner
          (if min = 0 then setTrans (twoFresh a) a.length epsilonChar [a.length + 1]
            else twoFresh a) with
      | .error e => .error e
      | .ok (frm, toS, n) =>
        match repeatLoop inner min (a.length + 1)
            (copyIndices (if max = repeatInfinity then (if min = 0 then 1 else min) else max))
            frm toS (appendEps n a.length frm) with
        | .error e => .error e
        | .ok (frm, toS, n) =>
          .ok (a.length, a.length + 1,
            if max = repeatInfinity then appendEps (appendEps n toS (a.length + 1)) (a.length + 1) frm
            else appendEps n toS (a.length + 1))) = (.ok (s, e, b) : Except Err (Nat × Nat × Arena))) :
    Ext a b ∧ NoOne b e := by
  have hx0 : Ext (twoFresh a)
      (if min = 0 then setTrans (twoFresh a) a.length epsilonChar [a.length + 1]
        else twoFresh a) := by
    split
    · exact Ext_setTrans_fresh _ _ _ (NoOne_twoFresh_start a).2
    · exact Ext.refl _
  generalize (if min = 0 then setTrans (twoFresh a) a.length epsilonChar [a.length + 1]
        else twoFresh a) = a0 at h hx0
  cases hi : inner a0 with
  | error err => rw [hi] at h; simp at h
  | ok r =>
    obtain ⟨frm, toS, a1⟩ := r
    rw [hi] at h
    simp only at h
    obtain ⟨hx1, hn1⟩ := hin a0 frm toS a1 hi
    have hx2 := Ext_appendEps a1 a.length frm
    generalize (copyIndices (if max = repeatInfinity then (if min = 0 then 1 else min) else max))
      = is at h
    cases hl : repeatLoop inner min (a.length + 1) is frm toS (appendEps a1 a.length frm) with
    | error err => rw [hl] at h; simp at h
    | ok r2 =>
      obtain ⟨frm2, toS2, a2⟩ := r2
      rw [hl] at h
      simp only at h
      injection h with h
      injection h with h1 h
      injection h with h2 h3
      subst h1 h2
      obtain ⟨hx3, _⟩ := repeatLoop_post inner hin min (a.length + 1) is frm toS _ frm2 toS2 a2
        (hn1.ext hx2) hl
      have hx4 := Ext_appendEps a2 toS2 (a.length + 1)
      have hx5 : Ext (appendEps a2 toS2 (a.length + 1)) b := by
        rw [← h3]
        split
        · exact Ext_appendEps _ _ _
        · exact Ext.refl _
      have hall := hx0.trans (hx1.trans (hx2.trans (hx3.trans (hx4.trans hx5))))
      exact ⟨(Ext_twoFresh a).trans hall, (NoOne_twoFresh_end a).ext hall⟩

mutual
/-- Every fragment compiled from a token tree whose nodes satisfy `keyOk` continues the
arena and has an exit without transition on the start-of-text code. -/
theorem tokenToNFA_post : ∀ t : Token, tokenAll keyOk t → CompPost (tokenToNFA t)
  | .literal ch, h => literal_post ch h
  | .bracket set, h => bracket_post set h
  | .or values, h => by
    intro a s e b heq
    rw [tokenToNFA_or] at heq
    exact or_post _ a s e b heq (tokensToNFA_post values h.2)
  | .group tokens, h => by
    intro a s e b heq
    rw [tokenToNFA_group] at heq
    exact group_post _ a s e b heq (tokensToNFA_post tokens h.2)
  | .groupUncaptured tokens, h => by
    intro a s e b heq
    rw [tokenToNFA_groupUncaptured] at heq
    exact group_post _ a s e b heq (tokensToNFA_post tokens h.2)
  | .repeatT min max token, h => by
    intro a s e b heq
    rw [tokenToNFA_repeat] at heq
    exact repeat_post _ (tokenToNFA_post token h.2) min max a s e b heq
/-- The compilers of a token sequence whose nodes satisfy `keyOk` all continue the arena. -/
theorem tokensToNFA_post : ∀ ts : List Token, tokensAll keyOk ts →
    ∀ c ∈ tokensToNFA ts, CompPost c
  | [], _ => by
    intro c hc
    rw [tokensToNFA] at hc
    exact absurd hc (List.not_mem_nil c)
  | t :: ts, h => by
    intro c hc
    rw [tokensToNFA] at hc
    rcases List.mem_cons.mp hc with e | e
    · rw [e]; exact tokenToNFA_post t h.1
    · exact tokensToNFA_post ts h.2 c e
end

/-! ## The automaton of a whole pattern -/

theorem getState_alloc_lt (a : Arena) (x y : Bool) (i : Nat) (h : i < a.length) :
    getState (alloc a x y).2 i = getState a i := by
  unfold alloc getState
  exact List.getD_append _ _ _ _ h

theorem getState_alloc_new (a : Arena) (x y : Bool) :
    getState (alloc a x y).2 a.length = { start := x, isEnd := y, transitions := [] } := by
  unfold alloc getState
  rw [List.getD_append_right _ _ _ _ (le_refl _), Nat.sub_self]
  rfl

theorem keyOneInEps_nil : keyOneInEps [] := by
  intro s t ht
  rw [transitionsAt_out [] s _ (Nat.zero_le _)] at ht
  exact absurd ht (List.not_mem_nil t)

/-- The last statements of `toNFA`, from the allocation of the synthetic start state on. -/
theorem toNFA_tail (a2 : Arena) (s1 e2 : Nat) (hn : NoOne a2 e2) (hk : keyOneInEps a2) :
    keyOneInEps
        (setTrans (alloc (setTrans (alloc a2 true false).2 a2.length epsilonChar [s1]) false true).2
          e2 epsilonChar
          (transitionsAt
              (alloc (setTrans (alloc a2 true false).2 a2.length epsilonChar [s1]) false true).2
              (setTrans (alloc a2 true false).2 a2.length epsilonChar [s1]).length epsilonChar ++
            [(setTrans (alloc a2 true false).2 a2.length epsilonChar [s1]).length])) ∧
      getState
        (setTrans (alloc (setTrans (alloc a2 true false).2 a2.length epsilonChar [s1]) false true).2
          e2 epsilonChar
          (transitionsAt
              (alloc (setTrans (alloc a2 true false).2 a2.length epsilonChar [s1]) false true).2
              (setTrans (alloc a2 true false).2 a2.length epsilonChar [s1]).length epsilonChar ++
            [(setTrans (alloc a2 true false).2 a2.length epsilonChar [s1]).length])) a2.length =
        { start := true, isEnd := false, transitions := [(epsilonChar, [s1])] } := by
  have hx3 := Ext_alloc a2 true false
  have hn3 := NoOne_alloc a2 true false
  have hx4 := Ext_setTrans_fresh (alloc a2 true false).2 a2.length [s1] hn3.2
  generalize ha4 : setTrans (alloc a2 true false).2 a2.length epsilonChar [s1] = a4 at hx4 ⊢
  have hx5 := Ext_alloc a4 false true
  have hne : NoOne (alloc a4 false true).2 e2 := ((hn.ext hx3).ext hx4).ext hx5
  have hx6 := Ext_setTrans_fresh (alloc a4 false true).2 e2
    (transitionsAt (alloc a4 false true).2 a4.length epsilonChar ++ [a4.length]) hne.2
  refine ⟨hx6.ke (hx5.ke (hx4.ke (hx3.ke hk))), ?_⟩
  have hlt : a2.length < a4.length := by
    rw [← ha4, setTrans_length, alloc_length]; omega
  rw [getState_setTrans_ne _ _ _ _ _ (by have := hn.1; omega), getState_alloc_lt _ _ _ _ hlt,
    ← ha4, getState_setTrans_self _ _ _ _ hn3.1, getState_alloc_new]

theorem toNFA_shape (ctx : ParseContext) (root : Nat) (nfa : Arena)
    (hk : tokensAll keyOk ctx.tokens) (h : toNFA ctx = .ok (root, nfa)) :
    keyOneInEps nfa ∧ ∃ s1, getState nfa root =
      { start := true, isEnd := false, transitions := [(epsilonChar, [s1])] } := by
  have hall := tokensToNFA_post ctx.tokens hk
  unfold toNFA at h
  generalize tokensToNFA ctx.tokens = cs at h hall
  cases cs with
  | nil => simp at h
  | cons first others =>
    simp only at h
    cases hf : first [] with
    | error err => rw [hf] at h; simp at h
    | ok r =>
      obtain ⟨s1, e1, a1⟩ := r
      rw [hf] at h
      simp only at h
      obtain ⟨hx1, hn1⟩ := hall first (List.mem_cons_self _ _) _ s1 e1 a1 hf
      cases hc : chainLoop others e1 a1 with
      | error err => rw [hc] at h; simp at h
      | ok r2 =>
        obtain ⟨e2, a2⟩ := r2
        rw [hc] at h
        obtain ⟨hx2, hn2⟩ := chainLoop_post others
          (fun c1 h1 => hall c1 (List.mem_cons_of_mem _ h1)) e1 a1 e2 a2 hn1 hc
        have hka2 : keyOneInEps a2 := hx2.ke (hx1.ke keyOneInEps_nil)
        obtain ⟨hke, hroot⟩ := toNFA_tail a2 s1 e2 hn2 hka2
        have h2 : (Except.ok (a2.length,
            setTrans (alloc (setTrans (alloc a2 true false).2 a2.length epsilonChar [s1])
                false true).2 e2 epsilonChar
              (transitionsAt
                  (alloc (setTrans (alloc a2 true false).2 a2.length epsilonChar [s1])
                    false true).2
                  (setTrans (alloc a2 true false).2 a2.length epsilonChar [s1]).length
                  epsilonChar ++
                [(setTrans (alloc a2 true false).2 a2.length epsilonChar [s1]).length]))
            : Except Err (Nat × Arena)) = .ok (root, nfa) := h
        injection h2 with h2
        injection h2 with h3 h4
        subst h3 h4
        exact ⟨hke, s1, hroot⟩

/-! ## The tokens of a pattern without the code 1 -/

theorem sprintfC_head_ne (ch : Nat) (h : ch ≠ 1) (tl : List Nat) :
    (sprintfC ch ++ tl).head? ≠ some 1 := by
  unfold sprintfC
  split
  · simpa using h
  · simp
    omega

theorem bracketScan_heads :
    ∀ (k : Nat) (l : List Nat) (literals : List (List Nat)) (n : Nat)
      (lits : List (List Nat)) (m : Nat),
      l.length ≤ k → 1 ∉ l → (∀ x ∈ literals, x.head? ≠ some 1) →
      bracketScan l literals n = .ok (lits, m) → ∀ x ∈ lits, x.head? ≠ some 1 := by
  intro k
  induction k with
  | zero =>
    intro l literals n lits m hk _ _ h
    have hl : l = [] := List.length_eq_zero.mp (Nat.le_zero.mp hk)
    subst hl
    simp [bracketScan] at h
  | succ k ih =>
    intro l literals n lits m hk h1 hinv h
    cases l with
    | nil => simp [bracketScan] at h
    | cons ch rest =>
      have hch1 : ch ≠ 1 := fun e => h1 (e ▸ List.mem_cons_self ch rest)
      have hrest : 1 ∉ rest := fun hh => h1 (List.mem_cons_of_mem ch hh)
      have hlen : rest.length ≤ k := by simp only [List.length_cons] at hk; omega
      by_cases h93 : ch = 93
      · cases rest <;>
        · simp only [bracketScan, if_pos h93] at h
          injection h with h
          injection h with h2 h3
          rw [← h2]
          exact hinv
      · by_cases h45 : ch = 45
        · cases rest with
          | nil => simp [bracketScan, h93, h45] at h
          | cons next rest1 =>
            cases hg : literals.getLast? with
            | none => simp [bracketScan, h93, h45, hg] at h
            | some lit =>
              cases hh : lit.head? with
              | none => simp [bracketScan, h93, h45, hg, hh] at h
              | some prev =>
                simp only [bracketScan, if_neg h93, if_pos h45, hg, hh] at h
                have hlit : lit ∈ literals := List.mem_of_mem_getLast? hg
                have hprev : prev ≠ 1 := fun e => hinv lit hlit (by rw [hh, e])
                refine ih rest1 _ _ lits m (by simp only [List.length_cons] at hlen; omega)
                  (fun hh1 => hrest (List.mem_cons_of_mem next hh1)) ?_ h
                intro x hx
                rcases List.mem_append.mp hx with hx | hx
                · exact hinv x (List.mem_of_mem_dropLast hx)
                · rw [List.mem_singleton.mp hx]
                  exact sprintfC_head_ne prev hprev _
        · have hstep : bracketScan (ch :: rest) literals n =
              bracketScan rest (literals ++ [sprintfC ch]) (n + 1) := by
            cases rest <;> simp only [bracketScan, if_neg h93, if_neg h45]
          rw [hstep] at h
          refine ih rest _ _ lits m hlen hrest ?_ h
          intro x hx
          rcases List.mem_append.mp hx with hx | hx
          · exact hinv x hx
          · rw [List.mem_singleton.mp hx]
            have := sprintfC_head_ne ch hch1 []
            rwa [List.append_nil] at this

theorem mem_foldl_setInsert (x : Nat) :
    ∀ (xs set : List Nat), x ∈ xs.foldl setInsert set ↔ x ∈ set ∨ x ∈ xs := by
  intro xs
  induction xs with
  | nil => intro set; simp
  | cons y ys ih =>
    intro set
    rw [List.foldl_cons, ih]
    unfold setInsert
    by_cases hy : y ∈ set
    · rw [if_pos hy]
      constructor
      · rintro (h | h)
        · exact Or.inl h
        · exact Or.inr (List.mem_cons_of_mem y h)
      · rintro (h | h)
        · exact Or.inl h
        · rcases List.mem_cons.mp h with e | e
          · exact Or.inl (e ▸ hy)
          · exact Or.inr e
    · rw [if_neg hy]
      simp only [List.mem_append, List.mem_singleton, List.mem_cons]
      tauto

theorem expandLiteral_keyOk (set set1 l : List Nat) (hl : l.head? ≠ some 1)
    (hs : startOfText ∈ set → epsilonChar ∈ set) (h : expandLiteral set l = .ok set1) :
    startOfText ∈ set1 → epsilonChar ∈ set1 := by
  unfold expandLiteral at h
  rcases l with _ | ⟨lo, _ | ⟨hi, tl⟩⟩
  · simp at h
  · simp at h
  · simp only at h
    injection h with h
    rw [← h, mem_foldl_setInsert, mem_foldl_setInsert]
    have hlo : lo ≠ 1 := fun e => hl (by rw [e]; rfl)
    rintro (h1 | h1)
    · exact Or.inl (hs h1)
    · right
      obtain ⟨k, hk, hk1⟩ := List.mem_map.mp h1
      rw [List.mem_range] at hk
      have h0 : lo = 0 := by
        have : lo + k = 1 := hk1
        omega
      exact List.mem_map.mpr ⟨0, List.mem_range.mpr (by omega), by rw [h0]; rfl⟩

theorem expandLiterals_keyOk :
    ∀ (literals : List (List Nat)) (set set1 : List Nat),
      (∀ x ∈ literals, x.head? ≠ some 1) → (startOfText ∈ set → epsilonChar ∈ set) →
      expandLiterals literals set = .ok set1 → startOfText ∈ set1 → epsilonChar ∈ set1 := by
  intro literals
  induction literals with
  | nil =>
    intro set set1 _ hs h
    rw [expandLiterals] at h
    injection h with h
    rw [← h]
    exact hs
  | cons l ls ih =>
    intro set set1 hinv hs h
    rw [expandLiterals] at h
    cases he : expandLiteral set l with
    | error err => rw [he] at h; simp at h
    | ok set2 =>
      rw [he] at h
      exact ih set2 set1 (fun x hx => hinv x (List.mem_cons_of_mem l hx))
        (expandLiteral_keyOk set set2 l (hinv l (List.mem_cons_self l ls)) hs he) h

theorem keyOk_rules (regex : List Nat) (h1 : 1 ∉ regex) : NodeRules keyOk regex where
  lit := fun c hc e => h1 (by rw [show (1 : Nat) = c from e.symm]; exact hc)
  group := fun _ => trivial
  uncaptured := fun _ => trivial
  alt := fun _ => trivial
  star := fun _ => trivial
  opt := fun _ => trivial
  plus := fun _ => trivial
  brace := fun _ _ _ _ _ _ => trivial
  bracket := fun pos literals n set hb hx =>
    expandLiterals_keyOk literals [] set
      (bracketScan_heads _ _ [] 0 literals n (le_refl _)
        (fun hm => h1 (List.mem_of_mem_drop hm))
        (fun x hx1 => absurd hx1 (List.not_mem_nil x)) hb)
      (fun hm => absurd hm (List.not_mem_nil _)) hx

theorem getChar_zero_of_head (input : List Nat) (c : Nat) (hc : c ≠ endOfText)
    (h : input.head? ≠ some c) : getChar input 0 ≠ c := by
  cases input with
  | nil => exact fun e => hc e.symm
  | cons x xs =>
    have hx : getChar (x :: xs) 0 = x := by
      unfold getChar
      simp
    rw [hx]
    exact fun e => h (by rw [← e]; rfl)

/-! ## The search from the offset 0 and from the offset -1 -/

/-- C20, as stated, fails: the pattern `a` has no symbol of code 1 and compiles, and on the
input of the two bytes 0 and `a` the search from the offset 0 returns true, the byte 0 being
read as the epsilon key, while the search from the offset -1 returns false; the same holds
on the input of the two bytes 1 and `a`, the byte 1 being read as the start-of-text
sentinel. -/
theorem offset_before_text_differs :
    1 ∉ ascii "a" ∧
      parse (ascii "a") = .ok { pos := 1, tokens := [Token.literal 97] } ∧
      toNFA { pos := 1, tokens := [Token.literal 97] } = .ok (2, literalArena 97 []) ∧
      check (literalArena 97 []) [0, 97] 10 2 0 = .ok true ∧
      check (literalArena 97 []) [0, 97] 10 2 (-1) = .ok false ∧
      check (literalArena 97 []) [1, 97] 10 2 0 = .ok true ∧
      check (literalArena 97 []) [1, 97] 10 2 (-1) = .ok false :=
  ⟨by decide, rfl, rfl, rfl, rfl, rfl, rfl⟩

/-- C20, amended: for every pattern without a symbol of code 1 on which `parse` and `toNFA`
succeed, and every input whose first symbol, when there is one, is neither the code 0 nor
the code 1, the searches `check` from the root at the offset 0 and at the offset -1 return
the same boolean whenever both return. -/
theorem offset_before_text_same (regex input : List Nat) (ctx : ParseContext) (root : Nat)
    (nfa : Arena) (h1 : 1 ∉ regex) (hp : parse regex = .ok ctx)
    (hn : toNFA ctx = .ok (root, nfa))
    (hi0 : input.head? ≠ some 0) (hi1 : input.head? ≠ some 1)
    (f g : Nat) (b c : Bool) (hb : check nfa input f root 0 = .ok b)
    (hc : check nfa input g root (-1) = .ok c) : b = c := by
  have hk := parse_all keyOk regex (keyOk_rules regex h1) ctx hp
  obtain ⟨hke, s1, hroot⟩ := toNFA_shape ctx root nfa hk hn
  refine check_root_offsets nfa input root hke ?_ ?_
    (getChar_zero_of_head input 0 (by decide) hi0)
    (getChar_zero_of_head input 1 (by decide) hi1) f g b c hb hc
  · rw [hroot]
  · rw [hroot]
    rfl

/-- The theorem `offset_before_text_same` on the pattern `ab` and the input `ab`. -/
theorem offset_before_text_same_witness :
    1 ∉ ascii "ab" ∧
      parse (ascii "ab") = .ok { pos := 2, tokens := [Token.literal 97, Token.literal 98] } ∧
      toNFA { pos := 2, tokens := [Token.literal 97, Token.literal 98] } =
        .ok (4, literalArena 97 [98]) ∧
      (ascii "ab").head? ≠ some 0 ∧ (ascii "ab").head? ≠ some 1 ∧
      check (literalArena 97 [98]) (ascii "ab") 10 4 0 = .ok true ∧
      check (literalArena 97 [98]) (ascii "ab") 10 4 (-1) = .ok true ∧ true = true :=
  ⟨by decide, rfl, rfl, by decide, by decide, rfl, rfl,
    offset_before_text_same (ascii "ab") (ascii "ab")
      { pos := 2, tokens := [Token.literal 97, Token.literal 98] } 4 (literalArena 97 [98])
      (by decide) rfl rfl (by decide) (by decide) 10 10 true true rfl rfl⟩

end RegexGo
